import Mathlib

/-!
# The two-stage trie of `src/trie.h` and `src/trie/trie.cpp`

A shallow embedding of `trie::FastTrie` (the pointer tree) and of
`trie::SerializedTrie` (the flat, breadth-first encoding), followed by the
properties of the two lookups.  The embedding of the callback registry
`EventBus` of `src/event_bus` comes after the definitions of the trie, its
properties after those of the trie.

Conventions of the embedding.

* A string is a `List Nat` of 8-bit code units.  `char` is the signed 8-bit
  type of the usual x86 ABI, so `std::numeric_limits<char>::max() + 1 = 128`;
  a code unit `c < 128` is the `char` of value `c`, a code unit `c ≥ 128` is a
  negative `char`.
* Reading or writing a `std::vector` outside its bounds is undefined
  behaviour in C++.  Every function that can do so returns an `Option`, and
  `none` stands for exactly that fault.
* `int16_t` and `uint16_t` conversions are explicit (`toInt16`, `toUInt16`).
-/

namespace trie

/-! ## The data model (`src/trie.h`) -/

/-- The constant `alphabet_size = std::numeric_limits<char>::max() + 1`. -/
def alphabet_size : Nat := 127 + 1

/-- The struct `FastTrie::TrieNode`: a table of owned, nullable children and
the end-of-word flag. -/
inductive TrieNode where
  | mk (children : List (Option TrieNode)) (is_end_of_word : Bool) : TrieNode

namespace TrieNode

/-- Field `children`. -/
def children : TrieNode → List (Option TrieNode)
  | mk cs _ => cs

/-- Field `is_end_of_word`. -/
def is_end_of_word : TrieNode → Bool
  | mk _ e => e

/-- A default-constructed node: `alphabet_size` null children, flag `false`. -/
def fresh : TrieNode := mk (List.replicate alphabet_size none) false

mutual
/-- Number of nodes of the tree below and including a node. -/
def size : TrieNode → Nat
  | mk cs _ => 1 + sizeList cs
/-- Number of nodes held by a table of children. -/
def sizeList : List (Option TrieNode) → Nat
  | [] => 0
  | none :: rest => sizeList rest
  | some n :: rest => size n + sizeList rest
end

end TrieNode

/-- The constant `SerializedTrie::terminating_character`, the line feed. -/
def terminating_character : Nat := 10

/-- The struct `SerializedTrie::SerialTrieNode`. -/
structure SerialTrieNode where
  children_offset : Int
  character : Nat
  is_leaf : Bool
  deriving DecidableEq, Repr

/-- The constructor `SerialTrieNode(char c, bool leaf = false)`: the offset
keeps its default member initialiser `-1`. -/
def SerialTrieNode.new (c : Nat) (leaf : Bool) : SerialTrieNode :=
  { children_offset := -1, character := c, is_leaf := leaf }

/-- Conversion of an integer to `uint16_t`. -/
def toUInt16 (x : Int) : Int := x % 65536

/-- Conversion of an integer to `int16_t` (two's complement wrap-around). -/
def toInt16 (x : Int) : Int := (x + 32768) % 65536 - 32768

/-! ## `FastTrie` (`src/trie/trie.cpp`, lines 11-36) -/

namespace FastTrie

/-- The body of the outer loop of the constructor `FastTrie::FastTrie` for one
key, started at `node`: walk the key, create the missing children, set the
flag of the node reached.  `children[character]` is inside the table only for
`character < alphabet_size`. -/
def insertKey : TrieNode → List Nat → Option TrieNode
  | node, [] => some (TrieNode.mk node.children true)
  | node, character :: rest =>
    if character < alphabet_size then
      match insertKey ((node.children.getD character none).getD TrieNode.fresh) rest with
      | some child =>
        some (TrieNode.mk (node.children.set character (some child)) node.is_end_of_word)
      | none => none
    else none

/-- The constructor `FastTrie::FastTrie(keys)`: the root after all keys. -/
def build (keys : List (List Nat)) : Option TrieNode :=
  keys.foldlM insertKey TrieNode.fresh

/-- The method `FastTrie::search`, started at `node`. -/
def search : TrieNode → List Nat → Option Bool
  | node, [] => some node.is_end_of_word
  | node, character :: rest =>
    if character < alphabet_size then
      match node.children.getD character none with
      | none => some false
      | some child => search child rest
    else none

end FastTrie

/-! ## `SerializedTrie` (`src/trie/trie.cpp`, lines 38-89) -/

namespace SerializedTrie

/-- The statement
`if (idx >= 0 && nodes[idx].children_offset < 0) nodes[idx].children_offset = static_cast<uint16_t>(nodes.size() - idx);`.
A non-negative `idx` is always the index of an emitted entry
(`queueIdx_toNat_le`), so the read is inside the vector. -/
def recordOffset (nodes : List SerialTrieNode) (idx : Int) : List SerialTrieNode :=
  if 0 ≤ idx then
    match nodes[idx.toNat]? with
    | some e =>
      if e.children_offset < 0 then
        nodes.set idx.toNat
          { e with children_offset := toInt16 (toUInt16 ((nodes.length : Int) - idx)) }
      else nodes
    | none => nodes
  else nodes

/-- The state of the inner loop: `nodes`, `to_visit`, `has_children`. -/
abbrev VisitState := List SerialTrieNode × List (TrieNode × Int) × Bool

/-- The body of `if (node->children[i] != nullptr)` for the child found. -/
def emitChild (idx : Int) (st : VisitState) (i : Nat) (child : TrieNode) : VisitState :=
  let nodes1 := recordOffset st.1 idx
  let nodes2 := nodes1 ++ [SerialTrieNode.new i child.is_end_of_word]
  (nodes2, st.2.1 ++ [(child, toInt16 (toUInt16 (nodes2.length : Int) - 1))], true)

/-- One iteration of `for (int i = 0; i < alphabet_size; ++i)`. -/
def visitChild (node : TrieNode) (idx : Int) (st : VisitState) (i : Nat) : VisitState :=
  match node.children.getD i none with
  | none => st
  | some child => emitChild idx st i child

/-- One iteration of `while (!to_visit.empty())` for the dequeued
`(node, idx)`: the inner loop, then the sentinel when a child was emitted. -/
def visitNode (nodes : List SerialTrieNode) (to_visit : List (TrieNode × Int))
    (node : TrieNode) (idx : Int) : List SerialTrieNode × List (TrieNode × Int) :=
  let st := (List.range alphabet_size).foldl (visitChild node idx) (nodes, to_visit, false)
  (if st.2.2 then st.1 ++ [SerialTrieNode.new terminating_character false] else st.1, st.2.1)

/-- The loop `while (!to_visit.empty())`, with a bound on the number of
iterations; `flattenLoop_fuel` shows that the bound used by `build` is never
reached before the queue is empty. -/
def flattenLoop : Nat → List SerialTrieNode → List (TrieNode × Int) → List SerialTrieNode
  | 0, nodes, _ => nodes
  | _ + 1, nodes, [] => nodes
  | fuel + 1, nodes, (node, idx) :: rest =>
    flattenLoop fuel (visitNode nodes rest node idx).1 (visitNode nodes rest node idx).2

/-- The flattening of a tree: the loop started with `(root, -1)` in the queue
and no entry. -/
def flatten (root : TrieNode) : List SerialTrieNode :=
  flattenLoop root.size [] [(root, -1)]

/-- The constructor `SerializedTrie::SerializedTrie(keys)`: the vector
`nodes`. -/
def build (keys : List (List Nat)) : Option (List SerialTrieNode) :=
  (FastTrie.build keys).map flatten

/-- The read `nodes[curr_node]` of `search`. -/
def readNode (nodes : List SerialTrieNode) (curr_node : Int) : Option SerialTrieNode :=
  if curr_node < 0 then none else nodes[curr_node.toNat]?

/-- The loop
`while (nodes[curr_node].character != terminating_character && nodes[curr_node].character != key[i]) curr_node++;`
over the entries from `curr_node` on; the result is the final `curr_node`. -/
def scanRun (c : Nat) : List SerialTrieNode → Int → Option Int
  | [], _ => none
  | e :: es, curr_node =>
    if e.character ≠ terminating_character ∧ e.character ≠ c then scanRun c es (curr_node + 1)
    else some curr_node

/-- The loop `for (int i = 0; i < key.size(); ++i)` of `search` and the final
`return nodes[curr_node].is_leaf`; `first` is `i == 0`. -/
def searchLoop (nodes : List SerialTrieNode) : List Nat → Bool → Int → Option Bool
  | [], _, curr_node => (readNode nodes curr_node).map (fun e => e.is_leaf)
  | c :: rest, first, curr_node =>
    (if first then some curr_node
      else (readNode nodes curr_node).map (fun e => curr_node + e.children_offset)).bind
    fun start =>
      (if start < 0 then none else scanRun c (nodes.drop start.toNat) start).bind
      fun found =>
        (readNode nodes found).bind
        fun e =>
          if e.character = terminating_character then some false
          else searchLoop nodes rest false found

/-- The method `SerializedTrie::search`. -/
def search (nodes : List SerialTrieNode) (key : List Nat) : Option Bool :=
  searchLoop nodes key true 0

end SerializedTrie

/-! ## Definitions used to state the properties -/

namespace TrieNode

/-- The child `children[c]` of a node, for a code unit inside the table. -/
def child (n : TrieNode) (c : Nat) : Option TrieNode :=
  if c < alphabet_size then n.children.getD c none else none

/-- The node reached from `n` along the edges labelled by a string, if all of
them are present. -/
def descend : TrieNode → List Nat → Option TrieNode
  | n, [] => some n
  | n, c :: rest =>
    match n.child c with
    | none => none
    | some ch => descend ch rest

/-- The flag of the node reached along a string, `false` when an edge is
absent. -/
def member : TrieNode → List Nat → Bool
  | n, [] => n.is_end_of_word
  | n, c :: rest =>
    match n.child c with
    | none => false
    | some ch => member ch rest

/-- Whether every edge of a string is present below `n`. -/
def hasPath : TrieNode → List Nat → Bool
  | _, [] => true
  | n, c :: rest =>
    match n.child c with
    | none => false
    | some ch => hasPath ch rest

/-- Every table of the tree has `alphabet_size` slots. -/
inductive WF : TrieNode → Prop
  | mk (cs : List (Option TrieNode)) (e : Bool) (hlen : cs.length = alphabet_size)
      (hch : ∀ ch, some ch ∈ cs → WF ch) : WF (TrieNode.mk cs e)

end TrieNode

namespace FastTrie

/-- The tree that `insertKey` returns when no index leaves the table. -/
def ins : TrieNode → List Nat → TrieNode
  | node, [] => TrieNode.mk node.children true
  | node, character :: rest =>
    TrieNode.mk
      (node.children.set character
        (some (ins ((node.children.getD character none).getD TrieNode.fresh) rest)))
      node.is_end_of_word

end FastTrie

/-- All code units of a string are below `alphabet_size`. -/
def InRange (key : List Nat) : Prop := ∀ c ∈ key, c < alphabet_size

instance (key : List Nat) : Decidable (InRange key) := by
  unfold InRange; infer_instance

/-- All keys of a list have their code units below `alphabet_size`. -/
def KeysInRange (keys : List (List Nat)) : Prop := ∀ key ∈ keys, InRange key

instance (keys : List (List Nat)) : Decidable (KeysInRange keys) := by
  unfold KeysInRange; infer_instance

/-- The children of a node, with their code units, in the order in which the
inner loop of the flattener meets them. -/
def TrieNode.present (n : TrieNode) : List (Nat × TrieNode) :=
  (List.range alphabet_size).filterMap
    (fun i => (n.children.getD i none).map (fun ch => (i, ch)))

namespace SerializedTrie

/-- The entries emitted for a run of children. -/
def childEntries (l : List (Nat × TrieNode)) : List SerialTrieNode :=
  l.map (fun x => SerialTrieNode.new x.1 x.2.is_end_of_word)

/-- The index pushed on the queue with a child emitted at position `pos`. -/
def queueIdx (pos : Nat) : Int := toInt16 (toUInt16 ((pos + 1 : Nat) : Int) - 1)

/-- The queue elements pushed for a run of children emitted from `pos` on. -/
def childQueue : Nat → List (Nat × TrieNode) → List (TrieNode × Int)
  | _, [] => []
  | pos, x :: l => (x.2, queueIdx pos) :: childQueue (pos + 1) l

/-- Total number of tree nodes held by the queue. -/
def queueSize (q : List (TrieNode × Int)) : Nat := (q.map (fun x => x.1.size)).sum

end SerializedTrie

/-- Number of tree nodes held by one slot of a table. -/
def TrieNode.slotSize : Option TrieNode → Nat
  | none => 0
  | some n => n.size

namespace SerializedTrie

/-- The sentinel entry appended after a run. -/
def sentinel : SerialTrieNode := SerialTrieNode.new terminating_character false

/-- The run of the children of `n` starts at index `s` of `out`: one entry per
child, in the order of `n.present`, then one sentinel entry; the entry of a
child without children keeps the offset `-1`, the entry of a child with
children has a positive offset that leads to the run of that child. -/
inductive Laid (out : List SerialTrieNode) : Nat → TrieNode → Prop
  | mk (s : Nat) (n : TrieNode)
      (hentry : ∀ j c ch, n.present[j]? = some (c, ch) →
        ∃ e, out[s + j]? = some e ∧ e.character = c ∧ e.is_leaf = ch.is_end_of_word ∧
          (ch.present = [] → e.children_offset = -1) ∧
          (ch.present ≠ [] → 0 < e.children_offset))
      (hbelow : ∀ j c ch e, n.present[j]? = some (c, ch) → out[s + j]? = some e →
        ch.present ≠ [] → Laid out (s + j + e.children_offset.toNat) ch)
      (hsent : out[s + n.present.length]? = some sentinel) :
      Laid out s n

/-- Every queue element owns an emitted entry whose offset is still unset, and
no two elements own the same entry. -/
def Pending (nodes : List SerialTrieNode) (q : List (TrieNode × Int)) : Prop :=
  (∀ x ∈ q, ∃ (p : Nat) (e : SerialTrieNode),
      x.2 = (p : Int) ∧ nodes[p]? = some e ∧ e.children_offset = -1) ∧
    (q.map Prod.snd).Nodup

/-- What the finished sequence holds for a queue element. -/
def Settled (out : List SerialTrieNode) (x : TrieNode × Int) : Prop :=
  ∃ (p : Nat) (e : SerialTrieNode), x.2 = (p : Int) ∧ out[p]? = some e ∧
    (x.1.present = [] → e.children_offset = -1) ∧
    (x.1.present ≠ [] → 0 < e.children_offset ∧ Laid out (p + e.children_offset.toNat) x.1)

/-- The finished sequence keeps the code unit and the flag of every entry
already emitted, and the whole entry unless a queue element owns it. -/
def Frame (nodes : List SerialTrieNode) (q : List (TrieNode × Int))
    (out : List SerialTrieNode) : Prop :=
  ∀ (p : Nat) (e : SerialTrieNode), nodes[p]? = some e →
    ∃ e', out[p]? = some e' ∧ e'.character = e.character ∧
      e'.is_leaf = e.is_leaf ∧ ((p : Int) ∉ q.map Prod.snd → e' = e)

end SerializedTrie

/-! ## Definitions used to state the layout and the length of the flat sequence -/

/-- The value of an 8-bit code unit read as a `char` (signed, two's
complement): the index that `children[character]` uses. -/
def charValue (c : Nat) : Int := if c < 128 then (c : Int) else (c : Int) - 256

namespace SerializedTrie

/-- The run of the children of `n` starts at index `s` of `out`: the entries
at `s`, `s + 1`, ... carry the code units and the flags of the children of
`n`, in the order of `n.present`, and one sentinel entry follows them inside
the sequence. -/
def RunAt (out : List SerialTrieNode) (s : Nat) (n : TrieNode) : Prop :=
  (∀ j c ch, n.present[j]? = some (c, ch) →
    ∃ e, out[s + j]? = some e ∧ e.character = c ∧ e.is_leaf = ch.is_end_of_word) ∧
  out[s + n.present.length]? = some sentinel

/-- The entry at index `p` of `out` encodes the node `n` of the tree below
`root`: it lies in the run of the root, which starts at index `0`, or in the
run that the offset of an entry encoding the parent of `n` leads to. -/
inductive Encodes (out : List SerialTrieNode) (root : TrieNode) : Nat → TrieNode → Prop
  | ofRoot (j c : Nat) (ch : TrieNode) (h : root.present[j]? = some (c, ch)) :
      Encodes out root j ch
  | ofChild (p : Nat) (n : TrieNode) (e : SerialTrieNode) (j c : Nat) (ch : TrieNode)
      (hp : Encodes out root p n) (he : out[p]? = some e)
      (h : n.present[j]? = some (c, ch)) :
      Encodes out root (p + e.children_offset.toNat + j) ch

/-- The offsets that `search` adds to `curr_node`, in the order in which it
adds them: the loop of `searchLoop`, keeping the offsets instead of the
result. -/
def searchJumps (nodes : List SerialTrieNode) : List Nat → Bool → Int → List Int
  | [], _, _ => []
  | c :: rest, first, curr_node =>
    match (if first then some (curr_node, [])
      else (readNode nodes curr_node).map
        (fun e => (curr_node + e.children_offset, [e.children_offset]))) with
    | none => []
    | some (start, jump) =>
      jump ++
        match (if start < 0 then none else scanRun c (nodes.drop start.toNat) start) with
        | none => []
        | some found =>
          match readNode nodes found with
          | none => []
          | some e =>
            if e.character = terminating_character then []
            else searchJumps nodes rest false found

end SerializedTrie

namespace SerializedTrie

/-- The indices at which the scan loop of `search` reads `nodes`, started at
`curr_node` on the entries from there on: the entries it skips and the entry
on which it stops, or the first index behind the sequence. -/
def scanReads (c : Nat) : List SerialTrieNode → Int → List Int
  | [], curr_node => [curr_node]
  | e :: es, curr_node =>
    if e.character ≠ terminating_character ∧ e.character ≠ c then
      curr_node :: scanReads c es (curr_node + 1)
    else [curr_node]

/-- The indices at which `search` reads `nodes`, in order: the loop of
`searchLoop`, keeping the indices instead of the result. -/
def searchReads (nodes : List SerialTrieNode) : List Nat → Bool → Int → List Int
  | [], _, curr_node => [curr_node]
  | c :: rest, first, curr_node =>
    (if first then [] else [curr_node]) ++
      match (if first then some curr_node
        else (readNode nodes curr_node).map (fun e => curr_node + e.children_offset)) with
      | none => []
      | some start =>
        (if start < 0 then [start] else scanReads c (nodes.drop start.toNat) start) ++
          match (if start < 0 then none else scanRun c (nodes.drop start.toNat) start) with
          | none => []
          | some found =>
            match readNode nodes found with
            | none => []
            | some e =>
              if e.character = terminating_character then []
              else searchReads nodes rest false found

end SerializedTrie

namespace TrieNode

/-- The present children of a table, with their indices counted from `i`. -/
def presentFrom : Nat → List (Option TrieNode) → List (Nat × TrieNode)
  | _, [] => []
  | i, none :: rest => presentFrom (i + 1) rest
  | i, some n :: rest => (i, n) :: presentFrom (i + 1) rest

mutual
/-- The non-empty strings that label a path from a node downwards: one per
node below it. -/
def nonRootPaths : TrieNode → List (List Nat)
  | mk cs _ => pathsFrom cs 0
/-- The paths that start in a table whose first slot has index `i`. -/
def pathsFrom : List (Option TrieNode) → Nat → List (List Nat)
  | [], _ => []
  | none :: rest, i => pathsFrom rest (i + 1)
  | some n :: rest, i =>
    ([i] :: (nonRootPaths n).map (fun w => i :: w)) ++ pathsFrom rest (i + 1)
end

mutual
/-- The strings, the empty one included, that label a path from a node to a
node with at least one child: one per such node. -/
def innerPaths : TrieNode → List (List Nat)
  | mk cs _ => (if cs.any Option.isSome then [[]] else []) ++ innerFrom cs 0
/-- The paths to nodes with children that start in a table whose first slot
has index `i`. -/
def innerFrom : List (Option TrieNode) → Nat → List (List Nat)
  | [], _ => []
  | none :: rest, i => innerFrom rest (i + 1)
  | some n :: rest, i => (innerPaths n).map (fun w => i :: w) ++ innerFrom rest (i + 1)
end

/-- The number of flat entries emitted below a node: one per node below it
and one sentinel per node with at least one child. -/
def flatCount (n : TrieNode) : Nat := n.nonRootPaths.length + n.innerPaths.length

end TrieNode

/-- The non-empty prefixes of the keys, with repetitions. -/
def nonEmptyPrefixes (keys : List (List Nat)) : List (List Nat) :=
  (keys.flatMap List.inits).filter (fun w => w ≠ [])

/-- The proper prefixes of the keys, the empty string included, with
repetitions. -/
def properPrefixes (keys : List (List Nat)) : List (List Nat) :=
  keys.flatMap (fun key => key.inits.filter (fun w => w ≠ key))

end trie

/-!
# The callback registry of `src/event_bus/event_bus.hpp` and `event_bus.cpp`

Conventions of the embedding.

* Event names and event arguments are strings, `List Nat` of code units.
* A callback can change the variables it captured: it is a function from the
  argument and the state `σ` of the calling program to an action and the new
  state.  A callback does not call back into the bus.
* `std::list` iterators stay valid until their node is erased.  The iterator
  stored for an ID is modelled by the event name of the queue that holds the
  node; the node is the one that carries the ID.  Writing through an iterator
  whose node has been erased is undefined behaviour, `none` in the model.
-/

/-- The enum `EventBus::eActionOnReturn`. -/
inductive EventBus.eActionOnReturn where
  | kNone
  | kCancel
  | kDefer
  deriving DecidableEq, Repr

/-- The type `EventBus::callbackImpl`,
`std::function<eActionOnReturn(const std::string&)>`. -/
abbrev EventBus.callbackImpl (σ : Type) := List Nat → σ → EventBus.eActionOnReturn × σ

/-- The type `EventBus::cbQueue`, `std::list<std::pair<callbackImpl, uint64_t>>`. -/
abbrev EventBus.cbQueue (σ : Type) := List (EventBus.callbackImpl σ × Nat)

/-- The data members of the class `EventBus`.  A name without an entry in
`registered_callbacks_` has the empty queue, which is what `operator[]`
creates on first use. -/
structure EventBus (σ : Type) where
  registered_callbacks_ : List Nat → EventBus.cbQueue σ
  id_callback_map : Nat → Option (List Nat)
  case_sensitive_event_names_ : Bool
  next_unique_id : Nat

namespace EventBus

variable {σ : Type}

/-- The constructor `EventBus(bool case_sensitive = true)`. -/
def new (case_sensitive : Bool) : EventBus σ :=
  { registered_callbacks_ := fun _ => []
    id_callback_map := fun _ => none
    case_sensitive_event_names_ := case_sensitive
    next_unique_id := 0 }

/-- The static member `noopCallback`. -/
def noopCallback : callbackImpl σ := fun _ w => (eActionOnReturn.kNone, w)

/-- The function `::tolower` of the "C" locale on one code unit. -/
def tolower (c : Nat) : Nat := if 65 ≤ c ∧ c ≤ 90 then c + 32 else c

/-- The method `preprocessEventName`. -/
def preprocessEventName (b : EventBus σ) (event_name : List Nat) : List Nat :=
  if !b.case_sensitive_event_names_ then event_name.map tolower else event_name

/-- The method `addImpl`, for the queue `registered_callbacks_[event_name]`:
the returned ID and the new bus. -/
def addImpl (b : EventBus σ) (event_name : List Nat) (new_callback : callbackImpl σ) :
    Nat × EventBus σ :=
  (b.next_unique_id,
    { b with
      registered_callbacks_ := fun n =>
        if n = event_name then b.registered_callbacks_ n ++ [(new_callback, b.next_unique_id)]
        else b.registered_callbacks_ n
      id_callback_map := fun i =>
        if i = b.next_unique_id then some event_name else b.id_callback_map i
      next_unique_id := (b.next_unique_id + 1) % 2 ^ 64 })

/-- The method `addCallback`: the return value of the callback is ignored. -/
def addCallback (b : EventBus σ) (event_name : List Nat) (new_callback : List Nat → σ → σ) :
    Nat × EventBus σ :=
  b.addImpl (b.preprocessEventName event_name)
    (fun str w => (eActionOnReturn.kNone, new_callback str w))

/-- The method `addCallbackWithAction`: the action of the callback is
propagated. -/
def addCallbackWithAction (b : EventBus σ) (event_name : List Nat)
    (new_callback : callbackImpl σ) : Nat × EventBus σ :=
  b.addImpl (b.preprocessEventName event_name) new_callback

/-- The method `cancelCallback`: the returned flag and the new bus.  The
statement `id_callback_map[callback_id]->first = noopCallback` replaces the
callback of the node that carries the ID, in the queue the iterator belongs
to; it is the fault `none` when that queue no longer holds the node. -/
def cancelCallback (b : EventBus σ) (callback_id : Nat) : Option (Bool × EventBus σ) :=
  match b.id_callback_map callback_id with
  | some event_name =>
    if (b.registered_callbacks_ event_name).any (fun x => x.2 = callback_id) then
      some (true,
        { b with
          registered_callbacks_ := fun n =>
            if n = event_name then
              (b.registered_callbacks_ n).map
                (fun x => if x.2 = callback_id then (noopCallback, x.2) else x)
            else b.registered_callbacks_ n
          id_callback_map := fun i => if i = callback_id then none else b.id_callback_map i })
    else none
  | none => some (false, b)

/-- The outcome of the loop of `invokeCallbacks`: the action returned, the
queue and the ID map left, the state of the calling program, and the IDs of
the entries whose callback was executed with the action each returned. -/
structure RunResult (σ : Type) where
  action : eActionOnReturn
  queue : cbQueue σ
  ids : Nat → Option (List Nat)
  world : σ
  executed : List (Nat × eActionOnReturn)

/-- The loop `while (!callback_queue.empty())` of `invokeCallbacks` and the
final `return eActionOnReturn::kNone`. -/
def runQueue (event_argument : List Nat) :
    cbQueue σ → (Nat → Option (List Nat)) → σ → RunResult σ
  | [], ids, w => ⟨eActionOnReturn.kNone, [], ids, w, []⟩
  | (callback, id) :: rest, ids, w =>
    if (callback event_argument w).1 = eActionOnReturn.kCancel then
      ⟨eActionOnReturn.kCancel, [], fun i => if i = id then none else ids i,
        (callback event_argument w).2, [(id, eActionOnReturn.kCancel)]⟩
    else if (callback event_argument w).1 = eActionOnReturn.kDefer then
      ⟨eActionOnReturn.kDefer, rest, fun i => if i = id then none else ids i,
        (callback event_argument w).2, [(id, eActionOnReturn.kDefer)]⟩
    else
      let r := runQueue event_argument rest (fun i => if i = id then none else ids i)
        (callback event_argument w).2
      { r with executed := (id, (callback event_argument w).1) :: r.executed }

/-- The outcome of `invokeCallbacks`. -/
structure InvokeResult (σ : Type) where
  action : eActionOnReturn
  bus : EventBus σ
  world : σ
  executed : List (Nat × eActionOnReturn)

/-- The method `invokeCallbacks`. -/
def invokeCallbacks (b : EventBus σ) (event_name : List Nat) (event_argument : List Nat)
    (w : σ) : InvokeResult σ :=
  let r := runQueue event_argument
    (b.registered_callbacks_ (b.preprocessEventName event_name)) b.id_callback_map w
  { action := r.action
    bus :=
      { b with
        registered_callbacks_ := fun n =>
          if n = b.preprocessEventName event_name then r.queue else b.registered_callbacks_ n
        id_callback_map := r.ids }
    world := r.world
    executed := r.executed }

/-- The queue that `invokeCallbacks` and the add methods use for a name. -/
def queueOf (b : EventBus σ) (event_name : List Nat) : cbQueue σ :=
  b.registered_callbacks_ (b.preprocessEventName event_name)

/-- The state of the calling program after the callbacks of a queue have been
executed one after the other, each once, with the same argument. -/
def runAll (event_argument : List Nat) (q : cbQueue σ) (w : σ) : σ :=
  q.foldl (fun w x => (x.1 event_argument w).2) w

/-- Two code units are the same letter up to ASCII case, or equal. -/
def sameCodeUnitUpToCase (c d : Nat) : Prop :=
  c = d ∨ (65 ≤ c ∧ c ≤ 90 ∧ d = c + 32) ∨ (65 ≤ d ∧ d ≤ 90 ∧ c = d + 32)

/-- Two names differ only in ASCII letter case. -/
def SameUpToCase (n₁ n₂ : List Nat) : Prop := List.Forall₂ sameCodeUnitUpToCase n₁ n₂

end EventBus

/-! ## The test cases of `src/event_bus/tests.cpp`

The captured variable `val` is the state of the calling program. -/

namespace EventBus

/-- The string "EventName". -/
def strEventName : List Nat := [69, 118, 101, 110, 116, 78, 97, 109, 101]

/-- The string "word". -/
def strWord : List Nat := [119, 111, 114, 100]

/-- The string "unused". -/
def strUnused : List Nat := [117, 110, 117, 115, 101, 100]

/-- The string "test". -/
def strTest : List Nat := [116, 101, 115, 116]

/-- The string "SendEmail". -/
def strSendEmail : List Nat := [83, 101, 110, 100, 69, 109, 97, 105, 108]

/-- The string "SENDEMAIL". -/
def strSENDEMAIL : List Nat := [83, 69, 78, 68, 69, 77, 65, 73, 76]

/-- The string "sendemail". -/
def strSendemail : List Nat := [115, 101, 110, 100, 101, 109, 97, 105, 108]

/-- The string "Send email". -/
def strSendSpaceEmail : List Nat := [83, 101, 110, 100, 32, 101, 109, 97, 105, 108]

/-- TEST_CASE "Test double invoke": the bus after the two `addCallback`
calls (`val += s.size()`, then `val *= s.size()`). -/
def doubleInvokeBus : EventBus Nat :=
  (((EventBus.new true).addCallback strEventName (fun s val => val + s.length)).2.addCallback
    strEventName (fun s val => val * s.length)).2

/-- The lambda `cancelOdd` of the test cases on special actions,
`return ++val % 2 ? cbAction::kNone : action;`. -/
def cancelOdd (action : eActionOnReturn) : callbackImpl Nat :=
  fun _ val => (if (val + 1) % 2 ≠ 0 then eActionOnReturn.kNone else action, val + 1)

/-- TEST_CASE "Test special ations - cancelation" and "- deferring": the bus
after the three `addCallbackWithAction` calls. -/
def cancelOddBus (action : eActionOnReturn) : EventBus Nat :=
  ((((EventBus.new true).addCallbackWithAction strEventName (cancelOdd action)).2
    |>.addCallbackWithAction strEventName (cancelOdd action)).2
    |>.addCallbackWithAction strEventName (cancelOdd action)).2

/-- TEST_CASE "Test case insensitive event names": the bus after the four
`addCallback` calls of `addLen` (`val += s.size()`). -/
def caseInsensitiveBus : EventBus Nat :=
  (((((EventBus.new false).addCallback strSendEmail (fun s val => val + s.length)).2
    |>.addCallback strSENDEMAIL (fun s val => val + s.length)).2
    |>.addCallback strSendemail (fun s val => val + s.length)).2
    |>.addCallback strSendSpaceEmail (fun s val => val + s.length)).2

end EventBus

namespace trie

/-! ## Lemmas on `FastTrie` -/

theorem TrieNode.member_eq_descend (n : TrieNode) (k : List Nat) :
    n.member k = (match n.descend k with
      | none => false
      | some m => m.is_end_of_word) := by
  induction k generalizing n with
  | nil => rfl
  | cons c rest ih =>
    simp only [TrieNode.member, TrieNode.descend]
    cases h : n.child c with
    | none => rfl
    | some ch => simpa using ih ch

theorem TrieNode.hasPath_eq_descend (n : TrieNode) (k : List Nat) :
    n.hasPath k = (n.descend k).isSome := by
  induction k generalizing n with
  | nil => rfl
  | cons c rest ih =>
    simp only [TrieNode.hasPath, TrieNode.descend]
    cases h : n.child c with
    | none => rfl
    | some ch => simpa using ih ch

theorem FastTrie.insertKey_eq (node : TrieNode) (key : List Nat) :
    FastTrie.insertKey node key = if InRange key then some (FastTrie.ins node key) else none := by
  induction key generalizing node with
  | nil => simp [FastTrie.insertKey, FastTrie.ins, InRange]
  | cons c rest ih =>
    simp only [FastTrie.insertKey, FastTrie.ins, ih]
    by_cases hc : c < alphabet_size
    · by_cases hr : InRange rest
      · have : InRange (c :: rest) := by
          intro x hx
          rcases List.mem_cons.1 hx with rfl | hx
          · exact hc
          · exact hr x hx
        simp [hc, hr, this]
      · have : ¬ InRange (c :: rest) := fun h => hr (fun x hx => h x (List.mem_cons_of_mem _ hx))
        simp [hc, hr, this]
    · have : ¬ InRange (c :: rest) := fun h => hc (h c (List.mem_cons_self _ _))
      simp [hc, this]

theorem FastTrie.search_eq_member (node : TrieNode) (k : List Nat) (hk : InRange k) :
    FastTrie.search node k = some (node.member k) := by
  induction k generalizing node with
  | nil => rfl
  | cons c rest ih =>
    have hc : c < alphabet_size := hk c (List.mem_cons_self _ _)
    have hr : InRange rest := fun x hx => hk x (List.mem_cons_of_mem _ hx)
    simp only [FastTrie.search, TrieNode.member, TrieNode.child, hc, if_true]
    cases h : node.children.getD c none with
    | none => rfl
    | some ch => simpa using ih ch hr

theorem TrieNode.WF_fresh : TrieNode.fresh.WF :=
  TrieNode.WF.mk _ _ (by simp) (by
    intro ch hch
    have := List.eq_of_mem_replicate hch
    cases this)

theorem TrieNode.child_fresh (c : Nat) : TrieNode.fresh.child c = none := by
  unfold TrieNode.child TrieNode.fresh TrieNode.children
  split
  · rename_i h
    simp [List.getElem?_replicate, h]
  · rfl

theorem TrieNode.WF.length {n : TrieNode} (h : n.WF) : n.children.length = alphabet_size := by
  cases h with
  | mk cs e hlen hch => exact hlen

theorem TrieNode.WF.of_child {n ch : TrieNode} {c : Nat} (h : n.WF) (hc : n.child c = some ch) :
    ch.WF := by
  cases h with
  | mk cs e hlen hch =>
    apply hch
    unfold TrieNode.child at hc
    split at hc
    · simp only [TrieNode.children] at hc
      rw [List.getD_eq_getElem?_getD] at hc
      cases hg : cs[c]? with
      | none => simp [hg] at hc
      | some v =>
        simp [hg] at hc
        subst hc
        exact List.getElem?_mem hg
    · cases hc

theorem TrieNode.child_eq (n : TrieNode) (c : Nat) (hc : c < alphabet_size) :
    n.child c = (n.children[c]?).getD none := by
  simp [TrieNode.child, hc]

theorem FastTrie.is_end_of_word_ins_cons (node : TrieNode) (c : Nat) (rest : List Nat) :
    (FastTrie.ins node (c :: rest)).is_end_of_word = node.is_end_of_word := rfl

theorem FastTrie.child_ins_nil (node : TrieNode) (d : Nat) :
    (FastTrie.ins node []).child d = node.child d := rfl

theorem FastTrie.child_ins_same (node : TrieNode) (h : node.WF) (c : Nat) (rest : List Nat)
    (hc : c < alphabet_size) :
    (FastTrie.ins node (c :: rest)).child c
      = some (FastTrie.ins ((node.child c).getD TrieNode.fresh) rest) := by
  have hl := h.length
  rw [TrieNode.child_eq _ _ hc, TrieNode.child_eq _ _ hc]
  cases node with
  | mk cs e =>
    simp only [TrieNode.children] at hl
    simp only [FastTrie.ins, TrieNode.children, List.getD_eq_getElem?_getD]
    rw [List.getElem?_set]
    simp [hl, hc]

theorem FastTrie.child_ins_ne (node : TrieNode) (c d : Nat) (rest : List Nat) (hcd : c ≠ d) :
    (FastTrie.ins node (c :: rest)).child d = node.child d := by
  unfold TrieNode.child
  split
  · simp only [FastTrie.ins, TrieNode.children, List.getD_eq_getElem?_getD]
    rw [List.getElem?_set_ne hcd]
  · rfl

theorem FastTrie.WF_ins (node : TrieNode) (h : node.WF) (key : List Nat) :
    (FastTrie.ins node key).WF := by
  induction key generalizing node with
  | nil =>
    cases h with
    | mk cs e hlen hch => exact TrieNode.WF.mk cs true hlen hch
  | cons c rest ih =>
    cases h with
    | mk cs e hlen hch =>
      refine TrieNode.WF.mk _ _ (by simpa [TrieNode.children] using hlen) ?_
      intro ch hmem
      rcases List.mem_or_eq_of_mem_set hmem with hm | he
      · exact hch ch hm
      · cases he
        apply ih
        simp only [TrieNode.children, List.getD_eq_getElem?_getD]
        cases hg : cs[c]? with
        | none => exact TrieNode.WF_fresh
        | some v =>
          cases v with
          | none => exact TrieNode.WF_fresh
          | some w => exact hch w (List.getElem?_mem hg)

theorem TrieNode.member_fresh (k : List Nat) : TrieNode.fresh.member k = false := by
  cases k with
  | nil => rfl
  | cons c rest => simp [TrieNode.member, TrieNode.child_fresh]

theorem TrieNode.hasPath_fresh (k : List Nat) : TrieNode.fresh.hasPath k = true ↔ k = [] := by
  cases k with
  | nil => simp [TrieNode.hasPath]
  | cons c rest => simp [TrieNode.hasPath, TrieNode.child_fresh]

theorem FastTrie.member_ins (node : TrieNode) (h : node.WF) (key : List Nat) (hkey : InRange key)
    (k : List Nat) :
    (FastTrie.ins node key).member k = true ↔ k = key ∨ node.member k = true := by
  induction key generalizing node k with
  | nil =>
    cases k with
    | nil => simp [TrieNode.member, FastTrie.ins, TrieNode.is_end_of_word]
    | cons d r => simp [TrieNode.member, FastTrie.child_ins_nil]
  | cons c rest ih =>
    have hc : c < alphabet_size := hkey c (List.mem_cons_self _ _)
    have hr : InRange rest := fun x hx => hkey x (List.mem_cons_of_mem _ hx)
    cases k with
    | nil => simp [TrieNode.member, FastTrie.is_end_of_word_ins_cons]
    | cons d r =>
      by_cases hdc : d = c
      · subst hdc
        simp only [TrieNode.member, FastTrie.child_ins_same node h d rest hc]
        cases hch : node.child d with
        | none =>
          rw [Option.getD_none, ih _ TrieNode.WF_fresh hr]
          simp [TrieNode.member_fresh]
        | some ch =>
          rw [Option.getD_some, ih _ (h.of_child hch) hr]
          simp
      · simp only [TrieNode.member, FastTrie.child_ins_ne node c d rest (Ne.symm hdc)]
        simp [hdc]

theorem FastTrie.hasPath_ins (node : TrieNode) (h : node.WF) (key : List Nat)
    (hkey : InRange key) (k : List Nat) :
    (FastTrie.ins node key).hasPath k = true ↔ k <+: key ∨ node.hasPath k = true := by
  induction key generalizing node k with
  | nil =>
    cases k with
    | nil => simp [TrieNode.hasPath]
    | cons d r => simp [TrieNode.hasPath, FastTrie.child_ins_nil]
  | cons c rest ih =>
    have hc : c < alphabet_size := hkey c (List.mem_cons_self _ _)
    have hr : InRange rest := fun x hx => hkey x (List.mem_cons_of_mem _ hx)
    cases k with
    | nil => simp [TrieNode.hasPath]
    | cons d r =>
      by_cases hdc : d = c
      · subst hdc
        simp only [TrieNode.hasPath, FastTrie.child_ins_same node h d rest hc]
        cases hch : node.child d with
        | none =>
          rw [Option.getD_none, ih _ TrieNode.WF_fresh hr]
          simp [TrieNode.hasPath_fresh, List.cons_prefix_cons]
          intro hr
          subst hr
          exact List.nil_prefix
        | some ch =>
          rw [Option.getD_some, ih _ (h.of_child hch) hr]
          simp [List.cons_prefix_cons]
      · simp only [TrieNode.hasPath, FastTrie.child_ins_ne node c d rest (Ne.symm hdc)]
        simp [List.cons_prefix_cons, hdc]

theorem FastTrie.foldlM_insertKey (keys : List (List Nat)) (node : TrieNode) :
    keys.foldlM FastTrie.insertKey node
      = if KeysInRange keys then some (keys.foldl FastTrie.ins node) else none := by
  induction keys generalizing node with
  | nil => simp [KeysInRange]
  | cons key rest ih =>
    rw [List.foldlM_cons, FastTrie.insertKey_eq]
    by_cases hk : InRange key
    · by_cases hr : KeysInRange rest
      · have : KeysInRange (key :: rest) := by
          intro x hx
          rcases List.mem_cons.1 hx with rfl | hx
          · exact hk
          · exact hr x hx
        simp [hk, hr, this, ih]
      · have : ¬ KeysInRange (key :: rest) :=
          fun h => hr (fun x hx => h x (List.mem_cons_of_mem _ hx))
        simp [hk, hr, this, ih]
    · have : ¬ KeysInRange (key :: rest) := fun h => hk (h key (List.mem_cons_self _ _))
      simp [hk, this]

theorem FastTrie.build_eq (keys : List (List Nat)) :
    FastTrie.build keys
      = if KeysInRange keys then some (keys.foldl FastTrie.ins TrieNode.fresh) else none :=
  FastTrie.foldlM_insertKey keys TrieNode.fresh

theorem FastTrie.WF_foldl (keys : List (List Nat)) (node : TrieNode) (h : node.WF) :
    (keys.foldl FastTrie.ins node).WF := by
  induction keys generalizing node with
  | nil => exact h
  | cons key rest ih => exact ih _ (FastTrie.WF_ins node h key)

theorem FastTrie.member_foldl (keys : List (List Nat)) (hkeys : KeysInRange keys)
    (node : TrieNode) (h : node.WF) (k : List Nat) :
    (keys.foldl FastTrie.ins node).member k = true ↔ k ∈ keys ∨ node.member k = true := by
  induction keys generalizing node with
  | nil => simp
  | cons key rest ih =>
    have hk : InRange key := hkeys key (List.mem_cons_self _ _)
    have hr : KeysInRange rest := fun x hx => hkeys x (List.mem_cons_of_mem _ hx)
    rw [List.foldl_cons, ih hr _ (FastTrie.WF_ins node h key), FastTrie.member_ins node h key hk,
      List.mem_cons]
    tauto

theorem FastTrie.hasPath_foldl (keys : List (List Nat)) (hkeys : KeysInRange keys)
    (node : TrieNode) (h : node.WF) (k : List Nat) :
    (keys.foldl FastTrie.ins node).hasPath k = true
      ↔ (∃ key ∈ keys, k <+: key) ∨ node.hasPath k = true := by
  induction keys generalizing node with
  | nil => simp
  | cons key rest ih =>
    have hk : InRange key := hkeys key (List.mem_cons_self _ _)
    have hr : KeysInRange rest := fun x hx => hkeys x (List.mem_cons_of_mem _ hx)
    rw [List.foldl_cons, ih hr _ (FastTrie.WF_ins node h key), FastTrie.hasPath_ins node h key hk]
    simp only [List.mem_cons, exists_eq_or_imp]
    generalize (∃ key ∈ rest, k <+: key) = P
    tauto

/-- The root built from keys in range, with its two characterisations. -/
theorem FastTrie.build_spec (keys : List (List Nat)) (hkeys : KeysInRange keys) :
    ∃ root, FastTrie.build keys = some root ∧ root.WF ∧
      (∀ k, root.member k = true ↔ k ∈ keys) ∧
      (∀ k, root.hasPath k = true ↔ k = [] ∨ ∃ key ∈ keys, k <+: key) := by
  refine ⟨keys.foldl FastTrie.ins TrieNode.fresh, ?_, ?_, ?_, ?_⟩
  · rw [FastTrie.build_eq, if_pos hkeys]
  · exact FastTrie.WF_foldl keys _ TrieNode.WF_fresh
  · intro k
    rw [FastTrie.member_foldl keys hkeys _ TrieNode.WF_fresh]
    simp [TrieNode.member_fresh]
  · intro k
    rw [FastTrie.hasPath_foldl keys hkeys _ TrieNode.WF_fresh, TrieNode.hasPath_fresh]
    generalize (∃ key ∈ keys, k <+: key) = P
    tauto

/-! ## The tree depends only on the set of keys -/

theorem FastTrie.ins_comm (node : TrieNode) (a b : List Nat) :
    FastTrie.ins (FastTrie.ins node a) b = FastTrie.ins (FastTrie.ins node b) a := by
  induction a generalizing node b with
  | nil =>
    cases b with
    | nil => rfl
    | cons d rb => cases node; rfl
  | cons c ra ih =>
    cases b with
    | nil => cases node; rfl
    | cons d rb =>
      cases node with
      | mk cs e =>
        simp only [FastTrie.ins, TrieNode.children, TrieNode.is_end_of_word,
          List.getD_eq_getElem?_getD]
        by_cases hcd : c = d
        · subst hcd
          by_cases hlen : c < cs.length
          · simp only [List.getElem?_set, hlen, if_true, List.set_set, Option.getD_some]
            rw [ih]
          · simp only [List.set_eq_of_length_le (Nat.le_of_not_lt hlen)]
        · rw [List.getElem?_set_ne hcd, List.getElem?_set_ne (Ne.symm hcd),
            List.set_comm _ _ _ hcd]

theorem FastTrie.ins_idem (node : TrieNode) (a : List Nat) :
    FastTrie.ins (FastTrie.ins node a) a = FastTrie.ins node a := by
  induction a generalizing node with
  | nil => rfl
  | cons c ra ih =>
    cases node with
    | mk cs e =>
      simp only [FastTrie.ins, TrieNode.children, TrieNode.is_end_of_word,
        List.getD_eq_getElem?_getD]
      by_cases hlen : c < cs.length
      · simp only [List.getElem?_set, hlen, if_true, List.set_set, Option.getD_some]
        rw [ih]
      · simp only [List.set_eq_of_length_le (Nat.le_of_not_lt hlen)]

theorem FastTrie.foldl_ins_perm {l₁ l₂ : List (List Nat)} (p : l₁.Perm l₂) (node : TrieNode) :
    l₁.foldl FastTrie.ins node = l₂.foldl FastTrie.ins node :=
  p.foldl_eq' (fun x _ y _ z => FastTrie.ins_comm z x y) node

theorem FastTrie.foldl_ins_of_mem (l : List (List Nat)) (a : List Nat) (ha : a ∈ l)
    (node : TrieNode) :
    l.foldl FastTrie.ins (FastTrie.ins node a) = l.foldl FastTrie.ins node := by
  induction l generalizing node with
  | nil => cases ha
  | cons x rest ih =>
    simp only [List.foldl_cons]
    by_cases hax : a = x
    · subst hax
      rw [FastTrie.ins_idem]
    · have hmem : a ∈ rest := by
        rcases List.mem_cons.1 ha with h | h
        · exact absurd h hax
        · exact h
      rw [FastTrie.ins_comm, ih hmem]

theorem FastTrie.foldl_ins_dedup (l : List (List Nat)) (node : TrieNode) :
    l.dedup.foldl FastTrie.ins node = l.foldl FastTrie.ins node := by
  induction l generalizing node with
  | nil => rfl
  | cons x rest ih =>
    by_cases hx : x ∈ rest
    · rw [List.dedup_cons_of_mem hx, ih, List.foldl_cons, FastTrie.foldl_ins_of_mem rest x hx]
    · rw [List.dedup_cons_of_not_mem hx, List.foldl_cons, List.foldl_cons, ih]

theorem FastTrie.foldl_ins_of_same_keys (l₁ l₂ : List (List Nat))
    (h : ∀ k, k ∈ l₁ ↔ k ∈ l₂) (node : TrieNode) :
    l₁.foldl FastTrie.ins node = l₂.foldl FastTrie.ins node := by
  have hp : l₁.dedup.Perm l₂.dedup :=
    (List.perm_ext_iff_of_nodup (List.nodup_dedup l₁) (List.nodup_dedup l₂)).2
      (fun k => by simp [List.mem_dedup, h k])
  rw [← FastTrie.foldl_ins_dedup l₁, ← FastTrie.foldl_ins_dedup l₂]
  exact FastTrie.foldl_ins_perm hp node

theorem FastTrie.build_of_same_keys (l₁ l₂ : List (List Nat)) (h : ∀ k, k ∈ l₁ ↔ k ∈ l₂) :
    FastTrie.build l₁ = FastTrie.build l₂ := by
  have hr : KeysInRange l₁ ↔ KeysInRange l₂ := by
    constructor
    · intro h1 k hk
      exact h1 k ((h k).2 hk)
    · intro h2 k hk
      exact h2 k ((h k).1 hk)
  rw [FastTrie.build_eq, FastTrie.build_eq, FastTrie.foldl_ins_of_same_keys l₁ l₂ h]
  by_cases h1 : KeysInRange l₁
  · rw [if_pos h1, if_pos (hr.1 h1)]
  · rw [if_neg h1, if_neg (fun h2 => h1 (hr.2 h2))]

/-! ## One iteration of the flattening loop -/

namespace SerializedTrie

theorem foldl_visitChild (node : TrieNode) (idx : Int) (l : List Nat) (st : VisitState) :
    l.foldl (visitChild node idx) st
      = (l.filterMap (fun i => (node.children.getD i none).map (fun ch => (i, ch)))).foldl
          (fun st x => emitChild idx st x.1 x.2) st := by
  induction l generalizing st with
  | nil => rfl
  | cons i rest ih =>
    rw [List.foldl_cons, ih]
    cases h : node.children.getD i none with
    | none => simp only [List.filterMap_cons, h, visitChild, Option.map_none']
    | some ch =>
      simp only [List.filterMap_cons, h, visitChild, Option.map_some', List.foldl_cons]

theorem visitNode_eq (nodes : List SerialTrieNode) (q : List (TrieNode × Int))
    (node : TrieNode) (idx : Int) :
    visitNode nodes q node idx
      = (if (node.present.foldl (fun st x => emitChild idx st x.1 x.2) (nodes, q, false)).2.2
          then (node.present.foldl (fun st x => emitChild idx st x.1 x.2) (nodes, q, false)).1
            ++ [SerialTrieNode.new terminating_character false]
          else (node.present.foldl (fun st x => emitChild idx st x.1 x.2) (nodes, q, false)).1,
        (node.present.foldl (fun st x => emitChild idx st x.1 x.2) (nodes, q, false)).2.1) := by
  unfold visitNode
  simp only [foldl_visitChild]
  rfl

theorem length_recordOffset (nodes : List SerialTrieNode) (idx : Int) :
    (recordOffset nodes idx).length = nodes.length := by
  unfold recordOffset
  split
  · split
    · split
      · simp
      · rfl
    · rfl
  · rfl

theorem recordOffset_of_neg (nodes : List SerialTrieNode) (idx : Int) (h : idx < 0) :
    recordOffset nodes idx = nodes := by
  unfold recordOffset
  rw [if_neg (by omega)]

theorem recordOffset_of_set (nodes : List SerialTrieNode) (p : Nat) (e : SerialTrieNode)
    (he : nodes[p]? = some e) (h : 0 ≤ e.children_offset) :
    recordOffset nodes (p : Int) = nodes := by
  unfold recordOffset
  simp only [Int.toNat_ofNat, he]
  rw [if_pos (by omega), if_neg (by omega)]

theorem recordOffset_of_unset (nodes : List SerialTrieNode) (p : Nat) (e : SerialTrieNode)
    (he : nodes[p]? = some e) (h : e.children_offset < 0) :
    recordOffset nodes (p : Int)
      = nodes.set p
          { e with children_offset := toInt16 (toUInt16 ((nodes.length : Int) - (p : Int))) } := by
  unfold recordOffset
  simp only [Int.toNat_ofNat, he]
  rw [if_pos (by omega), if_pos h]

/-- The inner loop, whatever the index: lengths, queue and flag. -/
theorem foldl_emitChild_shape (idx : Int) (l : List (Nat × TrieNode)) (st : VisitState) :
    ((l.foldl (fun st x => emitChild idx st x.1 x.2) st).1.length = st.1.length + l.length) ∧
    ((l.foldl (fun st x => emitChild idx st x.1 x.2) st).2.1 = st.2.1 ++ childQueue st.1.length l) ∧
    ((l.foldl (fun st x => emitChild idx st x.1 x.2) st).2.2 = (st.2.2 || !l.isEmpty)) := by
  induction l generalizing st with
  | nil => simp [childQueue]
  | cons x rest ih =>
    rw [List.foldl_cons]
    obtain ⟨h1, h2, h3⟩ := ih (emitChild idx st x.1 x.2)
    have hlen : (emitChild idx st x.1 x.2).1.length = st.1.length + 1 := by
      simp [emitChild, length_recordOffset]
    refine ⟨?_, ?_, ?_⟩
    · rw [h1, hlen]; simp; omega
    · rw [h2, hlen]
      simp [emitChild, childQueue, queueIdx, length_recordOffset]
    · rw [h3]; simp [emitChild]

/-- The inner loop when no offset is recorded: the index is negative or the
offset is already set. -/
theorem foldl_emitChild_stable (idx : Int) (l : List (Nat × TrieNode)) (st : VisitState)
    (h : idx < 0 ∨ ∃ (p : Nat) (e : SerialTrieNode), idx = (p : Int) ∧ st.1[p]? = some e ∧
      0 ≤ e.children_offset) :
    (l.foldl (fun st x => emitChild idx st x.1 x.2) st).1 = st.1 ++ childEntries l := by
  induction l generalizing st with
  | nil => simp [childEntries]
  | cons x rest ih =>
    rw [List.foldl_cons]
    have hrec : recordOffset st.1 idx = st.1 := by
      rcases h with h | ⟨p, e, rfl, he, hoff⟩
      · exact recordOffset_of_neg _ _ h
      · exact recordOffset_of_set _ _ e he hoff
    have hst : (emitChild idx st x.1 x.2).1 = st.1 ++ [SerialTrieNode.new x.1 x.2.is_end_of_word] := by
      simp [emitChild, hrec]
    rw [ih, hst]
    · simp [childEntries]
    · rcases h with h | ⟨p, e, rfl, he, hoff⟩
      · exact Or.inl h
      · refine Or.inr ⟨p, e, rfl, ?_, hoff⟩
        rw [hst, List.getElem?_append_left (by
          have := (List.getElem?_eq_some.1 he).1
          exact this)]
        exact he

/-- The inner loop for a pending entry whose offset is recorded without
wrapping. -/
theorem foldl_emitChild_first (p : Nat) (e : SerialTrieNode) (x : Nat × TrieNode)
    (l : List (Nat × TrieNode)) (st : VisitState)
    (he : st.1[p]? = some e) (hoff : e.children_offset < 0)
    (hpos : 0 ≤ toInt16 (toUInt16 ((st.1.length : Int) - (p : Int)))) :
    ((x :: l).foldl (fun st x => emitChild (p : Int) st x.1 x.2) st).1
      = st.1.set p
          { e with children_offset := toInt16 (toUInt16 ((st.1.length : Int) - (p : Int))) }
        ++ childEntries (x :: l) := by
  rw [List.foldl_cons]
  have hp : p < st.1.length := (List.getElem?_eq_some.1 he).1
  have hst : (emitChild (p : Int) st x.1 x.2).1
      = st.1.set p
          { e with children_offset := toInt16 (toUInt16 ((st.1.length : Int) - (p : Int))) }
        ++ [SerialTrieNode.new x.1 x.2.is_end_of_word] := by
    simp [emitChild, recordOffset_of_unset _ _ e he hoff]
  rw [foldl_emitChild_stable, hst]
  · simp [childEntries]
  · refine Or.inr ⟨p,
      { e with children_offset := toInt16 (toUInt16 ((st.1.length : Int) - (p : Int))) },
      rfl, ?_, hpos⟩
    rw [hst, List.getElem?_append_left (by simpa using hp), List.getElem?_set]
    simp [hp]

end SerializedTrie

/-! ## The bound on the iterations of the flattening loop is never reached -/

theorem TrieNode.sizeList_eq_sum (cs : List (Option TrieNode)) :
    TrieNode.sizeList cs = (cs.map TrieNode.slotSize).sum := by
  induction cs with
  | nil => simp [TrieNode.sizeList]
  | cons x rest ih =>
    cases x with
    | none => simp [TrieNode.sizeList, TrieNode.slotSize, ih]
    | some n => simp [TrieNode.sizeList, TrieNode.slotSize, ih]

theorem TrieNode.size_eq (n : TrieNode) : n.size = 1 + TrieNode.sizeList n.children := by
  cases n with
  | mk cs e => simp [TrieNode.size, TrieNode.children]

theorem TrieNode.sum_range_slotSize_le (cs : List (Option TrieNode)) (N : Nat) :
    ((List.range N).map (fun i => TrieNode.slotSize (cs.getD i none))).sum
      ≤ (cs.map TrieNode.slotSize).sum := by
  induction cs generalizing N with
  | nil => simp [TrieNode.slotSize]
  | cons x rest ih =>
    cases N with
    | zero => simp
    | succ N =>
      rw [List.range_succ_eq_map]
      simp only [List.map_cons, List.sum_cons, List.map_map]
      have h := ih N
      have heq : (List.range N).map
            ((fun i => TrieNode.slotSize ((x :: rest).getD i none)) ∘ Nat.succ)
          = (List.range N).map (fun i => TrieNode.slotSize (rest.getD i none)) := by
        apply List.map_congr_left
        intro i _
        simp
      rw [heq]
      simp only [List.getD_cons_zero]
      omega

theorem TrieNode.sum_filterMap_size (cs : List (Option TrieNode)) (l : List Nat) :
    ((l.filterMap (fun i => (cs.getD i none).map (fun ch => (i, ch)))).map
        (fun x => x.2.size)).sum
      = (l.map (fun i => TrieNode.slotSize (cs.getD i none))).sum := by
  induction l with
  | nil => rfl
  | cons i rest ih =>
    cases h : cs.getD i none with
    | none =>
      simp only [List.filterMap_cons, h, Option.map_none', List.map_cons, List.sum_cons,
        TrieNode.slotSize, ih, Nat.zero_add]
    | some ch =>
      simp only [List.filterMap_cons, h, Option.map_some', List.map_cons, List.sum_cons,
        TrieNode.slotSize, ih]

theorem TrieNode.sum_present_size_lt (n : TrieNode) :
    (n.present.map (fun x => x.2.size)).sum < n.size := by
  rw [TrieNode.size_eq, TrieNode.sizeList_eq_sum]
  unfold TrieNode.present
  rw [TrieNode.sum_filterMap_size]
  have := TrieNode.sum_range_slotSize_le n.children alphabet_size
  omega

namespace SerializedTrie

theorem queueSize_childQueue (pos : Nat) (l : List (Nat × TrieNode)) :
    queueSize (childQueue pos l) = (l.map (fun x => x.2.size)).sum := by
  induction l generalizing pos with
  | nil => rfl
  | cons x rest ih =>
    have := ih (pos + 1)
    simp only [queueSize] at this
    simp [childQueue, queueSize, this]

theorem queueSize_append (q r : List (TrieNode × Int)) :
    queueSize (q ++ r) = queueSize q + queueSize r := by
  simp [queueSize]

theorem visitNode_snd (nodes : List SerialTrieNode) (q : List (TrieNode × Int))
    (node : TrieNode) (idx : Int) :
    (visitNode nodes q node idx).2 = q ++ childQueue nodes.length node.present := by
  rw [visitNode_eq]
  exact (foldl_emitChild_shape idx node.present (nodes, q, false)).2.1

theorem queueSize_visitNode_lt (nodes : List SerialTrieNode) (q : List (TrieNode × Int))
    (node : TrieNode) (idx : Int) :
    queueSize (visitNode nodes q node idx).2 < queueSize ((node, idx) :: q) := by
  rw [visitNode_snd, queueSize_append, queueSize_childQueue]
  have := TrieNode.sum_present_size_lt node
  simp only [queueSize, List.map_cons, List.sum_cons]
  simp only [queueSize] at *
  omega

theorem flattenLoop_succ (fuel : Nat) (nodes : List SerialTrieNode)
    (q : List (TrieNode × Int)) (h : queueSize q ≤ fuel) :
    flattenLoop (fuel + 1) nodes q = flattenLoop fuel nodes q := by
  induction fuel generalizing nodes q with
  | zero =>
    cases q with
    | nil => rfl
    | cons x rest =>
      exfalso
      have := TrieNode.size_eq x.1
      simp only [queueSize, List.map_cons, List.sum_cons] at h
      omega
  | succ fuel ih =>
    cases q with
    | nil => rfl
    | cons x rest =>
      obtain ⟨node, idx⟩ := x
      have hlt := queueSize_visitNode_lt nodes rest node idx
      show flattenLoop (fuel + 1) _ _ = flattenLoop fuel _ _
      exact ih _ _ (by omega)

/-- Termination of the flattening loop: once the bound covers the nodes held
by the queue, a larger bound gives the same vector, so the loop has stopped on
an empty queue. -/
theorem flattenLoop_fuel (fuel k : Nat) (nodes : List SerialTrieNode)
    (q : List (TrieNode × Int)) (h : queueSize q ≤ fuel) :
    flattenLoop (fuel + k) nodes q = flattenLoop fuel nodes q := by
  induction k with
  | zero => rfl
  | succ k ih =>
    rw [← Nat.add_assoc, flattenLoop_succ (fuel + k) nodes q (by omega), ih]

theorem flatten_fuel (root : TrieNode) (k : Nat) :
    flattenLoop (root.size + k) [] [(root, -1)] = flatten root :=
  flattenLoop_fuel root.size k [] [(root, -1)] (by simp [queueSize])

end SerializedTrie

/-! ## The layout of the flat sequence -/

namespace SerializedTrie

theorem queueIdx_eq (pos : Nat) (h : pos < 32768) : queueIdx pos = (pos : Int) := by
  unfold queueIdx toInt16 toUInt16
  omega

/-- A non-negative queue index is the index of an entry emitted at or before
the position it was computed from, so `recordOffset` reads inside the vector. -/
theorem queueIdx_toNat_le (pos : Nat) (h : 0 ≤ queueIdx pos) : (queueIdx pos).toNat ≤ pos := by
  unfold queueIdx toInt16 toUInt16 at *
  omega

theorem toInt16_toUInt16_eq (x : Int) (h0 : 0 ≤ x) (h : x < 32768) :
    toInt16 (toUInt16 x) = x := by
  unfold toInt16 toUInt16
  omega

theorem getElem?_childEntries (l : List (Nat × TrieNode)) (j : Nat) :
    (childEntries l)[j]? = (l[j]?).map (fun x => SerialTrieNode.new x.1 x.2.is_end_of_word) := by
  simp [childEntries]

theorem length_childEntries (l : List (Nat × TrieNode)) : (childEntries l).length = l.length := by
  simp [childEntries]

theorem getElem?_childQueue (pos : Nat) (l : List (Nat × TrieNode)) (j : Nat) :
    (childQueue pos l)[j]? = (l[j]?).map (fun x => (x.2, queueIdx (pos + j))) := by
  induction l generalizing pos j with
  | nil => simp [childQueue]
  | cons x rest ih =>
    cases j with
    | zero => simp [childQueue]
    | succ j =>
      simp only [childQueue, List.getElem?_cons_succ, ih]
      have : pos + 1 + j = pos + (j + 1) := by omega
      rw [this]

theorem map_snd_childQueue (pos : Nat) (l : List (Nat × TrieNode))
    (h : pos + l.length ≤ 32768) :
    (childQueue pos l).map Prod.snd = (List.range' pos l.length).map (fun (k : Nat) => (k : Int)) := by
  induction l generalizing pos with
  | nil => simp [childQueue]
  | cons x rest ih =>
    simp only [List.length_cons] at h
    simp only [childQueue, List.map_cons, List.length_cons, List.range'_succ]
    rw [ih (pos + 1) (by omega), queueIdx_eq pos (by omega)]

theorem mem_map_snd_childQueue (pos : Nat) (l : List (Nat × TrieNode))
    (h : pos + l.length ≤ 32768) (a : Int) :
    a ∈ (childQueue pos l).map Prod.snd ↔ ∃ k : Nat, a = (k : Int) ∧ pos ≤ k ∧ k < pos + l.length := by
  rw [map_snd_childQueue pos l h]
  simp only [List.mem_map, List.mem_range'_1]
  constructor
  · rintro ⟨k, ⟨h1, h2⟩, rfl⟩
    exact ⟨k, rfl, h1, h2⟩
  · rintro ⟨k, rfl, h1, h2⟩
    exact ⟨k, ⟨h1, h2⟩, rfl⟩

theorem nodup_map_snd_childQueue (pos : Nat) (l : List (Nat × TrieNode))
    (h : pos + l.length ≤ 32768) : ((childQueue pos l).map Prod.snd).Nodup := by
  rw [map_snd_childQueue pos l h]
  exact (List.nodup_range' pos l.length).map (fun a b hab => by simpa using hab)

theorem length_le_flattenLoop (fuel : Nat) (nodes : List SerialTrieNode)
    (q : List (TrieNode × Int)) : nodes.length ≤ (flattenLoop fuel nodes q).length := by
  induction fuel generalizing nodes q with
  | zero => exact Nat.le_refl _
  | succ fuel ih =>
    cases q with
    | nil => exact Nat.le_refl _
    | cons x rest =>
      obtain ⟨node, idx⟩ := x
      refine Nat.le_trans ?_ (ih (visitNode nodes rest node idx).1 (visitNode nodes rest node idx).2)
      rw [visitNode_eq]
      have := (foldl_emitChild_shape idx node.present (nodes, rest, false)).1
      simp only at this
      split
      · simp only [List.length_append, this]; omega
      · simp only [this]; omega

theorem visitNode_of_leaf (nodes : List SerialTrieNode) (q : List (TrieNode × Int))
    (node : TrieNode) (idx : Int) (h : node.present = []) :
    visitNode nodes q node idx = (nodes, q) := by
  rw [visitNode_eq, h]
  simp

theorem visitNode_of_neg (nodes : List SerialTrieNode) (q : List (TrieNode × Int))
    (node : TrieNode) (idx : Int) (hidx : idx < 0) (h : node.present ≠ []) :
    visitNode nodes q node idx
      = (nodes ++ childEntries node.present ++ [sentinel],
          q ++ childQueue nodes.length node.present) := by
  rw [visitNode_eq]
  have hs := foldl_emitChild_shape idx node.present (nodes, q, false)
  have h1 := foldl_emitChild_stable idx node.present (nodes, q, false) (Or.inl hidx)
  have hne : node.present.isEmpty = false := by
    cases hp : node.present with
    | nil => exact absurd hp h
    | cons _ _ => rfl
  simp only [hs.2.2, hne, h1, hs.2.1]
  simp [sentinel]

theorem visitNode_of_pending (nodes : List SerialTrieNode) (q : List (TrieNode × Int))
    (node : TrieNode) (p : Nat) (e : SerialTrieNode) (he : nodes[p]? = some e)
    (hoff : e.children_offset < 0) (hlen : nodes.length < 32768) (h : node.present ≠ []) :
    visitNode nodes q node (p : Int)
      = (nodes.set p { e with children_offset := (nodes.length : Int) - (p : Int) }
            ++ childEntries node.present ++ [sentinel],
          q ++ childQueue nodes.length node.present) := by
  rw [visitNode_eq]
  have hp : p < nodes.length := (List.getElem?_eq_some.1 he).1
  have hconv : toInt16 (toUInt16 ((nodes.length : Int) - (p : Int)))
      = (nodes.length : Int) - (p : Int) := toInt16_toUInt16_eq _ (by omega) (by omega)
  have hs := foldl_emitChild_shape (p : Int) node.present (nodes, q, false)
  have hne : node.present.isEmpty = false := by
    cases hp : node.present with
    | nil => exact absurd hp h
    | cons _ _ => rfl
  obtain ⟨x, l, hxl⟩ : ∃ x l, node.present = x :: l := by
    cases hp : node.present with
    | nil => exact absurd hp h
    | cons x l => exact ⟨x, l, rfl⟩
  have h1 := foldl_emitChild_first p e x l (nodes, q, false) he hoff (by
    show 0 ≤ toInt16 (toUInt16 ((nodes.length : Int) - (p : Int)))
    rw [hconv]; omega)
  simp only [hconv] at h1
  rw [← hxl] at h1
  simp only [hs.2.2, hne, h1, hs.2.1]
  simp [sentinel]

theorem getElem?_run_old (N : List SerialTrieNode) (l : List (Nat × TrieNode))
    (p : Nat) (hp : p < N.length) :
    (N ++ childEntries l ++ [sentinel])[p]? = N[p]? := by
  rw [List.append_assoc, List.getElem?_append_left hp]

theorem getElem?_run_entry (N : List SerialTrieNode) (l : List (Nat × TrieNode))
    (j c : Nat) (ch : TrieNode) (hj : l[j]? = some (c, ch)) :
    (N ++ childEntries l ++ [sentinel])[N.length + j]?
      = some (SerialTrieNode.new c ch.is_end_of_word) := by
  rw [List.append_assoc, List.getElem?_append_right (by omega)]
  have hjl : j < l.length := (List.getElem?_eq_some.1 hj).1
  have : N.length + j - N.length = j := by omega
  rw [this, List.getElem?_append_left (by rw [length_childEntries]; exact hjl),
    getElem?_childEntries, hj]
  rfl

theorem getElem?_run_sentinel (N : List SerialTrieNode) (l : List (Nat × TrieNode)) :
    (N ++ childEntries l ++ [sentinel])[N.length + l.length]? = some sentinel := by
  rw [List.getElem?_append_right (by simp [length_childEntries])]
  simp [length_childEntries]

theorem mem_childQueue_of_getElem? (pos : Nat) (l : List (Nat × TrieNode)) (j c : Nat)
    (ch : TrieNode) (hj : l[j]? = some (c, ch)) :
    (ch, queueIdx (pos + j)) ∈ childQueue pos l := by
  apply List.getElem?_mem (n := j)
  rw [getElem?_childQueue, hj]
  rfl

/-- The run emitted for the children of `n` is the laid-out run of `n` in the
finished sequence, once every child pushed on the queue is settled. -/
theorem laid_of_children (out N : List SerialTrieNode) (n : TrieNode)
    (Q : List (TrieNode × Int))
    (hbound : N.length + n.present.length < 32768)
    (hframe : Frame (N ++ childEntries n.present ++ [sentinel]) Q out)
    (hsettled : ∀ x ∈ Q, Settled out x)
    (hsub : ∀ x ∈ childQueue N.length n.present, x ∈ Q)
    (hfree : ((N.length + n.present.length : Nat) : Int) ∉ Q.map Prod.snd) :
    Laid out N.length n := by
  have key : ∀ j c ch, n.present[j]? = some (c, ch) →
      ∃ e, out[N.length + j]? = some e ∧ e.character = c ∧ e.is_leaf = ch.is_end_of_word ∧
        (ch.present = [] → e.children_offset = -1) ∧
        (ch.present ≠ [] → 0 < e.children_offset ∧
          Laid out (N.length + j + e.children_offset.toNat) ch) := by
    intro j c ch hj
    have hjl : j < n.present.length := (List.getElem?_eq_some.1 hj).1
    obtain ⟨e', he', hc, hl, _⟩ := hframe _ _ (getElem?_run_entry N n.present j c ch hj)
    obtain ⟨p, e, hp, he, h1, h2⟩ :=
      hsettled _ (hsub _ (mem_childQueue_of_getElem? N.length n.present j c ch hj))
    simp only at hp h1 h2
    rw [queueIdx_eq _ (by omega)] at hp
    have hpe : p = N.length + j := by omega
    subst hpe
    rw [he'] at he
    cases he
    exact ⟨e', he', hc, hl, h1, h2⟩
  refine Laid.mk _ _ ?_ ?_ ?_
  · intro j c ch hj
    obtain ⟨e, he, hc, hl, h1, h2⟩ := key j c ch hj
    exact ⟨e, he, hc, hl, h1, fun h => (h2 h).1⟩
  · intro j c ch e hj he hne
    obtain ⟨e', he', _, _, _, h2⟩ := key j c ch hj
    rw [he] at he'
    cases he'
    exact (h2 hne).2
  · obtain ⟨e', he', _, _, h⟩ := hframe _ _ (getElem?_run_sentinel N n.present)
    rw [he', h hfree]

theorem Pending.lt_length {nodes : List SerialTrieNode} {q : List (TrieNode × Int)}
    (h : Pending nodes q) {a : Int} (ha : a ∈ q.map Prod.snd) :
    ∃ p : Nat, a = (p : Int) ∧ p < nodes.length := by
  obtain ⟨x, hx, rfl⟩ := List.mem_map.1 ha
  obtain ⟨p, e, hp, he, _⟩ := h.1 x hx
  exact ⟨p, hp, (List.getElem?_eq_some.1 he).1⟩

/-- The loop invariant of the flattener, stated on the finished sequence: as
long as the sequence stays below `2^15` entries, every entry already emitted
keeps its code unit and flag, and every queue element ends up settled. -/
theorem flattenLoop_spec (fuel : Nat) :
    ∀ (nodes : List SerialTrieNode) (q : List (TrieNode × Int)), Pending nodes q →
      queueSize q ≤ fuel → (flattenLoop fuel nodes q).length < 32768 →
      Frame nodes q (flattenLoop fuel nodes q) ∧
        ∀ x ∈ q, Settled (flattenLoop fuel nodes q) x := by
  induction fuel with
  | zero =>
    intro nodes q _ hsize _
    cases q with
    | nil => exact ⟨fun p e he => ⟨e, he, rfl, rfl, fun _ => rfl⟩, by simp⟩
    | cons x rest =>
      exfalso
      have := TrieNode.size_eq x.1
      simp only [queueSize, List.map_cons, List.sum_cons] at hsize
      omega
  | succ fuel ih =>
    intro nodes q hpend hsize hlen
    cases q with
    | nil => exact ⟨fun p e he => ⟨e, he, rfl, rfl, fun _ => rfl⟩, by simp⟩
    | cons x rest =>
      obtain ⟨node, idx⟩ := x
      have hL : nodes.length < 32768 :=
        Nat.lt_of_le_of_lt (length_le_flattenLoop _ nodes _) hlen
      obtain ⟨p, e0, hidx, he0, hoff0⟩ := hpend.1 (node, idx) (List.mem_cons_self _ _)
      simp only at hidx
      subst hidx
      have hp : p < nodes.length := (List.getElem?_eq_some.1 he0).1
      have hnodup := hpend.2
      rw [List.map_cons, List.nodup_cons] at hnodup
      obtain ⟨hnotin, hnodup'⟩ := hnodup
      have hpend' : Pending nodes rest :=
        ⟨fun x hx => hpend.1 x (List.mem_cons_of_mem _ hx), hnodup'⟩
      have hqs := queueSize_visitNode_lt nodes rest node (p : Int)
      by_cases hpres : node.present = []
      · -- a node without children: nothing is emitted
        have hv := visitNode_of_leaf nodes rest node (p : Int) hpres
        have hout : flattenLoop (fuel + 1) nodes ((node, (p : Int)) :: rest)
            = flattenLoop fuel nodes rest := by
          show flattenLoop fuel _ _ = _
          rw [hv]
        rw [hv] at hqs
        simp only at hqs
        rw [hout] at hlen ⊢
        obtain ⟨hF, hS⟩ := ih nodes rest hpend' (by omega) hlen
        refine ⟨?_, ?_⟩
        · intro p' e he
          obtain ⟨e', he', hc, hl, hfree⟩ := hF p' e he
          exact ⟨e', he', hc, hl, fun hn => hfree (fun hm => hn (List.mem_cons_of_mem _ hm))⟩
        · intro x hx
          rcases List.mem_cons.1 hx with rfl | hx
          · obtain ⟨e', he', _, _, hfree⟩ := hF p e0 he0
            have := hfree hnotin
            subst this
            exact ⟨p, e', rfl, he', fun _ => hoff0, fun h => absurd hpres h⟩
          · exact hS x hx
      · -- a node with children: its offset is recorded and its run emitted
        have hv := visitNode_of_pending nodes rest node p e0 he0 (by omega) hL hpres
        generalize hN1 : nodes.set p
          { e0 with children_offset := (nodes.length : Int) - (p : Int) } = N1 at hv
        have hN1len : N1.length = nodes.length := by rw [← hN1]; simp
        have hout : flattenLoop (fuel + 1) nodes ((node, (p : Int)) :: rest)
            = flattenLoop fuel (N1 ++ childEntries node.present ++ [sentinel])
                (rest ++ childQueue nodes.length node.present) := by
          show flattenLoop fuel _ _ = _
          rw [hv]
        rw [hv] at hqs
        simp only at hqs
        rw [hout] at hlen ⊢
        have hlen' := Nat.lt_of_le_of_lt (length_le_flattenLoop fuel
          (N1 ++ childEntries node.present ++ [sentinel])
          (rest ++ childQueue nodes.length node.present)) hlen
        simp only [List.length_append, length_childEntries, List.length_singleton, hN1len]
          at hlen'
        have hbound : nodes.length + node.present.length ≤ 32768 := by omega
        have hN1get : ∀ p', p' ≠ p → N1[p']? = nodes[p']? := by
          intro p' hne
          rw [← hN1, List.getElem?_set_ne (Ne.symm hne)]
        have hN1p : N1[p]? = some
            { e0 with children_offset := (nodes.length : Int) - (p : Int) } := by
          rw [← hN1, List.getElem?_set]
          simp [hp]
        have hchild : ∀ a, a ∈ (childQueue nodes.length node.present).map Prod.snd →
            ∃ k : Nat, a = (k : Int) ∧ nodes.length ≤ k ∧
              k < nodes.length + node.present.length :=
          fun a ha => (mem_map_snd_childQueue _ _ hbound a).1 ha
        have hold : ∀ p' : Nat, p' < nodes.length → (p' : Int) ∉ rest.map Prod.snd →
            (p' : Int) ∉ (rest ++ childQueue nodes.length node.present).map Prod.snd := by
          intro p' hp' hn hm
          rw [List.map_append, List.mem_append] at hm
          rcases hm with hm | hm
          · exact hn hm
          · obtain ⟨k, hk, hk1, _⟩ := hchild _ hm
            omega
        have hpendQ : Pending (N1 ++ childEntries node.present ++ [sentinel])
            (rest ++ childQueue nodes.length node.present) := by
          refine ⟨?_, ?_⟩
          · intro x hx
            rcases List.mem_append.1 hx with hx | hx
            · obtain ⟨p', e, hp', he, hoff⟩ := hpend'.1 x hx
              have hne : p' ≠ p := by
                rintro rfl
                exact hnotin (List.mem_map.2 ⟨x, hx, hp'⟩)
              refine ⟨p', e, hp', ?_, hoff⟩
              rw [getElem?_run_old _ _ _ (by
                rw [hN1len]; exact (List.getElem?_eq_some.1 he).1), hN1get p' hne]
              exact he
            · obtain ⟨j, hj⟩ := List.mem_iff_getElem?.1 hx
              rw [getElem?_childQueue] at hj
              cases hy : node.present[j]? with
              | none => rw [hy] at hj; cases hj
              | some y =>
                rw [hy] at hj
                simp only [Option.map_some', Option.some.injEq] at hj
                subst hj
                have hjl : j < node.present.length := (List.getElem?_eq_some.1 hy).1
                refine ⟨nodes.length + j, SerialTrieNode.new y.1 y.2.is_end_of_word,
                  queueIdx_eq _ (by omega), ?_, rfl⟩
                rw [← hN1len]
                exact getElem?_run_entry N1 node.present j y.1 y.2 hy
          · rw [List.map_append, List.nodup_append]
            refine ⟨hnodup', nodup_map_snd_childQueue _ _ hbound, ?_⟩
            intro a ha hb
            obtain ⟨p', hp', hlt⟩ := hpend'.lt_length ha
            obtain ⟨k, hk, hk1, _⟩ := hchild a hb
            omega
        obtain ⟨hF, hS⟩ := ih _ _ hpendQ (by omega) hlen
        refine ⟨?_, ?_⟩
        · intro p' e he
          have hp' : p' < nodes.length := (List.getElem?_eq_some.1 he).1
          by_cases hpp : p' = p
          · subst hpp
            rw [he0] at he
            cases he
            obtain ⟨e', he', hc, hl, _⟩ := hF p' _ (by
              rw [getElem?_run_old _ _ _ (by rw [hN1len]; exact hp), hN1p])
            exact ⟨e', he', hc, hl, fun hn => absurd (List.mem_cons_self _ _) hn⟩
          · obtain ⟨e', he', hc, hl, hfree⟩ := hF p' e (by
              rw [getElem?_run_old _ _ _ (by rw [hN1len]; exact hp'), hN1get p' hpp]
              exact he)
            refine ⟨e', he', hc, hl, fun hn => hfree (hold p' hp' ?_)⟩
            exact fun hm => hn (List.mem_cons_of_mem _ hm)
        · intro x hx
          rcases List.mem_cons.1 hx with rfl | hx
          · obtain ⟨e', he', _, _, hfree⟩ := hF p _ (by
              rw [getElem?_run_old _ _ _ (by rw [hN1len]; exact hp), hN1p])
            have := hfree (hold p hp hnotin)
            subst this
            refine ⟨p, _, rfl, he', fun h => absurd h hpres, fun _ => ⟨?_, ?_⟩⟩
            · show 0 < (nodes.length : Int) - (p : Int)
              omega
            · have hlaid := laid_of_children _ N1 node
                (rest ++ childQueue nodes.length node.present)
                (by rw [hN1len]; omega) hF hS
                (by rw [hN1len]; exact fun x hx => List.mem_append_right _ hx)
                (by
                  rw [hN1len]
                  intro hm
                  rw [List.map_append, List.mem_append] at hm
                  rcases hm with hm | hm
                  · obtain ⟨p', hp', hlt⟩ := hpend'.lt_length hm
                    omega
                  · obtain ⟨k, hk, _, hk2⟩ := hchild _ hm
                    omega)
              rw [hN1len] at hlaid
              have hidx : p + ((nodes.length : Int) - (p : Int)).toNat = nodes.length := by
                omega
              show Laid _ (p + ((nodes.length : Int) - (p : Int)).toNat) node
              rw [hidx]
              exact hlaid
          · exact hS x (List.mem_append_left _ hx)

end SerializedTrie

/-! ## The children of a node, as the flattener lists them -/

theorem TrieNode.mem_present (n : TrieNode) (c : Nat) (ch : TrieNode) :
    (c, ch) ∈ n.present ↔ n.child c = some ch := by
  unfold TrieNode.present TrieNode.child
  rw [List.mem_filterMap]
  constructor
  · rintro ⟨i, hi, hf⟩
    rw [List.mem_range] at hi
    cases hg : n.children.getD i none with
    | none => rw [hg] at hf; cases hf
    | some v =>
      rw [hg] at hf
      simp only [Option.map_some', Option.some.injEq, Prod.mk.injEq] at hf
      obtain ⟨rfl, rfl⟩ := hf
      rw [if_pos hi, hg]
  · intro h
    split at h
    · rename_i hc
      exact ⟨c, List.mem_range.2 hc, by rw [h]; rfl⟩
    · cases h

theorem TrieNode.pairwise_present (n : TrieNode) :
    n.present.Pairwise (fun a b => a.1 < b.1) := by
  unfold TrieNode.present
  refine List.Pairwise.filterMap _ ?_ (List.pairwise_lt_range alphabet_size)
  intro a a' haa b hb b' hb'
  cases hg : n.children.getD a none with
  | none => rw [hg] at hb; cases hb
  | some v =>
    cases hg' : n.children.getD a' none with
    | none => rw [hg'] at hb'; cases hb'
    | some v' =>
      rw [hg] at hb
      rw [hg'] at hb'
      simp only [Option.map_some', Option.mem_def, Option.some.injEq] at hb hb'
      subst hb
      subst hb'
      exact haa

theorem TrieNode.present_lt (n : TrieNode) (i j : Nat) (x y : Nat × TrieNode)
    (hi : n.present[i]? = some x) (hj : n.present[j]? = some y) (hij : i < j) : x.1 < y.1 := by
  obtain ⟨hil, rfl⟩ := List.getElem?_eq_some.1 hi
  obtain ⟨hjl, rfl⟩ := List.getElem?_eq_some.1 hj
  exact List.pairwise_iff_getElem.1 n.pairwise_present i j hil hjl hij

theorem TrieNode.present_ne_nil_of_child (n : TrieNode) (c : Nat) (ch : TrieNode)
    (h : n.child c = some ch) : n.present ≠ [] := by
  intro hp
  have := (n.mem_present c ch).2 h
  rw [hp] at this
  cases this

/-! ## The flat lookup on a laid-out run -/

namespace SerializedTrie

theorem scanRun_skip (out : List SerialTrieNode) (c a : Nat) (e : SerialTrieNode)
    (he : out[a]? = some e) (h1 : e.character ≠ terminating_character) (h2 : e.character ≠ c) :
    scanRun c (out.drop a) (a : Int) = scanRun c (out.drop (a + 1)) ((a + 1 : Nat) : Int) := by
  obtain ⟨ha, rfl⟩ := List.getElem?_eq_some.1 he
  rw [List.drop_eq_getElem_cons ha]
  simp only [scanRun]
  rw [if_pos ⟨h1, h2⟩]
  rfl

theorem scanRun_stop (out : List SerialTrieNode) (c a : Nat) (e : SerialTrieNode)
    (he : out[a]? = some e) (h : e.character = terminating_character ∨ e.character = c) :
    scanRun c (out.drop a) (a : Int) = some (a : Int) := by
  obtain ⟨ha, rfl⟩ := List.getElem?_eq_some.1 he
  rw [List.drop_eq_getElem_cons ha]
  simp only [scanRun]
  rw [if_neg (by
    rintro ⟨h1, h2⟩
    rcases h with h | h
    · exact h1 h
    · exact h2 h)]

/-- The linear scan over a laid-out run stops on the entry of the child looked
for. -/
theorem scanRun_laid (out : List SerialTrieNode) (s : Nat) (n : TrieNode)
    (hlaid : Laid out s n) (hns : ∀ x ∈ n.present, x.1 ≠ terminating_character)
    (j c : Nat) (ch : TrieNode) (hj : n.present[j]? = some (c, ch)) :
    ∀ d i, i + d = j → scanRun c (out.drop (s + i)) ((s + i : Nat) : Int)
      = some ((s + j : Nat) : Int) := by
  cases hlaid with
  | mk _ _ hentry hbelow hsent =>
    intro d
    induction d with
    | zero =>
      intro i hi
      have : i = j := by omega
      subst this
      obtain ⟨e, he, hc, _⟩ := hentry i c ch hj
      exact scanRun_stop out c (s + i) e he (Or.inr hc)
    | succ d ih =>
      intro i hi
      have hjl : j < n.present.length := (List.getElem?_eq_some.1 hj).1
      have hil : i < n.present.length := by omega
      obtain ⟨x, hx⟩ : ∃ x, n.present[i]? = some x :=
        ⟨n.present[i], List.getElem?_eq_getElem hil⟩
      obtain ⟨e, he, hc, _⟩ := hentry i x.1 x.2 hx
      have hlt := n.present_lt i j x (c, ch) hx hj (by omega)
      have hne : e.character ≠ terminating_character := by
        rw [hc]
        exact hns x (List.getElem?_mem hx)
      rw [scanRun_skip out c (s + i) e he hne (by rw [hc]; simp only at hlt; omega)]
      exact ih (i + 1) (by omega)

theorem readNode_natCast (out : List SerialTrieNode) (a : Nat) :
    readNode out (a : Int) = out[a]? := by
  unfold readNode
  rw [if_neg (by omega), Int.toNat_ofNat]

/-- The flat lookup follows an existing path of the tree through laid-out
runs and returns the flag of the node reached. -/
theorem searchLoop_laid (out : List SerialTrieNode) (k : List Nat) :
    ∀ (n : TrieNode) (s : Nat) (first : Bool) (curr : Int), k ≠ [] → n.hasPath k = true →
      (∀ w, n.hasPath w = true → terminating_character ∉ w) → Laid out s n →
      (if first then some curr
        else (readNode out curr).map (fun e => curr + e.children_offset)) = some (s : Int) →
      searchLoop out k first curr = some (n.member k) := by
  induction k with
  | nil => intro _ _ _ _ h; exact absurd rfl h
  | cons c rest ih =>
    intro n s first curr _ hpath hns hlaid hstart
    simp only [TrieNode.hasPath] at hpath
    cases hch : n.child c with
    | none => rw [hch] at hpath; cases hpath
    | some ch =>
      rw [hch] at hpath
      simp only at hpath
      obtain ⟨j, hj⟩ := List.mem_iff_getElem?.1 ((n.mem_present c ch).2 hch)
      have hnsrun : ∀ x ∈ n.present, x.1 ≠ terminating_character := by
        intro x hx hxt
        have hc' : n.child x.1 = some x.2 := (n.mem_present x.1 x.2).1 hx
        have : n.hasPath [x.1] = true := by simp [TrieNode.hasPath, hc']
        exact hns _ this (by simp [hxt])
      have hcne : c ≠ terminating_character := hnsrun (c, ch) (List.getElem?_mem hj)
      have hscan := scanRun_laid out s n hlaid hnsrun j c ch hj j 0 (by omega)
      cases hlaid with
      | mk _ _ hentry hbelow hsent =>
        obtain ⟨e, he, hc, hleaf, hoff1, hoff2⟩ := hentry j c ch hj
        have hread : readNode out ((s + j : Nat) : Int) = some e := by
          rw [readNode_natCast, he]
        have hmem : n.member (c :: rest) = ch.member rest := by
          simp [TrieNode.member, hch]
        rw [hmem]
        unfold searchLoop
        rw [hstart, Option.some_bind, if_neg (by omega), Int.toNat_ofNat]
        rw [Nat.add_zero] at hscan
        rw [hscan, Option.some_bind, hread, Option.some_bind, if_neg (by rw [hc]; exact hcne)]
        cases rest with
        | nil =>
          simp only [searchLoop, hread, Option.map_some', TrieNode.member, hleaf]
        | cons c' rest' =>
          have hpne : ch.present ≠ [] := by
            simp only [TrieNode.hasPath] at hpath
            cases hch' : ch.child c' with
            | none => rw [hch'] at hpath; cases hpath
            | some g => exact ch.present_ne_nil_of_child c' g hch'
          refine ih ch (s + j + e.children_offset.toNat) false _ (List.cons_ne_nil _ _) hpath
            ?_ (hbelow j c ch e hj he hpne) ?_
          · intro w hw
            have : n.hasPath (c :: w) = true := by simp [TrieNode.hasPath, hch, hw]
            have := hns _ this
            exact fun hm => this (List.mem_cons_of_mem _ hm)
          · have hpos := hoff2 hpne
            simp only [hread, Option.map_some', Bool.false_eq_true, if_false, Option.some.injEq]
            omega

/-- The flattening of a tree whose root has a child lays out the run of the
root at index `0`, as long as the sequence stays below `2^15` entries. -/
theorem flatten_laid (root : TrieNode) (hlen : (flatten root).length < 32768)
    (hpres : root.present ≠ []) : Laid (flatten root) 0 root := by
  unfold flatten at hlen ⊢
  obtain ⟨fuel, hfuel⟩ : ∃ fuel, root.size = fuel + 1 :=
    ⟨TrieNode.sizeList root.children, by rw [TrieNode.size_eq]; omega⟩
  have hqs := queueSize_visitNode_lt [] [] root (-1)
  have hv := visitNode_of_neg [] [] root (-1) (by omega) hpres
  rw [hv] at hqs
  simp only [List.nil_append, List.length_nil, queueSize, List.map_cons, List.map_nil,
    List.sum_cons, List.sum_nil] at hqs
  rw [hfuel] at hlen hqs ⊢
  have hout : flattenLoop (fuel + 1) [] [(root, -1)]
      = flattenLoop fuel ([] ++ childEntries root.present ++ [sentinel])
          (childQueue 0 root.present) := by
    show flattenLoop fuel _ _ = _
    rw [hv]
    rfl
  rw [hout] at hlen ⊢
  have hlen' := Nat.lt_of_le_of_lt (length_le_flattenLoop fuel
    ([] ++ childEntries root.present ++ [sentinel]) (childQueue 0 root.present)) hlen
  simp only [List.length_append, length_childEntries, List.length_singleton, List.length_nil]
    at hlen'
  have hbound : 0 + root.present.length ≤ 32768 := by omega
  have hpend : Pending ([] ++ childEntries root.present ++ [sentinel])
      (childQueue 0 root.present) := by
    refine ⟨?_, nodup_map_snd_childQueue 0 _ hbound⟩
    intro x hx
    obtain ⟨j, hj⟩ := List.mem_iff_getElem?.1 hx
    rw [getElem?_childQueue] at hj
    cases hy : root.present[j]? with
    | none => rw [hy] at hj; cases hj
    | some y =>
      rw [hy] at hj
      simp only [Option.map_some', Option.some.injEq] at hj
      subst hj
      have hjl : j < root.present.length := (List.getElem?_eq_some.1 hy).1
      refine ⟨j, SerialTrieNode.new y.1 y.2.is_end_of_word, ?_, ?_, rfl⟩
      · show queueIdx (0 + j) = (j : Int)
        rw [Nat.zero_add]
        exact queueIdx_eq _ (by omega)
      · have := getElem?_run_entry [] root.present j y.1 y.2 hy
        simpa using this
  obtain ⟨hF, hS⟩ := flattenLoop_spec fuel _ _ hpend (by
    simp only [queueSize]; omega) hlen
  have := laid_of_children _ [] root (childQueue 0 root.present)
    (by simp only [List.length_nil]; omega) hF hS (fun x hx => hx) (by
      intro hm
      obtain ⟨k, hk, _, hk2⟩ := (mem_map_snd_childQueue 0 _ hbound _).1 hm
      simp only [List.length_nil] at hk hk2
      omega)
  simpa using this

end SerializedTrie

/-! ## The flat lookup and the sentinel -/

namespace SerializedTrie

theorem scanRun_spec (c : Nat) (l : List SerialTrieNode) :
    ∀ (curr found : Int), scanRun c l curr = some found →
      ∃ (i : Nat) (e : SerialTrieNode), found = curr + (i : Int) ∧ l[i]? = some e ∧
        (e.character = terminating_character ∨ e.character = c) := by
  induction l with
  | nil => intro curr found h; simp [scanRun] at h
  | cons e es ih =>
    intro curr found h
    simp only [scanRun] at h
    split at h
    · obtain ⟨i, e', hf, he', hc⟩ := ih _ _ h
      exact ⟨i + 1, e', by omega, by simpa using he', hc⟩
    · rename_i hcond
      simp only [Option.some.injEq] at h
      refine ⟨0, e, by simp [h], by simp, ?_⟩
      by_cases h1 : e.character = terminating_character
      · exact Or.inl h1
      · by_cases h2 : e.character = c
        · exact Or.inr h2
        · exact absurd ⟨h1, h2⟩ hcond

/-- A string that contains the sentinel is never found by the flat lookup,
whatever the sequence. -/
theorem searchLoop_sentinel (nodes : List SerialTrieNode) (k : List Nat) :
    ∀ (first : Bool) (curr : Int), terminating_character ∈ k →
      searchLoop nodes k first curr ≠ some true := by
  induction k with
  | nil => intro _ _ h; cases h
  | cons c rest ih =>
    intro first curr hmem hres
    unfold searchLoop at hres
    cases hstart : (if first then some curr
        else (readNode nodes curr).map (fun e => curr + e.children_offset)) with
    | none => rw [hstart] at hres; simp at hres
    | some start =>
      rw [hstart, Option.some_bind] at hres
      by_cases hneg : start < 0
      · rw [if_pos hneg] at hres; simp at hres
      · rw [if_neg hneg] at hres
        cases hscan : scanRun c (nodes.drop start.toNat) start with
        | none => rw [hscan] at hres; simp at hres
        | some found =>
          rw [hscan, Option.some_bind] at hres
          cases hread : readNode nodes found with
          | none => rw [hread] at hres; simp at hres
          | some e =>
            rw [hread, Option.some_bind] at hres
            by_cases hterm : e.character = terminating_character
            · rw [if_pos hterm] at hres; simp at hres
            · rw [if_neg hterm] at hres
              rcases List.mem_cons.1 hmem with hc | hrest
              · obtain ⟨i, e', hf, he', hchar⟩ := scanRun_spec c _ _ _ hscan
                rw [List.getElem?_drop] at he'
                have hfound : readNode nodes found = nodes[start.toNat + i]? := by
                  unfold readNode
                  rw [if_neg (by omega)]
                  congr 1
                  omega
                rw [hfound, he'] at hread
                cases hread
                rcases hchar with h | h
                · exact hterm h
                · exact hterm (by rw [h, ← hc])
              · exact ih false found hrest hres

theorem search_nil_nodes (k : List Nat) : search [] k = none := by
  cases k with
  | nil => rfl
  | cons c rest => rfl

/-- The run of a node and the runs below it along a path lie inside the
sequence, each after the entry that leads to it. -/
theorem Laid.path_lt_length {out : List SerialTrieNode} (k : List Nat) :
    ∀ (n : TrieNode) (s : Nat), Laid out s n → k ≠ [] → n.hasPath k = true →
      s + k.length < out.length := by
  induction k with
  | nil => intro _ _ _ h; exact absurd rfl h
  | cons c rest ih =>
    intro n s hlaid _ hpath
    simp only [TrieNode.hasPath] at hpath
    cases hch : n.child c with
    | none => rw [hch] at hpath; cases hpath
    | some ch =>
      rw [hch] at hpath
      simp only at hpath
      obtain ⟨j, hj⟩ := List.mem_iff_getElem?.1 ((n.mem_present c ch).2 hch)
      have hjl : j < n.present.length := (List.getElem?_eq_some.1 hj).1
      cases hlaid with
      | mk _ _ hentry hbelow hsent =>
        cases rest with
        | nil =>
          have := (List.getElem?_eq_some.1 hsent).1
          simp only [List.length_cons, List.length_nil]
          omega
        | cons c' rest' =>
          obtain ⟨e, he, _, _, _, hoff⟩ := hentry j c ch hj
          have hpne : ch.present ≠ [] := by
            simp only [TrieNode.hasPath] at hpath
            cases hch' : ch.child c' with
            | none => rw [hch'] at hpath; cases hpath
            | some g => exact ch.present_ne_nil_of_child c' g hch'
          have hpos := hoff hpne
          have := ih ch _ (hbelow j c ch e hj he hpne) (List.cons_ne_nil _ _) hpath
          simp only [List.length_cons] at this ⊢
          omega

end SerializedTrie

/-! ## From the key list to the flat lookup -/

theorem SerializedTrie.build_eq_some {keys : List (List Nat)} {nodes : List SerialTrieNode}
    (h : SerializedTrie.build keys = some nodes) :
    KeysInRange keys ∧ ∃ root, FastTrie.build keys = some root ∧
      nodes = SerializedTrie.flatten root := by
  unfold SerializedTrie.build at h
  cases hb : FastTrie.build keys with
  | none => rw [hb] at h; cases h
  | some root =>
    rw [hb] at h
    simp only [Option.map_some', Option.some.injEq] at h
    refine ⟨?_, root, rfl, h.symm⟩
    by_contra hr
    rw [FastTrie.build_eq, if_neg hr] at hb
    cases hb

theorem SerializedTrie.build_of_inRange (keys : List (List Nat)) (h : KeysInRange keys) :
    ∃ nodes, SerializedTrie.build keys = some nodes := by
  obtain ⟨root, hroot, _⟩ := FastTrie.build_spec keys h
  exact ⟨SerializedTrie.flatten root, by rw [SerializedTrie.build, hroot]; rfl⟩

/-- On a sequence below `2^15` entries built from keys without the sentinel,
the flat lookup of a non-empty prefix of a key answers whether that prefix is
itself a key. -/
theorem SerializedTrie.search_of_prefix (keys : List (List Nat)) (nodes : List SerialTrieNode)
    (k : List Nat) (hbuild : SerializedTrie.build keys = some nodes)
    (hns : ∀ key ∈ keys, terminating_character ∉ key) (hcap : nodes.length < 32768)
    (hk : k ≠ []) (hpre : ∃ key ∈ keys, k <+: key) :
    SerializedTrie.search nodes k = some (decide (k ∈ keys)) := by
  obtain ⟨hrange, root, hroot, hnodes⟩ := SerializedTrie.build_eq_some hbuild
  obtain ⟨root', hroot', _, hmem, hpath⟩ := FastTrie.build_spec keys hrange
  rw [hroot] at hroot'
  cases hroot'
  subst hnodes
  have hkpath : root.hasPath k = true := (hpath k).2 (Or.inr hpre)
  have hnosent : ∀ w, root.hasPath w = true → terminating_character ∉ w := by
    intro w hw hm
    rcases (hpath w).1 hw with rfl | ⟨key, hkey, hpre'⟩
    · cases hm
    · exact hns key hkey (hpre'.subset hm)
  have hpres : root.present ≠ [] := by
    cases k with
    | nil => exact absurd rfl hk
    | cons c rest =>
      simp only [TrieNode.hasPath] at hkpath
      cases hch : root.child c with
      | none => rw [hch] at hkpath; cases hkpath
      | some g => exact root.present_ne_nil_of_child c g hch
  have hlaid := SerializedTrie.flatten_laid root hcap hpres
  have := SerializedTrie.searchLoop_laid (SerializedTrie.flatten root) k root 0 true 0 hk hkpath
    hnosent hlaid rfl
  unfold SerializedTrie.search
  rw [this]
  congr 1
  by_cases hin : k ∈ keys
  · simp [hin, (hmem k).2 hin]
  · have : root.member k = false := by
      cases hm : root.member k with
      | false => rfl
      | true => exact absurd ((hmem k).1 hm) hin
    simp [hin, this]

/-- A key of `2^15` code units or more makes a flat sequence of `2^15` entries
or more. -/
theorem SerializedTrie.length_of_long_key (keys : List (List Nat)) (nodes : List SerialTrieNode)
    (key : List Nat) (hbuild : SerializedTrie.build keys = some nodes) (hkey : key ∈ keys)
    (hlong : 32768 ≤ key.length) : 32768 ≤ nodes.length := by
  by_contra hcap
  have hcap' : nodes.length < 32768 := by omega
  obtain ⟨hrange, root, hroot, hnodes⟩ := SerializedTrie.build_eq_some hbuild
  obtain ⟨root', hroot', _, _, hpath⟩ := FastTrie.build_spec keys hrange
  rw [hroot] at hroot'
  cases hroot'
  subst hnodes
  have hk : key ≠ [] := by
    intro h
    rw [h] at hlong
    simp at hlong
  have hkpath : root.hasPath key = true := (hpath key).2 (Or.inr ⟨key, hkey, List.prefix_refl _⟩)
  have hpres : root.present ≠ [] := by
    cases key with
    | nil => exact absurd rfl hk
    | cons c rest =>
      simp only [TrieNode.hasPath] at hkpath
      cases hch : root.child c with
      | none => rw [hch] at hkpath; cases hkpath
      | some g => exact root.present_ne_nil_of_child c g hch
  have hlaid := SerializedTrie.flatten_laid root hcap' hpres
  have := SerializedTrie.Laid.path_lt_length key root 0 hlaid hk hkpath
  omega

/-! ## Entries at an index of `2^15` or more -/

namespace SerializedTrie

theorem toInt16_lt (x : Int) : toInt16 x < 32768 := by
  unfold toInt16
  omega

theorem mem_childQueue_lt (pos : Nat) (l : List (Nat × TrieNode)) (x : TrieNode × Int)
    (hx : x ∈ childQueue pos l) : x.2 < 32768 := by
  induction l generalizing pos with
  | nil => simp [childQueue] at hx
  | cons y rest ih =>
    simp only [childQueue, List.mem_cons] at hx
    rcases hx with hx | hx
    · rw [hx]
      exact toInt16_lt _
    · exact ih (pos + 1) hx

/-- An index of 16 bits never reaches the entries from `2^15` on: their offset
stays unset when an offset is recorded. -/
theorem recordOffset_high (nodes : List SerialTrieNode) (idx : Int) (hidx : idx < 32768)
    (h : ∀ (p : Nat) (e : SerialTrieNode), 32768 ≤ p → nodes[p]? = some e →
      e.children_offset = -1)
    (p : Nat) (e : SerialTrieNode) (hp : 32768 ≤ p)
    (he : (recordOffset nodes idx)[p]? = some e) : e.children_offset = -1 := by
  unfold recordOffset at he
  split at he
  · split at he
    · split at he
      · rw [List.getElem?_set_ne (by omega)] at he
        exact h p e hp he
      · exact h p e hp he
    · exact h p e hp he
  · exact h p e hp he

theorem foldl_emitChild_high (idx : Int) (hidx : idx < 32768) (l : List (Nat × TrieNode))
    (st : VisitState)
    (h : ∀ (p : Nat) (e : SerialTrieNode), 32768 ≤ p → st.1[p]? = some e →
      e.children_offset = -1)
    (p : Nat) (e : SerialTrieNode) (hp : 32768 ≤ p)
    (he : (l.foldl (fun st x => emitChild idx st x.1 x.2) st).1[p]? = some e) :
    e.children_offset = -1 := by
  induction l generalizing st with
  | nil => exact h p e hp he
  | cons x rest ih =>
    rw [List.foldl_cons] at he
    refine ih (emitChild idx st x.1 x.2) ?_ he
    intro p' e' hp' he'
    simp only [emitChild] at he'
    by_cases hlt : p' < (recordOffset st.1 idx).length
    · rw [List.getElem?_append_left hlt] at he'
      exact recordOffset_high st.1 idx hidx h p' e' hp' he'
    · rw [List.getElem?_append_right (by omega)] at he'
      have hmem := List.getElem?_mem he'
      rw [List.mem_singleton] at hmem
      rw [hmem]
      rfl

theorem visitNode_high (nodes : List SerialTrieNode) (q : List (TrieNode × Int))
    (node : TrieNode) (idx : Int) (hidx : idx < 32768)
    (h : ∀ (p : Nat) (e : SerialTrieNode), 32768 ≤ p → nodes[p]? = some e →
      e.children_offset = -1)
    (p : Nat) (e : SerialTrieNode) (hp : 32768 ≤ p)
    (he : (visitNode nodes q node idx).1[p]? = some e) : e.children_offset = -1 := by
  rw [visitNode_eq] at he
  simp only at he
  split at he
  · by_cases hlt : p < (node.present.foldl (fun st x => emitChild idx st x.1 x.2)
        (nodes, q, false)).1.length
    · rw [List.getElem?_append_left hlt] at he
      exact foldl_emitChild_high idx hidx node.present (nodes, q, false) h p e hp he
    · rw [List.getElem?_append_right (by omega)] at he
      have hmem := List.getElem?_mem he
      rw [List.mem_singleton] at hmem
      rw [hmem]
      rfl
  · exact foldl_emitChild_high idx hidx node.present (nodes, q, false) h p e hp he

theorem flattenLoop_high (fuel : Nat) (nodes : List SerialTrieNode) (q : List (TrieNode × Int))
    (hq : ∀ x ∈ q, x.2 < 32768)
    (h : ∀ (p : Nat) (e : SerialTrieNode), 32768 ≤ p → nodes[p]? = some e →
      e.children_offset = -1)
    (p : Nat) (e : SerialTrieNode) (hp : 32768 ≤ p)
    (he : (flattenLoop fuel nodes q)[p]? = some e) : e.children_offset = -1 := by
  induction fuel generalizing nodes q with
  | zero => exact h p e hp he
  | succ fuel ih =>
    cases q with
    | nil => exact h p e hp he
    | cons x rest =>
      obtain ⟨node, idx⟩ := x
      simp only [flattenLoop] at he
      have hidx : idx < 32768 := hq (node, idx) (List.mem_cons_self _ _)
      refine ih _ _ ?_ ?_ he
      · intro y hy
        rw [visitNode_eq] at hy
        simp only at hy
        rw [(foldl_emitChild_shape idx node.present (nodes, rest, false)).2.1] at hy
        rcases List.mem_append.1 hy with hy | hy
        · exact hq y (List.mem_cons_of_mem _ hy)
        · exact mem_childQueue_lt _ _ y hy
      · exact fun p' e' hp' he' => visitNode_high nodes rest node idx hidx h p' e' hp' he'

/-- In the flattening of any tree, no entry at an index of `2^15` or more has
an offset recorded. -/
theorem flatten_high (root : TrieNode) (p : Nat) (e : SerialTrieNode) (hp : 32768 ≤ p)
    (he : (flatten root)[p]? = some e) : e.children_offset = -1 := by
  unfold flatten at he
  refine flattenLoop_high root.size [] [(root, -1)] ?_ ?_ p e hp he
  · intro x hx
    rw [List.mem_singleton] at hx
    rw [hx]
    show (-1 : Int) < 32768
    decide
  · intro p' e' _ he'
    simp at he'

/-- In the sequence built from any key list, no entry at an index of `2^15` or
more has an offset recorded. -/
theorem build_high (keys : List (List Nat)) (nodes : List SerialTrieNode)
    (hbuild : build keys = some nodes) (p : Nat) (e : SerialTrieNode) (hp : 32768 ≤ p)
    (he : nodes[p]? = some e) : e.children_offset = -1 := by
  obtain ⟨_, root, _, hnodes⟩ := build_eq_some hbuild
  subst hnodes
  exact flatten_high root p e hp he

end SerializedTrie

/-! ## The flattening of a tree of 65 chains -/

namespace SerializedTrie

/-- Recording an offset keeps the code unit and the flag of every entry, and
the whole entry when its offset is already set. -/
theorem recordOffset_keeps (nodes : List SerialTrieNode) (idx : Int) (p : Nat)
    (e : SerialTrieNode) (he : nodes[p]? = some e) :
    ∃ e', (recordOffset nodes idx)[p]? = some e' ∧ e'.character = e.character ∧
      e'.is_leaf = e.is_leaf ∧ (0 ≤ e.children_offset → e' = e) := by
  unfold recordOffset
  split
  · split
    · rename_i e0 he0
      split
      · rename_i hneg
        by_cases hp : idx.toNat = p
        · rw [hp] at he0
          rw [he] at he0
          cases he0
          refine ⟨{ e with children_offset := toInt16 (toUInt16 ((nodes.length : Int) - idx)) },
            ?_, rfl, rfl, fun h => absurd h (by omega)⟩
          rw [hp, List.getElem?_set_self (List.getElem?_eq_some.1 he).1]
        · refine ⟨e, ?_, rfl, rfl, fun _ => rfl⟩
          rw [List.getElem?_set_ne hp]
          exact he
      · exact ⟨e, he, rfl, rfl, fun _ => rfl⟩
    · exact ⟨e, he, rfl, rfl, fun _ => rfl⟩
  · exact ⟨e, he, rfl, rfl, fun _ => rfl⟩

theorem foldl_emitChild_keeps (idx : Int) (l : List (Nat × TrieNode)) (st : VisitState)
    (p : Nat) (e : SerialTrieNode) (he : st.1[p]? = some e) :
    ∃ e', (l.foldl (fun st x => emitChild idx st x.1 x.2) st).1[p]? = some e' ∧
      e'.character = e.character ∧ e'.is_leaf = e.is_leaf ∧
      (0 ≤ e.children_offset → e' = e) := by
  induction l generalizing st e with
  | nil => exact ⟨e, he, rfl, rfl, fun _ => rfl⟩
  | cons x rest ih =>
    rw [List.foldl_cons]
    obtain ⟨e1, he1, hc1, hl1, ho1⟩ := recordOffset_keeps st.1 idx p e he
    have he1' : (emitChild idx st x.1 x.2).1[p]? = some e1 := by
      simp only [emitChild]
      rw [List.getElem?_append_left (List.getElem?_eq_some.1 he1).1]
      exact he1
    obtain ⟨e2, he2, hc2, hl2, ho2⟩ := ih (emitChild idx st x.1 x.2) e1 he1'
    refine ⟨e2, he2, hc2.trans hc1, hl2.trans hl1, fun h => ?_⟩
    have h1 := ho1 h
    rw [h1] at ho2
    rw [ho2 h]

theorem visitNode_keeps (nodes : List SerialTrieNode) (q : List (TrieNode × Int))
    (node : TrieNode) (idx : Int) (p : Nat) (e : SerialTrieNode) (he : nodes[p]? = some e) :
    ∃ e', (visitNode nodes q node idx).1[p]? = some e' ∧ e'.character = e.character ∧
      e'.is_leaf = e.is_leaf ∧ (0 ≤ e.children_offset → e' = e) := by
  obtain ⟨e1, he1, h⟩ := foldl_emitChild_keeps idx node.present (nodes, q, false) p e he
  refine ⟨e1, ?_, h⟩
  rw [visitNode_eq]
  simp only
  split
  · rw [List.getElem?_append_left (List.getElem?_eq_some.1 he1).1]
    exact he1
  · exact he1

/-- The loop keeps the code unit and the flag of every entry already emitted,
and the whole entry when its offset is already set. -/
theorem flattenLoop_keeps (fuel : Nat) (nodes : List SerialTrieNode)
    (q : List (TrieNode × Int)) (p : Nat) (e : SerialTrieNode) (he : nodes[p]? = some e) :
    ∃ e', (flattenLoop fuel nodes q)[p]? = some e' ∧ e'.character = e.character ∧
      e'.is_leaf = e.is_leaf ∧ (0 ≤ e.children_offset → e' = e) := by
  induction fuel generalizing nodes q e with
  | zero => exact ⟨e, he, rfl, rfl, fun _ => rfl⟩
  | succ fuel ih =>
    cases q with
    | nil => exact ⟨e, he, rfl, rfl, fun _ => rfl⟩
    | cons x rest =>
      obtain ⟨node, idx⟩ := x
      simp only [flattenLoop]
      obtain ⟨e1, he1, hc1, hl1, ho1⟩ := visitNode_keeps nodes rest node idx p e he
      obtain ⟨e2, he2, hc2, hl2, ho2⟩ := ih _ (visitNode nodes rest node idx).2 e1 he1
      refine ⟨e2, he2, hc2.trans hc1, hl2.trans hl1, fun h => ?_⟩
      have h1 := ho1 h
      rw [h1] at ho2
      rw [ho2 h]

/-- One iteration of the loop, with the bound that the queue needs. -/
theorem flattenLoop_step (nodes : List SerialTrieNode) (rest : List (TrieNode × Int))
    (node : TrieNode) (idx : Int) :
    flattenLoop (queueSize ((node, idx) :: rest)) nodes ((node, idx) :: rest)
      = flattenLoop (queueSize (visitNode nodes rest node idx).2)
          (visitNode nodes rest node idx).1 (visitNode nodes rest node idx).2 := by
  have hlt := queueSize_visitNode_lt nodes rest node idx
  obtain ⟨f, hf⟩ : ∃ f, queueSize ((node, idx) :: rest)
      = queueSize (visitNode nodes rest node idx).2 + f + 1 :=
    ⟨queueSize ((node, idx) :: rest) - queueSize (visitNode nodes rest node idx).2 - 1,
      by omega⟩
  rw [hf]
  show flattenLoop (queueSize (visitNode nodes rest node idx).2 + f) _ _ = _
  exact flattenLoop_fuel _ f _ _ (Nat.le_refl _)

/-- One iteration for a node whose entry is at `p`, offset still unset, when
the distance to the end of the sequence fits in 15 bits. -/
theorem visitNode_of_near (nodes : List SerialTrieNode) (q : List (TrieNode × Int))
    (node : TrieNode) (p : Nat) (e : SerialTrieNode) (he : nodes[p]? = some e)
    (hoff : e.children_offset < 0) (hnear : nodes.length < p + 32768)
    (h : node.present ≠ []) :
    visitNode nodes q node (p : Int)
      = (nodes.set p { e with children_offset := (nodes.length : Int) - (p : Int) }
            ++ childEntries node.present ++ [sentinel],
          q ++ childQueue nodes.length node.present) := by
  rw [visitNode_eq]
  have hp : p < nodes.length := (List.getElem?_eq_some.1 he).1
  have hconv : toInt16 (toUInt16 ((nodes.length : Int) - (p : Int)))
      = (nodes.length : Int) - (p : Int) := toInt16_toUInt16_eq _ (by omega) (by omega)
  have hs := foldl_emitChild_shape (p : Int) node.present (nodes, q, false)
  have hne : node.present.isEmpty = false := by
    cases hp : node.present with
    | nil => exact absurd hp h
    | cons _ _ => rfl
  obtain ⟨x, l, hxl⟩ : ∃ x l, node.present = x :: l := by
    cases hp : node.present with
    | nil => exact absurd hp h
    | cons x l => exact ⟨x, l, rfl⟩
  have h1 := foldl_emitChild_first p e x l (nodes, q, false) he hoff (by
    show 0 ≤ toInt16 (toUInt16 ((nodes.length : Int) - (p : Int)))
    rw [hconv]; omega)
  simp only [hconv] at h1
  rw [← hxl] at h1
  simp only [hs.2.2, hne, h1, hs.2.1]
  simp [sentinel]

/-- The queue elements pushed for a run of children listed by a function. -/
theorem childQueue_range' (N : Nat → TrieNode) (g : Nat → Nat) (k : Nat) :
    ∀ pos a, childQueue pos ((List.range' a k).map (fun i => (g i, N i)))
      = (List.range' a k).map (fun i => (N i, queueIdx (pos + (i - a)))) := by
  induction k with
  | zero => intro pos a; simp [childQueue]
  | succ k ih =>
    intro pos a
    rw [List.range'_succ]
    simp only [List.map_cons, childQueue]
    rw [ih (pos + 1) (a + 1)]
    congr 1
    · simp
    · apply List.map_congr_left
      intro i hi
      rw [List.mem_range'_1] at hi
      have : pos + 1 + (i - (a + 1)) = pos + (i - a) := by omega
      rw [this]

/-- The flattening of a tree of 65 chains, one per child of the root, while
the nodes leaving the queue have their entry below `2^15`.  The chain node
number `u`, counted in the order of the queue, has its entry at index
`u + (u - 64)`; before the node number `t` is visited the sequence has
`66 + 2 * t` entries, the nodes visited so far have their offset recorded and
the 65 nodes in the queue do not. -/
theorem flattenLoop_runs (root : TrieNode) (N : Nat → TrieNode) (T : Nat) (hT : T ≤ 16416)
    (hroot : root.present = (List.range' 0 65).map (fun i => (33 + i, N i)))
    (hN : ∀ t, t < T → (N t).present = [(33 + t % 65, N (t + 65))])
    (t : Nat) (ht : t ≤ T) :
    ∃ nodes,
      flatten root
        = flattenLoop
            (queueSize ((List.range' t 65).map (fun u => (N u, queueIdx (u + (u - 64))))))
            nodes ((List.range' t 65).map (fun u => (N u, queueIdx (u + (u - 64))))) ∧
      nodes.length = 66 + 2 * t ∧
      (∀ u, u < t + 65 → ∃ e, nodes[u + (u - 64)]? = some e ∧ e.character = 33 + u % 65 ∧
        (u < t → e.children_offset = ((66 + 2 * u : Nat) : Int) - ((u + (u - 64) : Nat) : Int)) ∧
        (t ≤ u → e.children_offset = -1)) ∧
      (∀ u, u < t → ∃ e, nodes[67 + 2 * u]? = some e ∧
        e.character = terminating_character) := by
  induction t with
  | zero =>
    have hne : root.present ≠ [] := by
      rw [hroot, show (65 : Nat) = 64 + 1 from rfl, List.range'_succ]
      simp
    have hlen : root.present.length = 65 := by
      rw [hroot, List.length_map, List.length_range']
    refine ⟨[] ++ childEntries root.present ++ [sentinel], ?_, ?_, ?_, ?_⟩
    · unfold flatten
      have hs : root.size = queueSize [(root, -1)] := by simp [queueSize]
      rw [hs, flattenLoop_step, visitNode_of_neg [] [] root (-1) (by decide) hne]
      have hq : ([] : List (TrieNode × Int)) ++ childQueue ([] : List SerialTrieNode).length
          root.present
          = (List.range' 0 65).map (fun u => (N u, queueIdx (u + (u - 64)))) := by
        rw [hroot, childQueue_range' N (fun i => 33 + i) 65 _ 0, List.nil_append]
        apply List.map_congr_left
        intro i hi
        rw [List.mem_range'_1] at hi
        have : ([] : List SerialTrieNode).length + (i - 0) = i + (i - 64) := by
          simp only [List.length_nil]
          omega
        rw [this]
      simp only [hq]
    · simp only [List.nil_append, List.length_append, length_childEntries, hlen,
        List.length_singleton]
    · intro u hu
      have hu' : u < 65 := by omega
      have hj : root.present[u]? = some (33 + u, N u) := by
        rw [hroot, List.getElem?_map, List.getElem?_range' 0 1 hu']
        simp
      have h := getElem?_run_entry [] root.present u (33 + u) (N u) hj
      have hidx : ([] : List SerialTrieNode).length + u = u + (u - 64) := by
        simp only [List.length_nil]
        omega
      rw [hidx] at h
      refine ⟨_, h, ?_, fun h' => absurd h' (by omega), fun _ => rfl⟩
      show 33 + u = 33 + u % 65
      rw [Nat.mod_eq_of_lt hu']
    · intro u hu
      omega
  | succ t ih =>
    obtain ⟨nodes, hfl, hlen, ha, hb⟩ := ih (by omega)
    have hNt := hN t (by omega)
    obtain ⟨e, he, hec, _, hoff⟩ := ha t (by omega)
    have hoff' : e.children_offset = -1 := hoff (Nat.le_refl t)
    have hq : (List.range' t 65).map (fun u => (N u, queueIdx (u + (u - 64))))
        = (N t, ((t + (t - 64) : Nat) : Int))
          :: (List.range' (t + 1) 64).map (fun u => (N u, queueIdx (u + (u - 64)))) := by
      rw [show (65 : Nat) = 64 + 1 from rfl, List.range'_succ, List.map_cons,
        queueIdx_eq (t + (t - 64)) (by omega)]
    have hne : (N t).present ≠ [] := by
      rw [hNt]
      simp
    rw [hq, flattenLoop_step,
      visitNode_of_near nodes _ (N t) (t + (t - 64)) e he (by omega) (by omega) hne] at hfl
    have hq' : (List.range' (t + 1) 64).map (fun u => (N u, queueIdx (u + (u - 64))))
          ++ childQueue nodes.length (N t).present
        = (List.range' (t + 1) 65).map (fun u => (N u, queueIdx (u + (u - 64)))) := by
      have hc : List.range' (t + 1) 65 = List.range' (t + 1) 64 ++ [t + 1 + 1 * 64] :=
        List.range'_concat (t + 1) 64
      rw [hc, List.map_append, hNt]
      simp only [childQueue, List.map_cons, List.map_nil]
      have h1 : t + 1 + 1 * 64 = t + 65 := by omega
      have h2 : t + 65 + (t + 65 - 64) = nodes.length := by omega
      rw [h1, h2]
    simp only [hq'] at hfl
    refine ⟨_, hfl, ?_, ?_, ?_⟩
    · simp only [List.length_append, List.length_set, length_childEntries, hNt,
        List.length_singleton, hlen]
      omega
    · intro u hu
      by_cases hut : u = t + 65
      · have h := getElem?_run_entry
          (nodes.set (t + (t - 64))
            { e with children_offset := (nodes.length : Int) - ((t + (t - 64) : Nat) : Int) })
          (N t).present 0 (33 + t % 65) (N (t + 65)) (by rw [hNt]; rfl)
        have hidx : (nodes.set (t + (t - 64))
            { e with children_offset := (nodes.length : Int)
              - ((t + (t - 64) : Nat) : Int) }).length + 0 = u + (u - 64) := by
          rw [List.length_set, hlen]
          omega
        rw [hidx] at h
        refine ⟨_, h, ?_, fun h' => absurd h' (by omega), fun _ => rfl⟩
        show 33 + t % 65 = 33 + u % 65
        omega
      · by_cases hut' : u = t
        · subst hut'
          refine ⟨{ e with children_offset := (nodes.length : Int)
              - ((u + (u - 64) : Nat) : Int) }, ?_, hec, fun _ => ?_,
            fun h' => absurd h' (by omega)⟩
          · rw [getElem?_run_old _ _ _ (by
              rw [List.length_set]
              exact (List.getElem?_eq_some.1 he).1)]
            rw [List.getElem?_set_self (List.getElem?_eq_some.1 he).1]
          · show (nodes.length : Int) - ((u + (u - 64) : Nat) : Int) = _
            rw [hlen]
        · obtain ⟨e1, he1, hc1, ho1, hp1⟩ := ha u (by omega)
          refine ⟨e1, ?_, hc1, fun _ => ho1 (by omega), fun h' => hp1 (by omega)⟩
          rw [getElem?_run_old _ _ _ (by
              rw [List.length_set]
              exact (List.getElem?_eq_some.1 he1).1)]
          rw [List.getElem?_set_ne (by omega)]
          exact he1
    · intro u hu
      by_cases hut : u = t
      · subst hut
        have h := getElem?_run_sentinel
          (nodes.set (u + (u - 64))
            { e with children_offset := (nodes.length : Int) - ((u + (u - 64) : Nat) : Int) })
          (N u).present
        have hidx : (nodes.set (u + (u - 64))
            { e with children_offset := (nodes.length : Int)
              - ((u + (u - 64) : Nat) : Int) }).length + (N u).present.length
              = 67 + 2 * u := by
          rw [List.length_set, hlen, hNt]
          simp only [List.length_singleton]
          omega
        rw [hidx] at h
        exact ⟨_, h, rfl⟩
      · obtain ⟨e1, he1, hc1⟩ := hb u (by omega)
        refine ⟨e1, ?_, hc1⟩
        rw [getElem?_run_old _ _ _ (by
            rw [List.length_set]
            exact (List.getElem?_eq_some.1 he1).1)]
        rw [List.getElem?_set_ne (by omega)]
        exact he1

/-- The scan loop skips `k` entries that are neither the sentinel nor the code
unit looked for and stops on the next entry when it is one of the two. -/
theorem scanRun_skips (out : List SerialTrieNode) (c k : Nat) :
    ∀ (a : Nat) (e : SerialTrieNode),
      (∀ i, i < k → ∃ e', out[a + i]? = some e' ∧ e'.character ≠ terminating_character ∧
        e'.character ≠ c) →
      out[a + k]? = some e → (e.character = terminating_character ∨ e.character = c) →
      scanRun c (out.drop a) (a : Int) = some ((a + k : Nat) : Int) := by
  induction k with
  | zero =>
    intro a e _ he h
    exact scanRun_stop out c a e he h
  | succ k ih =>
    intro a e hskip he h
    obtain ⟨e', he', h1, h2⟩ := hskip 0 (by omega)
    rw [scanRun_skip out c a e' he' h1 h2, ih (a + 1) e ?_ ?_ h]
    · congr 2
      omega
    · intro i hi
      obtain ⟨e'', he'', h⟩ := hskip (i + 1) (by omega)
      refine ⟨e'', ?_, h⟩
      rw [← he'']
      congr 1
      omega
    · rw [← he]
      congr 1
      omega

/-- One step of the lookup from an entry whose offset leads to an entry with
the code unit looked for. -/
theorem searchLoop_step (out : List SerialTrieNode) (c : Nat) (rest : List Nat) (a b : Nat)
    (e e' : SerialTrieNode) (he : out[a]? = some e)
    (hoff : (a : Int) + e.children_offset = (b : Int)) (he' : out[b]? = some e')
    (hc : e'.character = c) (hne : c ≠ terminating_character) :
    searchLoop out (c :: rest) false (a : Int) = searchLoop out rest false (b : Int) := by
  simp only [searchLoop, readNode_natCast, he, Bool.false_eq_true, if_false, Option.map_some',
    Option.some_bind, hoff]
  rw [if_neg (by omega), Int.toNat_ofNat, scanRun_stop out c b e' he' (Or.inr hc)]
  simp only [Option.some_bind, readNode_natCast, he']
  rw [if_neg (by rw [hc]; exact hne)]

/-- One step of the lookup from an entry whose offset leads to a sentinel. -/
theorem searchLoop_stop (out : List SerialTrieNode) (c : Nat) (rest : List Nat) (a b : Nat)
    (e e' : SerialTrieNode) (he : out[a]? = some e)
    (hoff : (a : Int) + e.children_offset = (b : Int)) (he' : out[b]? = some e')
    (hc : e'.character = terminating_character) :
    searchLoop out (c :: rest) false (a : Int) = some false := by
  simp only [searchLoop, readNode_natCast, he, Bool.false_eq_true, if_false, Option.map_some',
    Option.some_bind, hoff]
  rw [if_neg (by omega), Int.toNat_ofNat, scanRun_stop out c b e' he' (Or.inl hc)]
  simp only [Option.some_bind, readNode_natCast, he']
  rw [if_pos hc]

/-- The lookup along the chain number 36 of a sequence in which the entries
of that chain are laid out up to index `2^15`, where the offset is missing
and the entry before is a sentinel: the lookup follows the offsets down to
that entry, steps back by one and stops on the sentinel. -/
theorem searchLoop_runs (out : List SerialTrieNode)
    (hproc : ∀ u, u < 16352 → ∃ e, out[u + (u - 64)]? = some e ∧ e.character = 33 + u % 65 ∧
      e.children_offset = ((66 + 2 * u : Nat) : Int) - ((u + (u - 64) : Nat) : Int))
    (hlast : ∃ e, out[32768]? = some e ∧ e.character = 69 ∧ e.children_offset = -1)
    (hsent : ∃ e, out[32767]? = some e ∧ e.character = terminating_character)
    (d : Nat) :
    ∀ k r, k + d = 252 → d < r →
      searchLoop out (List.replicate r 69) false
        ((36 + 65 * k + (36 + 65 * k - 64) : Nat) : Int) = some false := by
  induction d with
  | zero =>
    intro k r hk hr
    obtain ⟨e, he, _, hoff⟩ := hlast
    obtain ⟨e', he', hc'⟩ := hsent
    obtain ⟨m, rfl⟩ : ∃ m, r = m + 1 := ⟨r - 1, by omega⟩
    have hp : 36 + 65 * k + (36 + 65 * k - 64) = 32768 := by omega
    rw [hp, List.replicate_succ]
    exact searchLoop_stop out 69 _ 32768 32767 e e' he (by rw [hoff]; rfl) he' hc'
  | succ d ih =>
    intro k r hk hr
    obtain ⟨e, he, _, hoff⟩ := hproc (36 + 65 * k) (by omega)
    obtain ⟨m, rfl⟩ : ∃ m, r = m + 1 := ⟨r - 1, by omega⟩
    have hnext : ∃ e', out[36 + 65 * (k + 1) + (36 + 65 * (k + 1) - 64)]? = some e' ∧
        e'.character = 69 := by
      by_cases hk' : k + 1 = 252
      · obtain ⟨e', he', hc', _⟩ := hlast
        have hp : 36 + 65 * (k + 1) + (36 + 65 * (k + 1) - 64) = 32768 := by omega
        rw [hp]
        exact ⟨e', he', hc'⟩
      · obtain ⟨e', he', hc', _⟩ := hproc (36 + 65 * (k + 1)) (by omega)
        refine ⟨e', he', ?_⟩
        rw [hc']
        omega
    obtain ⟨e', he', hc'⟩ := hnext
    rw [List.replicate_succ,
      searchLoop_step out 69 _ (36 + 65 * k + (36 + 65 * k - 64))
        (36 + 65 * (k + 1) + (36 + 65 * (k + 1) - 64)) e e' he (by rw [hoff]; omega) he' hc'
        (by decide)]
    exact ih (k + 1) m (by omega) (by omega)

/-- The lookup of the key number 36 in the flattening of the tree of 65
chains of depth 254 or more: the entry of the chain at depth 253 is at index
`2^15`, its offset was never recorded, and the lookup returns false. -/
theorem search_flatten_runs (root : TrieNode) (N : Nat → TrieNode)
    (hroot : root.present = (List.range' 0 65).map (fun i => (33 + i, N i)))
    (hN : ∀ t, t < 16352 → (N t).present = [(33 + t % 65, N (t + 65))])
    (n : Nat) (hn : 254 ≤ n) :
    search (flatten root) (List.replicate n 69) = some false := by
  obtain ⟨nodes, hfl, hlen, ha, hb⟩ :=
    flattenLoop_runs root N 16352 (by decide) hroot hN 16352 (Nat.le_refl _)
  have hproc : ∀ u, u < 16352 → ∃ e, (flatten root)[u + (u - 64)]? = some e ∧
      e.character = 33 + u % 65 ∧
      e.children_offset = ((66 + 2 * u : Nat) : Int) - ((u + (u - 64) : Nat) : Int) := by
    intro u hu
    obtain ⟨e, he, hc, ho, _⟩ := ha u (by omega)
    obtain ⟨e', he', _, _, hsame⟩ := flattenLoop_keeps _ nodes _ _ e he
    rw [← hfl] at he'
    have ho' := ho hu
    rw [hsame (by rw [ho']; omega)] at he'
    exact ⟨e, he', hc, ho'⟩
  have hlast : ∃ e, (flatten root)[32768]? = some e ∧ e.character = 69 ∧
      e.children_offset = -1 := by
    obtain ⟨e, he, hc, _, _⟩ := ha 16416 (by omega)
    obtain ⟨e', he', hc', _, _⟩ := flattenLoop_keeps _ nodes _ _ e he
    rw [← hfl] at he'
    have he'' : (flatten root)[32768]? = some e' := he'
    exact ⟨e', he'', by rw [hc', hc], flatten_high root 32768 e' (Nat.le_refl _) he''⟩
  have hsent : ∃ e, (flatten root)[32767]? = some e ∧
      e.character = terminating_character := by
    obtain ⟨e, he, hc⟩ := hb 16350 (by omega)
    obtain ⟨e', he', hc', _, _⟩ := flattenLoop_keeps _ nodes _ _ e he
    rw [← hfl] at he'
    exact ⟨e', he', by rw [hc', hc]⟩
  obtain ⟨m, rfl⟩ : ∃ m, n = m + 1 := ⟨n - 1, by omega⟩
  obtain ⟨e, he, hc, _⟩ := hproc 36 (by omega)
  have hscan : scanRun 69 ((flatten root).drop 0) ((0 : Nat) : Int) = some ((0 + 36 : Nat) : Int) := by
    refine scanRun_skips (flatten root) 69 36 0 e ?_ he (Or.inr hc)
    intro i hi
    obtain ⟨e', he', hc', _⟩ := hproc i (by omega)
    have hi' : i + (i - 64) = 0 + i := by omega
    rw [hi'] at he'
    refine ⟨e', he', ?_, ?_⟩
    · rw [hc']
      unfold terminating_character
      omega
    · rw [hc']
      omega
  have h36 : (flatten root)[36]? = some e := he
  unfold search
  rw [List.replicate_succ]
  simp only [searchLoop, if_true, Option.some_bind]
  rw [if_neg (by omega)]
  have hscan' : scanRun 69 (List.drop (0 : Int).toNat (flatten root)) 0 = some 36 := hscan
  rw [hscan']
  simp only [Option.some_bind]
  have hread : readNode (flatten root) 36 = some e := by
    rw [← h36]
    exact readNode_natCast (flatten root) 36
  rw [hread]
  simp only [Option.some_bind]
  rw [if_neg (by rw [hc]; decide)]
  exact searchLoop_runs (flatten root) hproc hlast hsent 252 0 m (by omega) (by omega)

end SerializedTrie

/-! ## The layout seen from the entries -/

/-- The guard of `FastTrie.insertKey` and `FastTrie.search` is the bounds
check of `children[character]` on the `char` value of the code unit. -/
theorem charValue_in_table (c : Nat) (hc : c < 256) :
    c < alphabet_size ↔ 0 ≤ charValue c ∧ charValue c < (alphabet_size : Int) := by
  unfold charValue alphabet_size
  split <;> omega

namespace SerializedTrie

theorem Laid.runAt {out : List SerialTrieNode} {s : Nat} {n : TrieNode} (h : Laid out s n) :
    RunAt out s n := by
  cases h with
  | mk _ _ hentry hbelow hsent =>
    refine ⟨?_, hsent⟩
    intro j c ch hj
    obtain ⟨e, he, hc, hl, _⟩ := hentry j c ch hj
    exact ⟨e, he, hc, hl⟩

/-- Every entry that encodes a node carries the flag of that node, keeps the
offset `-1` when the node has no child, and otherwise has a positive offset
that leads to the laid-out run of the node. -/
theorem Encodes.spec {out : List SerialTrieNode} {root : TrieNode} (hroot : Laid out 0 root)
    {p : Nat} {n : TrieNode} (h : Encodes out root p n) :
    ∃ e, out[p]? = some e ∧ e.is_leaf = n.is_end_of_word ∧
      (n.present = [] → e.children_offset = -1) ∧
      (n.present ≠ [] → 0 < e.children_offset ∧
        Laid out (p + e.children_offset.toNat) n) := by
  induction h with
  | ofRoot j c ch hj =>
    cases hroot with
    | mk _ _ hentry hbelow hsent =>
      obtain ⟨e, he, _, hl, h1, h2⟩ := hentry j c ch hj
      rw [Nat.zero_add] at he
      refine ⟨e, he, hl, h1, fun hne => ⟨h2 hne, ?_⟩⟩
      have := hbelow j c ch e hj (by rw [Nat.zero_add]; exact he) hne
      rw [Nat.zero_add] at this
      exact this
  | ofChild p n e j c ch _ he hj ih =>
    obtain ⟨e', he', _, _, h2⟩ := ih
    rw [he] at he'
    cases he'
    have hne : n.present ≠ [] := by
      intro h0
      rw [h0] at hj
      simp at hj
    obtain ⟨_, hlaid⟩ := h2 hne
    cases hlaid with
    | mk _ _ hentry hbelow hsent =>
      obtain ⟨e2, he2, _, hl, h1, h2'⟩ := hentry j c ch hj
      exact ⟨e2, he2, hl, h1, fun hne' => ⟨h2' hne', hbelow j c ch e2 hj he2 hne'⟩⟩

/-- The offsets added on an existing path through laid-out runs are
positive. -/
theorem searchJumps_laid (out : List SerialTrieNode) (k : List Nat) :
    ∀ (n : TrieNode) (s : Nat) (first : Bool) (curr : Int), k ≠ [] → n.hasPath k = true →
      (∀ w, n.hasPath w = true → terminating_character ∉ w) → Laid out s n →
      ((first = true ∧ curr = (s : Int)) ∨
        (first = false ∧ ∃ e, readNode out curr = some e ∧ 0 < e.children_offset ∧
          curr + e.children_offset = (s : Int))) →
      ∀ d ∈ searchJumps out k first curr, 0 < d := by
  induction k with
  | nil => intro _ _ _ _ h; exact absurd rfl h
  | cons c rest ih =>
    intro n s first curr _ hpath hns hlaid hstart
    simp only [TrieNode.hasPath] at hpath
    cases hch : n.child c with
    | none => rw [hch] at hpath; cases hpath
    | some ch =>
      rw [hch] at hpath
      simp only at hpath
      obtain ⟨j, hj⟩ := List.mem_iff_getElem?.1 ((n.mem_present c ch).2 hch)
      have hnsrun : ∀ x ∈ n.present, x.1 ≠ terminating_character := by
        intro x hx hxt
        have hc' : n.child x.1 = some x.2 := (n.mem_present x.1 x.2).1 hx
        have : n.hasPath [x.1] = true := by simp [TrieNode.hasPath, hc']
        exact hns _ this (by simp [hxt])
      have hcne : c ≠ terminating_character := hnsrun (c, ch) (List.getElem?_mem hj)
      have hscan := scanRun_laid out s n hlaid hnsrun j c ch hj j 0 (by omega)
      rw [Nat.add_zero] at hscan
      cases hlaid with
      | mk _ _ hentry hbelow hsent =>
        obtain ⟨e, he, hc, hleaf, hoff1, hoff2⟩ := hentry j c ch hj
        have hread : readNode out ((s + j : Nat) : Int) = some e := by
          rw [readNode_natCast, he]
        have htail : ∀ d ∈ searchJumps out rest false ((s + j : Nat) : Int), 0 < d := by
          cases rest with
          | nil => intro d hd; simp [searchJumps] at hd
          | cons c' rest' =>
            have hpne : ch.present ≠ [] := by
              simp only [TrieNode.hasPath] at hpath
              cases hch' : ch.child c' with
              | none => rw [hch'] at hpath; cases hpath
              | some g => exact ch.present_ne_nil_of_child c' g hch'
            refine ih ch (s + j + e.children_offset.toNat) false _ (List.cons_ne_nil _ _) hpath
              ?_ (hbelow j c ch e hj he hpne) ?_
            · intro w hw
              have : n.hasPath (c :: w) = true := by simp [TrieNode.hasPath, hch, hw]
              have := hns _ this
              exact fun hm => this (List.mem_cons_of_mem _ hm)
            · have hpos := hoff2 hpne
              exact Or.inr ⟨rfl, e, hread, hpos, by omega⟩
        intro d hd
        unfold searchJumps at hd
        rcases hstart with ⟨hf, hcurr⟩ | ⟨hf, e0, he0, hpos0, hs0⟩
        · subst hf
          subst hcurr
          simp only [if_true, List.nil_append] at hd
          rw [if_neg (by omega), Int.toNat_ofNat, hscan] at hd
          simp only [hread] at hd
          rw [if_neg (by rw [hc]; exact hcne)] at hd
          exact htail d hd
        · subst hf
          simp only [Bool.false_eq_true, if_false, he0, Option.map_some'] at hd
          rw [hs0] at hd
          rw [if_neg (by omega), Int.toNat_ofNat, hscan] at hd
          simp only [hread] at hd
          rw [if_neg (by rw [hc]; exact hcne)] at hd
          rcases List.mem_append.1 hd with hd | hd
          · rw [List.mem_singleton] at hd
            rw [hd]
            exact hpos0
          · exact htail d hd

end SerializedTrie

theorem TrieNode.descend_append (n : TrieNode) (w : List Nat) (c : Nat) :
    n.descend (w ++ [c]) = (n.descend w).bind (fun m => m.child c) := by
  induction w generalizing n with
  | nil =>
    simp only [List.nil_append, TrieNode.descend, Option.some_bind]
    cases n.child c <;> rfl
  | cons d rest ih =>
    simp only [List.cons_append, TrieNode.descend]
    cases n.child d with
    | none => rfl
    | some ch => exact ih ch

namespace SerializedTrie

theorem flattenLoop_nil (fuel : Nat) (nodes : List SerialTrieNode) :
    flattenLoop fuel nodes [] = nodes := by
  cases fuel <;> rfl

theorem flatten_of_leaf (root : TrieNode) (h : root.present = []) : flatten root = [] := by
  unfold flatten
  obtain ⟨fuel, hfuel⟩ : ∃ fuel, root.size = fuel + 1 :=
    ⟨TrieNode.sizeList root.children, by rw [TrieNode.size_eq]; omega⟩
  rw [hfuel]
  show flattenLoop fuel (visitNode [] [] root (-1)).1 (visitNode [] [] root (-1)).2 = []
  rw [visitNode_of_leaf _ _ _ _ h]
  exact flattenLoop_nil fuel []

/-- An entry that encodes a node is reached along a non-empty path of the
tree. -/
theorem Encodes.path {out : List SerialTrieNode} {root : TrieNode} {p : Nat} {n : TrieNode}
    (h : Encodes out root p n) : ∃ w, w ≠ [] ∧ root.descend w = some n := by
  induction h with
  | ofRoot j c ch hj =>
    refine ⟨[c], List.cons_ne_nil _ _, ?_⟩
    have := (root.mem_present c ch).1 (List.getElem?_mem hj)
    simp [TrieNode.descend, this]
  | ofChild p n e j c ch _ _ hj ih =>
    obtain ⟨w, _, hw⟩ := ih
    refine ⟨w ++ [c], by simp, ?_⟩
    have := (n.mem_present c ch).1 (List.getElem?_mem hj)
    rw [TrieNode.descend_append, hw, Option.some_bind, this]

end SerializedTrie

/-- The tree and the layout behind a flat sequence below `2^15` entries. -/
theorem SerializedTrie.build_laid (keys : List (List Nat)) (nodes : List SerialTrieNode)
    (hbuild : SerializedTrie.build keys = some nodes) (hcap : nodes.length < 32768) :
    ∃ root, FastTrie.build keys = some root ∧ root.WF ∧ nodes = SerializedTrie.flatten root ∧
      (∀ k, root.member k = true ↔ k ∈ keys) ∧
      (∀ k, root.hasPath k = true ↔ k = [] ∨ ∃ key ∈ keys, k <+: key) ∧
      (root.present = [] → nodes = []) ∧
      (root.present ≠ [] → SerializedTrie.Laid nodes 0 root) := by
  obtain ⟨hrange, root, hroot, hnodes⟩ := SerializedTrie.build_eq_some hbuild
  obtain ⟨root', hroot', hwf, hmem, hpath⟩ := FastTrie.build_spec keys hrange
  rw [hroot] at hroot'
  cases hroot'
  subst hnodes
  exact ⟨root, hroot, hwf, rfl, hmem, hpath, SerializedTrie.flatten_of_leaf root,
    SerializedTrie.flatten_laid root hcap⟩

theorem TrieNode.hasPath_of_descend (n m : TrieNode) (w : List Nat) (h : n.descend w = some m) :
    n.hasPath w = true := by
  rw [TrieNode.hasPath_eq_descend, h]
  rfl

namespace SerializedTrie

theorem scanReads_skip (out : List SerialTrieNode) (c a : Nat) (e : SerialTrieNode)
    (he : out[a]? = some e) (h1 : e.character ≠ terminating_character) (h2 : e.character ≠ c) :
    scanReads c (out.drop a) (a : Int)
      = (a : Int) :: scanReads c (out.drop (a + 1)) ((a + 1 : Nat) : Int) := by
  obtain ⟨ha, rfl⟩ := List.getElem?_eq_some.1 he
  rw [List.drop_eq_getElem_cons ha]
  simp only [scanReads]
  rw [if_pos ⟨h1, h2⟩]
  rfl

theorem scanReads_stop (out : List SerialTrieNode) (c a : Nat) (e : SerialTrieNode)
    (he : out[a]? = some e) (h : e.character = terminating_character ∨ e.character = c) :
    scanReads c (out.drop a) (a : Int) = [(a : Int)] := by
  obtain ⟨ha, rfl⟩ := List.getElem?_eq_some.1 he
  rw [List.drop_eq_getElem_cons ha]
  simp only [scanReads]
  rw [if_neg (by
    rintro ⟨h1, h2⟩
    rcases h with h | h
    · exact h1 h
    · exact h2 h)]

/-- The scan over a laid-out run reads the entries of the run up to the child
looked for, and no other. -/
theorem scanReads_laid (out : List SerialTrieNode) (s : Nat) (n : TrieNode)
    (hlaid : Laid out s n) (hns : ∀ x ∈ n.present, x.1 ≠ terminating_character)
    (j c : Nat) (ch : TrieNode) (hj : n.present[j]? = some (c, ch)) :
    ∀ d i, i + d = j → ∀ x ∈ scanReads c (out.drop (s + i)) ((s + i : Nat) : Int),
      ((s : Nat) : Int) ≤ x ∧ x ≤ ((s + j : Nat) : Int) := by
  cases hlaid with
  | mk _ _ hentry hbelow hsent =>
    intro d
    induction d with
    | zero =>
      intro i hi x hx
      have : i = j := by omega
      subst this
      obtain ⟨e, he, hc, _⟩ := hentry i c ch hj
      rw [scanReads_stop out c (s + i) e he (Or.inr hc), List.mem_singleton] at hx
      omega
    | succ d ih =>
      intro i hi x hx
      have hjl : j < n.present.length := (List.getElem?_eq_some.1 hj).1
      have hil : i < n.present.length := by omega
      obtain ⟨y, hy⟩ : ∃ y, n.present[i]? = some y :=
        ⟨n.present[i], List.getElem?_eq_getElem hil⟩
      obtain ⟨e, he, hc, _⟩ := hentry i y.1 y.2 hy
      have hlt := n.present_lt i j y (c, ch) hy hj (by omega)
      have hne : e.character ≠ terminating_character := by
        rw [hc]
        exact hns y (List.getElem?_mem hy)
      rw [scanReads_skip out c (s + i) e he hne (by rw [hc]; simp only at hlt; omega),
        List.mem_cons] at hx
      rcases hx with hx | hx
      · omega
      · have := ih (i + 1) (by omega) x hx
        omega

/-- The lookup of an existing path through laid-out runs reads inside the
sequence only. -/
theorem searchReads_laid (out : List SerialTrieNode) (k : List Nat) :
    ∀ (n : TrieNode) (s : Nat) (first : Bool) (curr : Int), k ≠ [] → n.hasPath k = true →
      (∀ w, n.hasPath w = true → terminating_character ∉ w) → Laid out s n →
      ((first = true ∧ curr = (s : Int)) ∨
        (first = false ∧ ∃ e, readNode out curr = some e ∧ 0 < e.children_offset ∧
          curr + e.children_offset = (s : Int))) →
      ∀ x ∈ searchReads out k first curr, 0 ≤ x ∧ x < (out.length : Int) := by
  induction k with
  | nil => intro _ _ _ _ h; exact absurd rfl h
  | cons c rest ih =>
    intro n s first curr _ hpath hns hlaid hstart
    simp only [TrieNode.hasPath] at hpath
    cases hch : n.child c with
    | none => rw [hch] at hpath; cases hpath
    | some ch =>
      rw [hch] at hpath
      simp only at hpath
      obtain ⟨j, hj⟩ := List.mem_iff_getElem?.1 ((n.mem_present c ch).2 hch)
      have hnsrun : ∀ x ∈ n.present, x.1 ≠ terminating_character := by
        intro x hx hxt
        have hc' : n.child x.1 = some x.2 := (n.mem_present x.1 x.2).1 hx
        have : n.hasPath [x.1] = true := by simp [TrieNode.hasPath, hc']
        exact hns _ this (by simp [hxt])
      have hcne : c ≠ terminating_character := hnsrun (c, ch) (List.getElem?_mem hj)
      have hscan := scanRun_laid out s n hlaid hnsrun j c ch hj j 0 (by omega)
      have hreads := scanReads_laid out s n hlaid hnsrun j c ch hj j 0 (by omega)
      rw [Nat.add_zero] at hscan hreads
      cases hlaid with
      | mk _ _ hentry hbelow hsent =>
        obtain ⟨e, he, hc, hleaf, hoff1, hoff2⟩ := hentry j c ch hj
        have hjlen : s + j < out.length := (List.getElem?_eq_some.1 he).1
        have hread : readNode out ((s + j : Nat) : Int) = some e := by
          rw [readNode_natCast, he]
        have htail : ∀ x ∈ searchReads out rest false ((s + j : Nat) : Int),
            0 ≤ x ∧ x < (out.length : Int) := by
          cases rest with
          | nil =>
            intro x hx
            simp only [searchReads, List.mem_singleton] at hx
            omega
          | cons c' rest' =>
            have hpne : ch.present ≠ [] := by
              simp only [TrieNode.hasPath] at hpath
              cases hch' : ch.child c' with
              | none => rw [hch'] at hpath; cases hpath
              | some g => exact ch.present_ne_nil_of_child c' g hch'
            refine ih ch (s + j + e.children_offset.toNat) false _ (List.cons_ne_nil _ _) hpath
              ?_ (hbelow j c ch e hj he hpne) ?_
            · intro w hw
              have : n.hasPath (c :: w) = true := by simp [TrieNode.hasPath, hch, hw]
              have := hns _ this
              exact fun hm => this (List.mem_cons_of_mem _ hm)
            · have hpos := hoff2 hpne
              exact Or.inr ⟨rfl, e, hread, hpos, by omega⟩
        have hrun : ∀ x ∈ scanReads c (List.drop s out) (s : Int),
            0 ≤ x ∧ x < (out.length : Int) := by
          intro x hx
          have := hreads x hx
          omega
        intro x hx
        unfold searchReads at hx
        rcases hstart with ⟨hf, hcurr⟩ | ⟨hf, e0, he0, hpos0, hs0⟩
        · subst hf
          subst hcurr
          simp only [if_true, List.nil_append] at hx
          rw [if_neg (by omega), if_neg (by omega), Int.toNat_ofNat, hscan] at hx
          simp only [hread] at hx
          rw [if_neg (by rw [hc]; exact hcne)] at hx
          rcases List.mem_append.1 hx with hx | hx
          · exact hrun x hx
          · exact htail x hx
        · subst hf
          simp only [Bool.false_eq_true, if_false, he0, Option.map_some'] at hx
          rw [hs0] at hx
          rw [if_neg (by omega), if_neg (by omega), Int.toNat_ofNat, hscan] at hx
          simp only [hread] at hx
          rw [if_neg (by rw [hc]; exact hcne)] at hx
          have hcurr : 0 ≤ curr ∧ curr < (out.length : Int) := by
            unfold readNode at he0
            split at he0
            · cases he0
            · have := (List.getElem?_eq_some.1 he0).1
              omega
          rcases List.mem_append.1 hx with hx | hx
          · rw [List.mem_singleton] at hx
            rw [hx]
            exact hcurr
          · rcases List.mem_append.1 hx with hx | hx
            · exact hrun x hx
            · exact htail x hx

end SerializedTrie

/-! ## The number of flat entries -/

namespace TrieNode

/-- Induction on the tree: a property that holds for a node once it holds for
its children holds for every node. -/
theorem induction_on {P : TrieNode → Prop}
    (h : ∀ cs e, (∀ ch, some ch ∈ cs → P ch) → P (TrieNode.mk cs e)) : ∀ n, P n := by
  intro n
  refine TrieNode.rec (motive_1 := P) (motive_2 := fun cs => ∀ ch, some ch ∈ cs → P ch)
    (motive_3 := fun o => ∀ ch, o = some ch → P ch) ?_ ?_ ?_ ?_ ?_ n
  · intro cs e ih
    exact h cs e ih
  · intro ch hch
    cases hch
  · intro head tail ihh iht ch hch
    rcases List.mem_cons.1 hch with h1 | h1
    · exact ihh ch h1.symm
    · exact iht ch h1
  · intro ch hch
    cases hch
  · intro val ih ch hch
    cases hch
    exact ih

theorem presentFrom_eq (cs : List (Option TrieNode)) :
    ∀ s, (List.range' s cs.length).filterMap
        (fun i => (cs.getD (i - s) none).map (fun ch => (i, ch))) = presentFrom s cs := by
  induction cs with
  | nil => intro s; rfl
  | cons x rest ih =>
    intro s
    rw [List.length_cons, List.range'_succ, List.filterMap_cons]
    have htail : (List.range' (s + 1) rest.length).filterMap
        (fun i => ((x :: rest).getD (i - s) none).map (fun ch => (i, ch)))
        = presentFrom (s + 1) rest := by
      rw [← ih (s + 1)]
      apply List.filterMap_congr
      intro i hi
      rw [List.mem_range'_1] at hi
      have : i - s = (i - (s + 1)) + 1 := by omega
      rw [this]
      simp
    rw [htail]
    cases x with
    | none => simp [presentFrom]
    | some n => simp [presentFrom]

theorem present_eq_presentFrom (n : TrieNode) (h : n.WF) :
    n.present = presentFrom 0 n.children := by
  rw [← presentFrom_eq n.children 0, h.length]
  unfold TrieNode.present
  rw [List.range_eq_range']
  rfl

theorem nonRootPaths_eq (n : TrieNode) : n.nonRootPaths = pathsFrom n.children 0 := by
  cases n with
  | mk cs e => simp [nonRootPaths, TrieNode.children]

theorem innerPaths_eq (n : TrieNode) :
    n.innerPaths
      = (if n.children.any Option.isSome then [[]] else []) ++ innerFrom n.children 0 := by
  cases n with
  | mk cs e => simp [innerPaths, TrieNode.children]

theorem length_pathsFrom (cs : List (Option TrieNode)) :
    ∀ i, (pathsFrom cs i).length
      = ((presentFrom i cs).map (fun x => 1 + x.2.nonRootPaths.length)).sum := by
  induction cs with
  | nil => intro i; simp [pathsFrom, presentFrom]
  | cons x rest ih =>
    intro i
    cases x with
    | none => simp [pathsFrom, presentFrom, ih]
    | some n => simp [pathsFrom, presentFrom, ih]; omega

theorem length_innerFrom (cs : List (Option TrieNode)) :
    ∀ i, (innerFrom cs i).length
      = ((presentFrom i cs).map (fun x => x.2.innerPaths.length)).sum := by
  induction cs with
  | nil => intro i; simp [innerFrom, presentFrom]
  | cons x rest ih =>
    intro i
    cases x with
    | none => simp [innerFrom, presentFrom, ih]
    | some n => simp [innerFrom, presentFrom, ih]

theorem any_isSome_iff (cs : List (Option TrieNode)) :
    ∀ i, cs.any Option.isSome = true ↔ presentFrom i cs ≠ [] := by
  induction cs with
  | nil => intro i; simp [presentFrom]
  | cons x rest ih =>
    intro i
    cases x with
    | none => simp [presentFrom, ih (i + 1)]
    | some n => simp [presentFrom]

/-- The count of a node from the counts of its children. -/
theorem flatCount_eq (n : TrieNode) (h : n.WF) :
    n.flatCount = (n.present.map (fun x => 1 + x.2.flatCount)).sum
      + (if n.present.isEmpty then 0 else 1) := by
  unfold flatCount
  rw [nonRootPaths_eq, innerPaths_eq, List.length_append, length_pathsFrom, length_innerFrom,
    present_eq_presentFrom n h]
  have hsum : ∀ l : List (Nat × TrieNode),
      (l.map (fun x => 1 + (x.2.nonRootPaths.length + x.2.innerPaths.length))).sum
        = (l.map (fun x => 1 + x.2.nonRootPaths.length)).sum
          + (l.map (fun x => x.2.innerPaths.length)).sum := by
    intro l
    induction l with
    | nil => rfl
    | cons x r ih => simp only [List.map_cons, List.sum_cons, ih]; omega
  rw [hsum]
  by_cases hp : presentFrom 0 n.children = []
  · have : ¬ (n.children.any Option.isSome = true) := fun ha => (any_isSome_iff _ 0).1 ha hp
    simp [hp, this]
  · have : n.children.any Option.isSome = true := (any_isSome_iff _ 0).2 hp
    have he : (presentFrom 0 n.children).isEmpty = false := by
      cases hq : presentFrom 0 n.children with
      | nil => exact absurd hq hp
      | cons _ _ => rfl
    rw [if_pos this, he]
    simp only [List.length_singleton, Bool.false_eq_true, if_false]
    omega

end TrieNode

namespace SerializedTrie

theorem length_visitNode (nodes : List SerialTrieNode) (q : List (TrieNode × Int))
    (node : TrieNode) (idx : Int) :
    (visitNode nodes q node idx).1.length
      = nodes.length + node.present.length + (if node.present.isEmpty then 0 else 1) := by
  rw [visitNode_eq]
  obtain ⟨h1, _, h3⟩ := foldl_emitChild_shape idx node.present (nodes, q, false)
  simp only at h1 h3
  simp only [h3, Bool.false_or]
  cases hp : node.present.isEmpty with
  | true => simp [h1]
  | false => simp [h1]

theorem sum_flatCount_childQueue (pos : Nat) (l : List (Nat × TrieNode)) :
    ((childQueue pos l).map (fun x => x.1.flatCount)).sum
      = (l.map (fun x => x.2.flatCount)).sum := by
  induction l generalizing pos with
  | nil => rfl
  | cons x rest ih => simp [childQueue, ih]

theorem WF_of_mem_childQueue (pos : Nat) (node : TrieNode) (h : node.WF)
    (x : TrieNode × Int) (hx : x ∈ childQueue pos node.present) : x.1.WF := by
  obtain ⟨j, hj⟩ := List.mem_iff_getElem?.1 hx
  rw [getElem?_childQueue] at hj
  cases hy : node.present[j]? with
  | none => rw [hy] at hj; cases hj
  | some y =>
    rw [hy] at hj
    simp only [Option.map_some', Option.some.injEq] at hj
    subst hj
    exact h.of_child ((node.mem_present y.1 y.2).1 (List.getElem?_mem hy))

theorem sum_one_add (l : List (Nat × TrieNode)) :
    (l.map (fun x => 1 + x.2.flatCount)).sum = l.length + (l.map (fun x => x.2.flatCount)).sum := by
  induction l with
  | nil => rfl
  | cons x rest ih => simp only [List.map_cons, List.sum_cons, List.length_cons, ih]; omega

/-- The length of the flat sequence, whatever the 16-bit indices do: every
queue element adds the count of its node. -/
theorem length_flattenLoop (fuel : Nat) :
    ∀ (nodes : List SerialTrieNode) (q : List (TrieNode × Int)), (∀ x ∈ q, x.1.WF) →
      queueSize q ≤ fuel →
      (flattenLoop fuel nodes q).length
        = nodes.length + (q.map (fun x => x.1.flatCount)).sum := by
  induction fuel with
  | zero =>
    intro nodes q _ hsize
    cases q with
    | nil => simp [flattenLoop]
    | cons x rest =>
      exfalso
      have := TrieNode.size_eq x.1
      simp only [queueSize, List.map_cons, List.sum_cons] at hsize
      omega
  | succ fuel ih =>
    intro nodes q hwf hsize
    cases q with
    | nil => simp [flattenLoop]
    | cons x rest =>
      obtain ⟨node, idx⟩ := x
      have hnode : node.WF := hwf (node, idx) (List.mem_cons_self _ _)
      have hqs := queueSize_visitNode_lt nodes rest node idx
      show (flattenLoop fuel (visitNode nodes rest node idx).1
        (visitNode nodes rest node idx).2).length = _
      rw [ih _ _ ?_ (by omega), length_visitNode, visitNode_snd, List.map_append,
        List.sum_append, sum_flatCount_childQueue, List.map_cons, List.sum_cons,
        TrieNode.flatCount_eq node hnode, sum_one_add]
      · omega
      · intro x hx
        rw [visitNode_snd] at hx
        rcases List.mem_append.1 hx with hx | hx
        · exact hwf x (List.mem_cons_of_mem _ hx)
        · exact WF_of_mem_childQueue _ node hnode x hx

theorem length_flatten (root : TrieNode) (h : root.WF) :
    (flatten root).length = root.flatCount := by
  unfold flatten
  rw [length_flattenLoop root.size [] [(root, -1)] (by
    intro x hx
    rw [List.mem_singleton] at hx
    rw [hx]
    exact h) (by simp [queueSize])]
  simp

end SerializedTrie

namespace TrieNode

theorem mem_presentFrom_le (cs : List (Option TrieNode)) :
    ∀ i x, x ∈ presentFrom i cs → i ≤ x.1 := by
  induction cs with
  | nil => intro i x hx; simp [presentFrom] at hx
  | cons y rest ih =>
    intro i x hx
    cases y with
    | none =>
      simp only [presentFrom] at hx
      have := ih (i + 1) x hx
      omega
    | some n =>
      simp only [presentFrom, List.mem_cons] at hx
      rcases hx with rfl | hx
      · exact Nat.le_refl _
      · have := ih (i + 1) x hx
        omega

theorem mem_pathsFrom (cs : List (Option TrieNode)) :
    ∀ i w, w ∈ pathsFrom cs i ↔
      ∃ x ∈ presentFrom i cs, w = [x.1] ∨ ∃ r ∈ x.2.nonRootPaths, w = x.1 :: r := by
  induction cs with
  | nil => intro i w; simp [pathsFrom, presentFrom]
  | cons y rest ih =>
    intro i w
    cases y with
    | none => simp only [pathsFrom, presentFrom, ih]
    | some n =>
      simp only [pathsFrom, presentFrom, List.mem_append, List.mem_cons, List.mem_map, ih,
        exists_eq_or_imp]
      constructor
      · rintro ((h | ⟨r, hr, rfl⟩) | h)
        · exact Or.inl (Or.inl h)
        · exact Or.inl (Or.inr ⟨r, hr, rfl⟩)
        · exact Or.inr h
      · rintro ((h | ⟨r, hr, rfl⟩) | h)
        · exact Or.inl (Or.inl h)
        · exact Or.inl (Or.inr ⟨r, hr, rfl⟩)
        · exact Or.inr h

theorem mem_innerFrom (cs : List (Option TrieNode)) :
    ∀ i w, w ∈ innerFrom cs i ↔
      ∃ x ∈ presentFrom i cs, ∃ r ∈ x.2.innerPaths, w = x.1 :: r := by
  induction cs with
  | nil => intro i w; simp [innerFrom, presentFrom]
  | cons y rest ih =>
    intro i w
    cases y with
    | none => simp only [innerFrom, presentFrom, ih]
    | some n =>
      simp only [innerFrom, presentFrom, List.mem_append, List.mem_cons, List.mem_map, ih,
        exists_eq_or_imp]
      constructor
      · rintro (⟨r, hr, rfl⟩ | h)
        · exact Or.inl ⟨r, hr, rfl⟩
        · exact Or.inr h
      · rintro (⟨r, hr, rfl⟩ | h)
        · exact Or.inl ⟨r, hr, rfl⟩
        · exact Or.inr h

theorem mem_present_iff (n : TrieNode) (x : Nat × TrieNode) :
    x ∈ n.present ↔ n.child x.1 = some x.2 := n.mem_present x.1 x.2

/-- The paths listed below a node are the non-empty strings whose edges are
all present. -/
theorem mem_nonRootPaths (w : List Nat) :
    ∀ n : TrieNode, n.WF → (w ∈ n.nonRootPaths ↔ w ≠ [] ∧ n.hasPath w = true) := by
  induction w with
  | nil =>
    intro n _
    rw [nonRootPaths_eq, mem_pathsFrom]
    simp
  | cons c r ih =>
    intro n h
    rw [nonRootPaths_eq, mem_pathsFrom, ← present_eq_presentFrom n h]
    simp only [ne_eq, List.cons_ne_nil, not_false_eq_true, true_and, TrieNode.hasPath]
    constructor
    · rintro ⟨x, hx, hw⟩
      have hc := (n.mem_present_iff x).1 hx
      rcases hw with hw | ⟨r', hr', hw⟩
      · simp only [List.cons.injEq] at hw
        obtain ⟨rfl, rfl⟩ := hw
        rw [hc]
        rfl
      · simp only [List.cons.injEq] at hw
        obtain ⟨rfl, rfl⟩ := hw
        rw [hc]
        exact ((ih x.2 (h.of_child hc)).1 hr').2
    · intro hp
      cases hch : n.child c with
      | none => rw [hch] at hp; cases hp
      | some ch =>
        rw [hch] at hp
        simp only at hp
        refine ⟨(c, ch), (n.mem_present_iff (c, ch)).2 hch, ?_⟩
        by_cases hr : r = []
        · exact Or.inl (by rw [hr])
        · exact Or.inr ⟨r, (ih ch (h.of_child hch)).2 ⟨hr, hp⟩, rfl⟩

theorem hasPath_singleton_iff (n : TrieNode) :
    (∃ c, n.hasPath [c] = true) ↔ n.present ≠ [] := by
  constructor
  · rintro ⟨c, hc⟩
    simp only [TrieNode.hasPath] at hc
    cases hch : n.child c with
    | none => rw [hch] at hc; cases hc
    | some ch => exact n.present_ne_nil_of_child c ch hch
  · intro h
    cases hp : n.present with
    | nil => exact absurd hp h
    | cons x rest =>
      have hx : x ∈ n.present := by rw [hp]; exact List.mem_cons_self _ _
      have := (n.mem_present_iff x).1 hx
      exact ⟨x.1, by simp [TrieNode.hasPath, this]⟩

/-- The inner paths listed for a node are the strings that can be extended by
one more present edge. -/
theorem mem_innerPaths (w : List Nat) :
    ∀ n : TrieNode, n.WF → (w ∈ n.innerPaths ↔ ∃ c, n.hasPath (w ++ [c]) = true) := by
  induction w with
  | nil =>
    intro n h
    rw [innerPaths_eq, List.mem_append, mem_innerFrom]
    simp only [List.nil_append, hasPath_singleton_iff, present_eq_presentFrom n h]
    constructor
    · rintro (h1 | ⟨x, _, r, _, hw⟩)
      · by_cases ha : n.children.any Option.isSome = true
        · exact (any_isSome_iff _ 0).1 ha
        · rw [if_neg ha] at h1
          cases h1
      · cases hw
    · intro hne
      left
      rw [if_pos ((any_isSome_iff _ 0).2 hne)]
      exact List.mem_singleton.2 rfl
  | cons d r ih =>
    intro n h
    rw [innerPaths_eq, List.mem_append, mem_innerFrom, ← present_eq_presentFrom n h]
    simp only [List.cons_append, TrieNode.hasPath]
    constructor
    · rintro (h1 | ⟨x, hx, r', hr', hw⟩)
      · split at h1
        · rw [List.mem_singleton] at h1
          cases h1
        · cases h1
      · simp only [List.cons.injEq] at hw
        obtain ⟨rfl, rfl⟩ := hw
        have hc := (n.mem_present_iff x).1 hx
        obtain ⟨c, hc'⟩ := (ih x.2 (h.of_child hc)).1 hr'
        exact ⟨c, by rw [hc]; exact hc'⟩
    · rintro ⟨c, hp⟩
      cases hch : n.child d with
      | none => rw [hch] at hp; cases hp
      | some ch =>
        rw [hch] at hp
        simp only at hp
        exact Or.inr ⟨(d, ch), (n.mem_present_iff (d, ch)).2 hch, r,
          (ih ch (h.of_child hch)).2 ⟨c, hp⟩, rfl⟩

theorem nodup_presentFrom_paths (cs : List (Option TrieNode))
    (h : ∀ ch, some ch ∈ cs → ch.nonRootPaths.Nodup) : ∀ i, (pathsFrom cs i).Nodup := by
  induction cs with
  | nil => intro i; simp [pathsFrom]
  | cons y rest ih =>
    intro i
    have hrest : ∀ ch, some ch ∈ rest → ch.nonRootPaths.Nodup :=
      fun ch hch => h ch (List.mem_cons_of_mem _ hch)
    cases y with
    | none => simpa only [pathsFrom] using ih hrest (i + 1)
    | some n =>
      simp only [pathsFrom]
      rw [List.nodup_append]
      refine ⟨?_, ih hrest (i + 1), ?_⟩
      · rw [List.nodup_cons]
        refine ⟨?_, (h n (List.mem_cons_self _ _)).map (fun a b hab => by simpa using hab)⟩
        intro hm
        rw [List.mem_map] at hm
        obtain ⟨a, ha, hai⟩ := hm
        simp only [List.cons.injEq, true_and] at hai
        subst hai
        rw [nonRootPaths_eq, mem_pathsFrom] at ha
        obtain ⟨x, _, hx | ⟨r, _, hx⟩⟩ := ha <;> cases hx
      · intro w hw1 hw2
        rw [mem_pathsFrom] at hw2
        obtain ⟨x, hx, hw⟩ := hw2
        have hle := mem_presentFrom_le rest (i + 1) x hx
        have hhead : w.head? = some i := by
          rcases List.mem_cons.1 hw1 with rfl | hm
          · rfl
          · rw [List.mem_map] at hm
            obtain ⟨a, _, rfl⟩ := hm
            rfl
        rcases hw with rfl | ⟨r, _, rfl⟩
        · simp only [List.head?_cons, Option.some.injEq] at hhead
          omega
        · simp only [List.head?_cons, Option.some.injEq] at hhead
          omega

theorem nodup_nonRootPaths : ∀ n : TrieNode, n.nonRootPaths.Nodup := by
  apply TrieNode.induction_on
  intro cs e ih
  simp only [nonRootPaths]
  exact nodup_presentFrom_paths cs ih 0

theorem nodup_innerFrom (cs : List (Option TrieNode))
    (h : ∀ ch, some ch ∈ cs → ch.innerPaths.Nodup) : ∀ i, (innerFrom cs i).Nodup := by
  induction cs with
  | nil => intro i; simp [innerFrom]
  | cons y rest ih =>
    intro i
    have hrest : ∀ ch, some ch ∈ rest → ch.innerPaths.Nodup :=
      fun ch hch => h ch (List.mem_cons_of_mem _ hch)
    cases y with
    | none => simpa only [innerFrom] using ih hrest (i + 1)
    | some n =>
      simp only [innerFrom]
      rw [List.nodup_append]
      refine ⟨(h n (List.mem_cons_self _ _)).map (fun a b hab => by simpa using hab),
        ih hrest (i + 1), ?_⟩
      intro w hw1 hw2
      rw [mem_innerFrom] at hw2
      obtain ⟨x, hx, r, _, rfl⟩ := hw2
      have hle := mem_presentFrom_le rest (i + 1) x hx
      rw [List.mem_map] at hw1
      obtain ⟨a, _, ha⟩ := hw1
      simp only [List.cons.injEq] at ha
      omega

theorem nodup_innerPaths : ∀ n : TrieNode, n.innerPaths.Nodup := by
  apply TrieNode.induction_on
  intro cs e ih
  simp only [innerPaths]
  rw [List.nodup_append]
  refine ⟨?_, nodup_innerFrom cs ih 0, ?_⟩
  · split
    · exact List.nodup_singleton _
    · exact List.nodup_nil
  · intro w hw1 hw2
    rw [mem_innerFrom] at hw2
    obtain ⟨x, _, r, _, rfl⟩ := hw2
    split at hw1
    · rw [List.mem_singleton] at hw1
      cases hw1
    · cases hw1

end TrieNode

theorem mem_nonEmptyPrefixes (keys : List (List Nat)) (w : List Nat) :
    w ∈ nonEmptyPrefixes keys ↔ w ≠ [] ∧ ∃ key ∈ keys, w <+: key := by
  unfold nonEmptyPrefixes
  rw [List.mem_filter, List.mem_flatMap]
  simp only [List.mem_inits, decide_eq_true_eq]
  tauto

theorem mem_properPrefixes (keys : List (List Nat)) (w : List Nat) :
    w ∈ properPrefixes keys ↔ ∃ key ∈ keys, w <+: key ∧ w ≠ key := by
  unfold properPrefixes
  rw [List.mem_flatMap]
  simp only [List.mem_filter, List.mem_inits, decide_eq_true_eq]

theorem properPrefix_iff_extends (keys : List (List Nat)) (w : List Nat) :
    (∃ c, ∃ key ∈ keys, w ++ [c] <+: key) ↔ ∃ key ∈ keys, w <+: key ∧ w ≠ key := by
  constructor
  · rintro ⟨c, key, hkey, t, rfl⟩
    refine ⟨_, hkey, ⟨[c] ++ t, by simp⟩, ?_⟩
    intro h
    have := congrArg List.length h
    simp at this
  · rintro ⟨key, hkey, ⟨t, rfl⟩, hne⟩
    cases t with
    | nil => simp at hne
    | cons c t' => exact ⟨c, _, hkey, ⟨t', by simp⟩⟩

theorem TrieNode.sizeList_eq_presentFrom (cs : List (Option TrieNode)) :
    ∀ i, TrieNode.sizeList cs = ((TrieNode.presentFrom i cs).map (fun x => x.2.size)).sum := by
  induction cs with
  | nil => intro i; simp [TrieNode.sizeList, TrieNode.presentFrom]
  | cons y rest ih =>
    intro i
    cases y with
    | none => simp [TrieNode.sizeList, TrieNode.presentFrom, ih (i + 1)]
    | some n => simp [TrieNode.sizeList, TrieNode.presentFrom, ih (i + 1)]

theorem TrieNode.mem_presentFrom_mem (cs : List (Option TrieNode)) :
    ∀ i x, x ∈ TrieNode.presentFrom i cs → some x.2 ∈ cs := by
  induction cs with
  | nil => intro i x hx; simp [TrieNode.presentFrom] at hx
  | cons y rest ih =>
    intro i x hx
    cases y with
    | none =>
      simp only [TrieNode.presentFrom] at hx
      exact List.mem_cons_of_mem _ (ih (i + 1) x hx)
    | some n =>
      simp only [TrieNode.presentFrom, List.mem_cons] at hx
      rcases hx with rfl | hx
      · exact List.mem_cons_self _ _
      · exact List.mem_cons_of_mem _ (ih (i + 1) x hx)

/-- The tree has one node more than it has non-empty paths: the root. -/
theorem TrieNode.size_eq_paths : ∀ n : TrieNode, n.size = 1 + n.nonRootPaths.length := by
  apply TrieNode.induction_on
  intro cs e ih
  rw [TrieNode.size_eq, TrieNode.nonRootPaths_eq, TrieNode.length_pathsFrom,
    TrieNode.sizeList_eq_presentFrom _ 0]
  simp only [TrieNode.children]
  congr 2
  apply List.map_congr_left
  intro x hx
  exact ih x.2 (TrieNode.mem_presentFrom_mem cs 0 x hx)

/-- The flat sequence has one entry per non-empty prefix of a key and one
sentinel per proper prefix of a key. -/
theorem SerializedTrie.length_flatten_build (keys : List (List Nat)) (root : TrieNode)
    (hwf : root.WF)
    (hpath : ∀ k, root.hasPath k = true ↔ k = [] ∨ ∃ key ∈ keys, k <+: key) :
    root.nonRootPaths.length = (nonEmptyPrefixes keys).dedup.length ∧
      root.innerPaths.length = (properPrefixes keys).dedup.length := by
  constructor
  · apply List.Perm.length_eq
    rw [List.perm_ext_iff_of_nodup root.nodup_nonRootPaths (List.nodup_dedup _)]
    intro w
    rw [TrieNode.mem_nonRootPaths w root hwf, List.mem_dedup, mem_nonEmptyPrefixes, hpath]
    constructor
    · rintro ⟨hne, h | h⟩
      · exact absurd h hne
      · exact ⟨hne, h⟩
    · rintro ⟨hne, h⟩
      exact ⟨hne, Or.inr h⟩
  · apply List.Perm.length_eq
    rw [List.perm_ext_iff_of_nodup root.nodup_innerPaths (List.nodup_dedup _)]
    intro w
    rw [TrieNode.mem_innerPaths w root hwf, List.mem_dedup, mem_properPrefixes,
      ← properPrefix_iff_extends]
    constructor
    · rintro ⟨c, hc⟩
      rcases (hpath _).1 hc with h | h
      · simp at h
      · exact ⟨c, h⟩
    · rintro ⟨c, h⟩
      exact ⟨c, (hpath _).2 (Or.inr h)⟩

/-! ## A key set of many runs -/

/-- Keys made of one code unit each, `33 + i` for the key number `i`, are
inside the child table when there are at most 95 of them. -/
theorem keysInRange_runs (m n : Nat) (hm : m ≤ 95) :
    KeysInRange ((List.range m).map (fun i => List.replicate n (33 + i))) := by
  intro key hkey c hc
  rw [List.mem_map] at hkey
  obtain ⟨i, hi, rfl⟩ := hkey
  rw [List.mem_range] at hi
  rw [List.eq_of_mem_replicate hc]
  unfold alphabet_size
  omega

theorem mem_nonEmptyPrefixes_runs (m n : Nat) (w : List Nat) :
    w ∈ nonEmptyPrefixes ((List.range m).map (fun i => List.replicate n (33 + i)))
      ↔ w ∈ (List.product (List.range m) (List.range n)).map
          (fun x => List.replicate (x.2 + 1) (33 + x.1)) := by
  rw [mem_nonEmptyPrefixes, List.mem_map]
  constructor
  · rintro ⟨hne, key, hkey, hpre⟩
    rw [List.mem_map] at hkey
    obtain ⟨i, hi, rfl⟩ := hkey
    rw [List.isPrefix_replicate_iff] at hpre
    have hlen : w.length ≠ 0 := fun h => hne (List.length_eq_zero.1 h)
    refine ⟨(i, w.length - 1), ?_, ?_⟩
    · rw [List.pair_mem_product, List.mem_range]
      exact ⟨List.mem_range.1 hi, by rw [List.mem_range]; omega⟩
    · show List.replicate (w.length - 1 + 1) (33 + i) = w
      rw [Nat.sub_add_cancel (by omega)]
      exact hpre.2.symm
  · rintro ⟨⟨i, j⟩, hij, rfl⟩
    rw [List.pair_mem_product, List.mem_range, List.mem_range] at hij
    refine ⟨by simp [List.replicate_succ], List.replicate n (33 + i),
      List.mem_map.2 ⟨i, List.mem_range.2 hij.1, rfl⟩, ?_⟩
    rw [List.isPrefix_replicate_iff]
    simp only [List.length_replicate, and_true]
    exact hij.2

theorem mem_properPrefixes_runs (m n : Nat) (hm : 0 < m) (hn : 0 < n) (w : List Nat) :
    w ∈ properPrefixes ((List.range m).map (fun i => List.replicate n (33 + i)))
      ↔ w ∈ [] :: (List.product (List.range m) (List.range (n - 1))).map
          (fun x => List.replicate (x.2 + 1) (33 + x.1)) := by
  rw [mem_properPrefixes, List.mem_cons, List.mem_map]
  constructor
  · rintro ⟨key, hkey, hpre, hne⟩
    rw [List.mem_map] at hkey
    obtain ⟨i, hi, rfl⟩ := hkey
    rw [List.isPrefix_replicate_iff] at hpre
    by_cases hw : w = []
    · exact Or.inl hw
    · right
      have hlen : w.length ≠ 0 := fun h => hw (List.length_eq_zero.1 h)
      have hlt : w.length ≠ n := by
        intro h
        apply hne
        rw [← h]
        exact hpre.2
      refine ⟨(i, w.length - 1), ?_, ?_⟩
      · rw [List.pair_mem_product, List.mem_range]
        exact ⟨List.mem_range.1 hi, by rw [List.mem_range]; omega⟩
      · show List.replicate (w.length - 1 + 1) (33 + i) = w
        rw [Nat.sub_add_cancel (by omega)]
        exact hpre.2.symm
  · rintro (rfl | ⟨⟨i, j⟩, hij, rfl⟩)
    · refine ⟨List.replicate n 33, List.mem_map.2 ⟨0, List.mem_range.2 hm, rfl⟩,
        List.nil_prefix, ?_⟩
      intro h
      have := congrArg List.length h
      simp at this
      omega
    · rw [List.pair_mem_product, List.mem_range, List.mem_range] at hij
      refine ⟨List.replicate n (33 + i), List.mem_map.2 ⟨i, List.mem_range.2 hij.1, rfl⟩, ?_, ?_⟩
      · rw [List.isPrefix_replicate_iff]
        simp only [List.length_replicate, and_true]
        omega
      · intro h
        have := congrArg List.length h
        simp at this
        omega

/-- The runs `replicate (j + 1) (33 + i)` are pairwise distinct. -/
theorem nodup_runs (m n : Nat) :
    ((List.product (List.range m) (List.range n)).map
      (fun x => List.replicate (x.2 + 1) (33 + x.1))).Nodup := by
  apply List.Nodup.map_on
  · rintro ⟨i, j⟩ _ ⟨i', j'⟩ _ h
    simp only [List.replicate_inj] at h
    obtain ⟨h1, h2⟩ := h
    have hj : j = j' := by omega
    have hi : i = i' := by
      rcases h2 with h2 | h2
      · omega
      · omega
    rw [hi, hj]
  · exact List.Nodup.product (List.nodup_range m) (List.nodup_range n)

/-- The number of entries of the flat sequence built from `m` keys, the key
number `i` being the code unit `33 + i` repeated `n` times: one entry per
non-empty prefix, `m * n`, and one sentinel per proper prefix,
`1 + m * (n - 1)`. -/
theorem SerializedTrie.length_build_runs (m n : Nat) (hm : 0 < m) (hm' : m ≤ 95) (hn : 0 < n) :
    ∃ nodes, SerializedTrie.build ((List.range m).map (fun i => List.replicate n (33 + i)))
        = some nodes ∧
      nodes.length = m * n + (1 + m * (n - 1)) := by
  have hr := keysInRange_runs m n hm'
  obtain ⟨root, hroot, hwf, _, hpath⟩ := FastTrie.build_spec _ hr
  refine ⟨SerializedTrie.flatten root, by rw [SerializedTrie.build, hroot]; rfl, ?_⟩
  obtain ⟨h1, h2⟩ := SerializedTrie.length_flatten_build _ root hwf hpath
  rw [SerializedTrie.length_flatten root hwf, TrieNode.flatCount, h1, h2]
  have e1 : (nonEmptyPrefixes
      ((List.range m).map (fun i => List.replicate n (33 + i)))).dedup.length = m * n := by
    rw [List.Perm.length_eq ((List.perm_ext_iff_of_nodup (List.nodup_dedup _)
      (nodup_runs m n)).2 (fun w => by rw [List.mem_dedup, mem_nonEmptyPrefixes_runs]))]
    have hp : (List.product (List.range m) (List.range n)).length
        = (List.range m).length * (List.range n).length := List.length_product _ _
    rw [List.length_map, hp, List.length_range, List.length_range]
  have e2 : (properPrefixes
      ((List.range m).map (fun i => List.replicate n (33 + i)))).dedup.length
        = 1 + m * (n - 1) := by
    have hnd : ([] :: (List.product (List.range m) (List.range (n - 1))).map
        (fun x => List.replicate (x.2 + 1) (33 + x.1))).Nodup := by
      rw [List.nodup_cons]
      refine ⟨?_, nodup_runs m (n - 1)⟩
      intro h
      rw [List.mem_map] at h
      obtain ⟨x, _, hx⟩ := h
      simp [List.replicate_succ] at hx
    rw [List.Perm.length_eq ((List.perm_ext_iff_of_nodup (List.nodup_dedup _) hnd).2
      (fun w => by rw [List.mem_dedup, mem_properPrefixes_runs m n hm hn]))]
    have hp : (List.product (List.range m) (List.range (n - 1))).length
        = (List.range m).length * (List.range (n - 1)).length := List.length_product _ _
    rw [List.length_cons, List.length_map, hp, List.length_range, List.length_range]
    omega
  rw [e1, e2]

/-- A node below which the paths are the prefixes of a run of `r + 1` equal
code units has one child, under that code unit, below which the paths are the
prefixes of the run of `r`. -/
theorem TrieNode.present_of_run (node : TrieNode) (c r : Nat)
    (h : ∀ k, node.hasPath k = true ↔ k <+: List.replicate (r + 1) c) :
    ∃ ch, node.present = [(c, ch)] ∧ ∀ k, ch.hasPath k = true ↔ k <+: List.replicate r c := by
  have hc : node.hasPath [c] = true := by
    rw [h, List.replicate_succ, List.cons_prefix_cons]
    exact ⟨rfl, List.nil_prefix⟩
  obtain ⟨ch, hch⟩ : ∃ ch, node.child c = some ch := by
    cases hcc : node.child c with
    | none => simp [TrieNode.hasPath, hcc] at hc
    | some ch => exact ⟨ch, rfl⟩
  have hall : ∀ x ∈ node.present, x = (c, ch) := by
    rintro ⟨c', ch'⟩ hx
    rw [TrieNode.mem_present] at hx
    have h1 : node.hasPath [c'] = true := by simp [TrieNode.hasPath, hx]
    rw [h, List.replicate_succ, List.cons_prefix_cons] at h1
    rw [h1.1, hch] at hx
    cases hx
    rw [h1.1]
  have hmem : (c, ch) ∈ node.present := (TrieNode.mem_present node c ch).2 hch
  refine ⟨ch, ?_, ?_⟩
  · have hpw := node.pairwise_present
    cases hp : node.present with
    | nil => rw [hp] at hmem; cases hmem
    | cons x rest =>
      rw [hp] at hall hpw
      cases rest with
      | nil => rw [hall x (List.mem_cons_self _ _)]
      | cons y rest =>
        exfalso
        have hx := hall x (List.mem_cons_self _ _)
        have hy := hall y (List.mem_cons_of_mem _ (List.mem_cons_self _ _))
        have hlt := (List.pairwise_cons.1 hpw).1 y (List.mem_cons_self _ _)
        rw [hx, hy] at hlt
        exact Nat.lt_irrefl _ hlt
  · intro k
    have h1 : node.hasPath (c :: k) = ch.hasPath k := by simp [TrieNode.hasPath, hch]
    rw [← h1, h, List.replicate_succ, List.cons_prefix_cons]
    exact ⟨fun h2 => h2.2, fun h2 => ⟨rfl, h2⟩⟩

/-- The tree of 65 keys, the key number `i` being the code unit `33 + i`
repeated `n` times: the root has 65 children, and below each a chain in which
every node down to depth 252 has one child.  The chain nodes are numbered in
the order in which the flattener visits them. -/
theorem TrieNode.runs_tree (root : TrieNode) (n : Nat) (hn : 253 ≤ n)
    (hpath : ∀ k, root.hasPath k = true ↔
      k = [] ∨ ∃ key ∈ (List.range 65).map (fun i => List.replicate n (33 + i)), k <+: key) :
    ∃ N : Nat → TrieNode,
      root.present = (List.range' 0 65).map (fun i => (33 + i, N i)) ∧
      ∀ t, t < 16352 → (N t).present = [(33 + t % 65, N (t + 65))] := by
  have hroot1 : ∀ c, root.hasPath [c] = true ↔ ∃ i, i < 65 ∧ c = 33 + i := by
    intro c
    rw [hpath]
    constructor
    · rintro (h | ⟨key, hkey, hpre⟩)
      · cases h
      · rw [List.mem_map] at hkey
        obtain ⟨i, hi, rfl⟩ := hkey
        rw [List.mem_range] at hi
        obtain ⟨m, rfl⟩ : ∃ m, n = m + 1 := ⟨n - 1, by omega⟩
        rw [List.replicate_succ, List.cons_prefix_cons] at hpre
        exact ⟨i, hi, hpre.1⟩
    · rintro ⟨i, hi, rfl⟩
      right
      refine ⟨List.replicate n (33 + i), List.mem_map.2 ⟨i, List.mem_range.2 hi, rfl⟩, ?_⟩
      obtain ⟨m, rfl⟩ : ∃ m, n = m + 1 := ⟨n - 1, by omega⟩
      rw [List.replicate_succ, List.cons_prefix_cons]
      exact ⟨rfl, List.nil_prefix⟩
  have hchild : ∀ c ch, root.child c = some ch → root.hasPath [c] = true := by
    intro c ch h
    simp [TrieNode.hasPath, h]
  have hchild' : ∀ c, root.hasPath [c] = true → ∃ ch, root.child c = some ch := by
    intro c h
    cases hcc : root.child c with
    | none => simp [TrieNode.hasPath, hcc] at h
    | some ch => exact ⟨ch, rfl⟩
  -- the children of the root
  have hpres : root.present
      = (List.range' 0 65).map (fun i => (33 + i, (root.child (33 + i)).getD TrieNode.fresh)) := by
    have hs2 : ((List.range' 0 65).map
        (fun i => (33 + i, (root.child (33 + i)).getD TrieNode.fresh))).Pairwise
        (fun a b => a.1 < b.1) := by
      rw [List.pairwise_map]
      refine (List.pairwise_lt_range' 0 65).imp ?_
      intro a b hab
      show 33 + a < 33 + b
      omega
    have hirr : ∀ l : List (Nat × TrieNode), l.Pairwise (fun a b => a.1 < b.1) → l.Nodup := by
      intro l hl
      refine hl.imp ?_
      intro a b hab heq
      rw [heq] at hab
      exact Nat.lt_irrefl _ hab
    have hperm : root.present.Perm ((List.range' 0 65).map
        (fun i => (33 + i, (root.child (33 + i)).getD TrieNode.fresh))) := by
      rw [List.perm_ext_iff_of_nodup (hirr _ root.pairwise_present) (hirr _ hs2)]
      rintro ⟨c, ch⟩
      rw [TrieNode.mem_present, List.mem_map]
      constructor
      · intro h
        obtain ⟨i, hi, rfl⟩ := (hroot1 c).1 (hchild c ch h)
        refine ⟨i, by rw [List.mem_range'_1]; omega, ?_⟩
        rw [h]
        rfl
      · rintro ⟨i, hi, heq⟩
        rw [List.mem_range'_1] at hi
        obtain ⟨ch', hch'⟩ := hchild' (33 + i) ((hroot1 _).2 ⟨i, by omega, rfl⟩)
        rw [hch'] at heq
        simp only [Option.getD_some, Prod.mk.injEq] at heq
        rw [← heq.1, ← heq.2]
        exact hch'
    have hanti : IsAntisymm (Nat × TrieNode) (fun a b => a.1 < b.1) :=
      ⟨fun a b h1 h2 => absurd h1 (Nat.lt_asymm h2)⟩
    exact List.eq_of_perm_of_sorted hperm root.pairwise_present hs2
  -- the chains
  have hf : ∀ i, i < 65 → ∀ k, ((root.child (33 + i)).getD TrieNode.fresh).hasPath k = true
      ↔ k <+: List.replicate (n - 1) (33 + i) := by
    intro i hi k
    obtain ⟨ch, hch⟩ := hchild' (33 + i) ((hroot1 _).2 ⟨i, hi, rfl⟩)
    rw [hch]
    have h1 : root.hasPath ((33 + i) :: k) = ch.hasPath k := by simp [TrieNode.hasPath, hch]
    show ch.hasPath k = true ↔ _
    rw [← h1, hpath]
    constructor
    · rintro (h | ⟨key, hkey, hpre⟩)
      · cases h
      · rw [List.mem_map] at hkey
        obtain ⟨j, hj, rfl⟩ := hkey
        obtain ⟨m, rfl⟩ : ∃ m, n = m + 1 := ⟨n - 1, by omega⟩
        rw [List.replicate_succ, List.cons_prefix_cons] at hpre
        have hij : i = j := by omega
        rw [hij]
        exact hpre.2
    · intro h
      right
      refine ⟨List.replicate n (33 + i), List.mem_map.2 ⟨i, List.mem_range.2 hi, rfl⟩, ?_⟩
      obtain ⟨m, rfl⟩ : ∃ m, n = m + 1 := ⟨n - 1, by omega⟩
      rw [List.replicate_succ, List.cons_prefix_cons]
      exact ⟨rfl, h⟩
  have hg : ∀ j, j ≤ 252 → ∀ i, i < 65 → ∀ k,
      ((fun node : TrieNode => match node.present with
          | x :: _ => x.2
          | [] => node)^[j] ((root.child (33 + i)).getD TrieNode.fresh)).hasPath k = true
        ↔ k <+: List.replicate (n - 1 - j) (33 + i) := by
    intro j
    induction j with
    | zero => intro _ i hi k; exact hf i hi k
    | succ j ih =>
      intro hj i hi k
      have hr : n - 1 - j = (n - 1 - (j + 1)) + 1 := by omega
      have ih' := ih (by omega) i hi
      rw [hr] at ih'
      obtain ⟨ch, hpr, hch⟩ := TrieNode.present_of_run _ (33 + i) _ ih'
      rw [Function.iterate_succ_apply']
      simp only [hpr]
      exact hch k
  refine ⟨fun t => (fun node : TrieNode => match node.present with
          | x :: _ => x.2
          | [] => node)^[t / 65] ((root.child (33 + t % 65)).getD TrieNode.fresh), ?_, ?_⟩
  · rw [hpres]
    apply List.map_congr_left
    intro i hi
    rw [List.mem_range'_1] at hi
    have h1 : i / 65 = 0 := Nat.div_eq_of_lt (by omega)
    have h2 : i % 65 = i := Nat.mod_eq_of_lt (by omega)
    simp only [h1, h2, Function.iterate_zero, id_eq]
  · intro t ht
    have h1 : (t + 65) / 65 = t / 65 + 1 := by omega
    have h2 : (t + 65) % 65 = t % 65 := by omega
    have hr : n - 1 - t / 65 = (n - 1 - (t / 65 + 1)) + 1 := by omega
    have h3 := hg (t / 65) (by omega) (t % 65) (by omega)
    rw [hr] at h3
    obtain ⟨ch, hpr, _⟩ := TrieNode.present_of_run _ (33 + t % 65) _ h3
    simp only [h1, h2]
    rw [Function.iterate_succ_apply']
    simp only [hpr]

/-- The flat sequence built from 65 keys, the key number `i` being the code
unit `33 + i` repeated `n` times, for `n` from 254 on: its length, and the
lookup of the key number 36, which returns false. -/
theorem SerializedTrie.search_build_runs (n : Nat) (hn : 254 ≤ n) :
    ∃ nodes, SerializedTrie.build ((List.range 65).map (fun i => List.replicate n (33 + i)))
        = some nodes ∧
      nodes.length = 65 * n + (1 + 65 * (n - 1)) ∧
      SerializedTrie.search nodes (List.replicate n 69) = some false := by
  obtain ⟨nodes, hnodes, hlen⟩ :=
    SerializedTrie.length_build_runs 65 n (by decide) (by decide) (by omega)
  refine ⟨nodes, hnodes, hlen, ?_⟩
  obtain ⟨hr, root, hroot, hfl⟩ := SerializedTrie.build_eq_some hnodes
  obtain ⟨root', hroot', _, _, hpath⟩ := FastTrie.build_spec _ hr
  rw [hroot] at hroot'
  cases hroot'
  obtain ⟨N, hN0, hN⟩ := TrieNode.runs_tree root n (by omega) hpath
  rw [hfl]
  exact SerializedTrie.search_flatten_runs root N hN0 hN n hn

/-! ## The properties of the two lookups -/

set_option maxRecDepth 100000

/-- C1, at the input where it fails: for the keys "a" and "c", the flat lookup
of "ca" returns true although "ca" is not a key.  After matching "c" the
lookup adds the unset offset `-1` of that entry and scans the run of the root
again. -/
theorem serialized_search_accepts_non_member :
    [99, 97] ∉ [[97], [99]] ∧
      (SerializedTrie.build [[97], [99]]).map (fun nodes => SerializedTrie.search nodes [99, 97])
        = some (some true) := by
  decide

/-- C2, at the input where it fails: for the keys "a" and "b", the tree lookup
of "bb" returns false and the flat lookup, on the sequence flattened from that
same tree, returns true. -/
theorem tree_and_flat_search_differ :
    (FastTrie.build [[97], [98]]).map
        (fun root => (FastTrie.search root [98, 98],
          SerializedTrie.search (SerializedTrie.flatten root) [98, 98]))
      = some (some false, some true) := by
  decide

/-- C3: for keys and a string over code units 0..127, the tree lookup returns
whether the string is one of the keys; it returns false when an edge of the
string is absent, and otherwise the flag of the node reached, which is set
exactly when the string is a key. -/
theorem fastTrie_search_correct (keys : List (List Nat)) (k : List Nat)
    (hkeys : KeysInRange keys) (hk : InRange k) :
    ∃ root, FastTrie.build keys = some root ∧
      FastTrie.search root k = some (decide (k ∈ keys)) ∧
      (FastTrie.search root k = some true ↔ k ∈ keys) ∧
      (root.descend k = none → FastTrie.search root k = some false) ∧
      (∀ n, root.descend k = some n →
        FastTrie.search root k = some n.is_end_of_word ∧ (n.is_end_of_word = true ↔ k ∈ keys)) := by
  obtain ⟨root, hroot, _, hmem, _⟩ := FastTrie.build_spec keys hkeys
  have hs := FastTrie.search_eq_member root k hk
  have hd := root.member_eq_descend k
  have hdec : root.member k = decide (k ∈ keys) := by
    by_cases hin : k ∈ keys
    · simp [hin, (hmem k).2 hin]
    · cases hm : root.member k with
      | false => simp [hin]
      | true => exact absurd ((hmem k).1 hm) hin
  refine ⟨root, hroot, ?_, ?_, ?_, ?_⟩
  · rw [hs, hdec]
  · rw [hs, ← hmem k]
    simp
  · intro hnone
    rw [hs, hd, hnone]
  · intro n hn
    rw [hn] at hd
    simp only at hd
    rw [hs, ← hd]
    exact ⟨rfl, hmem k⟩

theorem fastTrie_search_correct_witness :
    KeysInRange [[99, 97, 116], [99, 97, 114]] ∧ InRange [99, 97, 116] ∧
      ∃ root, FastTrie.build [[99, 97, 116], [99, 97, 114]] = some root ∧
        FastTrie.search root [99, 97, 116] = some (decide ([99, 97, 116] ∈ [[99, 97, 116], [99, 97, 114]])) ∧
        (FastTrie.search root [99, 97, 116] = some true ↔ [99, 97, 116] ∈ [[99, 97, 116], [99, 97, 114]]) ∧
        (root.descend [99, 97, 116] = none → FastTrie.search root [99, 97, 116] = some false) ∧
        (∀ n, root.descend [99, 97, 116] = some n →
          FastTrie.search root [99, 97, 116] = some n.is_end_of_word ∧
            (n.is_end_of_word = true ↔ [99, 97, 116] ∈ [[99, 97, 116], [99, 97, 114]])) :=
  ⟨by decide, by decide,
    fastTrie_search_correct [[99, 97, 116], [99, 97, 114]] [99, 97, 116] (by decide) (by decide)⟩

/-- C4, at the inputs where it fails: for the key "a", the flat lookup of "ab"
adds the unset offset `-1` to index `0` and reads the sequence at index `-1`;
for the keys "a" and "c", the lookup of "ca", longer than every key, returns
true. -/
theorem serialized_search_out_of_bounds :
    SerializedTrie.build [[97]]
        = some [⟨-1, 97, true⟩, ⟨-1, 10, false⟩] ∧
      SerializedTrie.readNode [⟨-1, 97, true⟩, ⟨-1, 10, false⟩] (0 + -1) = none ∧
      SerializedTrie.search [⟨-1, 97, true⟩, ⟨-1, 10, false⟩] [97, 98] = none ∧
      (SerializedTrie.build [[97], [99]]).map
          (fun nodes => (nodes.length, SerializedTrie.search nodes [99, 97]))
        = some (3, some true) := by
  decide

/-- C5: on a sequence below `2^15` entries built from keys without the
sentinel, the flat lookup of a non-empty proper prefix of a key that is not a
key returns false; and for the keys "cat" and "car" the lookups of "ca",
"cat", "car", "ca t" and "dog" return false, true, true, false and false. -/
theorem serialized_search_proper_prefix :
    (∀ (keys : List (List Nat)) (nodes : List SerialTrieNode) (k : List Nat),
      SerializedTrie.build keys = some nodes →
      (∀ key ∈ keys, terminating_character ∉ key) → nodes.length < 32768 →
      k ≠ [] → (∃ key ∈ keys, k <+: key ∧ k ≠ key) → k ∉ keys →
      SerializedTrie.search nodes k = some false) ∧
    (SerializedTrie.build [[99, 97, 116], [99, 97, 114]]).map
        (fun nodes => [SerializedTrie.search nodes [99, 97],
          SerializedTrie.search nodes [99, 97, 116],
          SerializedTrie.search nodes [99, 97, 114],
          SerializedTrie.search nodes [99, 97, 32, 116],
          SerializedTrie.search nodes [100, 111, 103]])
      = some [some false, some true, some true, some false, some false] := by
  refine ⟨?_, by decide⟩
  intro keys nodes k hbuild hns hcap hk hpre hnot
  obtain ⟨key, hkey, hpre', _⟩ := hpre
  rw [SerializedTrie.search_of_prefix keys nodes k hbuild hns hcap hk ⟨key, hkey, hpre'⟩]
  simp [hnot]

theorem serialized_search_proper_prefix_witness :
    SerializedTrie.search
        [⟨2, 99, false⟩, ⟨-1, 10, false⟩, ⟨2, 97, false⟩, ⟨-1, 10, false⟩,
          ⟨-1, 114, true⟩, ⟨-1, 116, true⟩, ⟨-1, 10, false⟩] [99, 97]
      = some false :=
  serialized_search_proper_prefix.1 [[99, 97, 116], [99, 97, 114]]
    [⟨2, 99, false⟩, ⟨-1, 10, false⟩, ⟨2, 97, false⟩, ⟨-1, 10, false⟩,
      ⟨-1, 114, true⟩, ⟨-1, 116, true⟩, ⟨-1, 10, false⟩] [99, 97]
    (by decide) (by decide) (by decide) (by decide)
    ⟨[99, 97, 116], by decide, by decide, by decide⟩ (by decide)

/-- C6, where it fails: the sequence built from no key is empty, and the flat
lookup of any string, the empty one included, reads it at index `0`, outside
its bounds. -/
theorem serialized_search_empty_key_set (k : List Nat) :
    SerializedTrie.build [] = some [] ∧ SerializedTrie.search [] k = none :=
  ⟨by decide, SerializedTrie.search_nil_nodes k⟩

/-- C7: two key lists with the same distinct keys give the same tree and the
same flat sequence, hence the same number of flat entries and the same answer
to every probe (both constructions fail alike when a key has a code unit
outside the table). -/
theorem build_depends_only_on_key_set (l₁ l₂ : List (List Nat))
    (h : ∀ k, k ∈ l₁ ↔ k ∈ l₂) :
    FastTrie.build l₁ = FastTrie.build l₂ ∧
      SerializedTrie.build l₁ = SerializedTrie.build l₂ ∧
      (SerializedTrie.build l₁).map List.length = (SerializedTrie.build l₂).map List.length ∧
      (∀ k, (FastTrie.build l₁).map (fun root => FastTrie.search root k)
        = (FastTrie.build l₂).map (fun root => FastTrie.search root k)) ∧
      (∀ k, (SerializedTrie.build l₁).map (fun nodes => SerializedTrie.search nodes k)
        = (SerializedTrie.build l₂).map (fun nodes => SerializedTrie.search nodes k)) := by
  have ht := FastTrie.build_of_same_keys l₁ l₂ h
  have hs : SerializedTrie.build l₁ = SerializedTrie.build l₂ := by
    unfold SerializedTrie.build
    rw [ht]
  exact ⟨ht, hs, by rw [hs], fun k => by rw [ht], fun k => by rw [hs]⟩

theorem build_depends_only_on_key_set_witness :
    FastTrie.build [[98], [97]] = FastTrie.build [[97], [98], [97]] ∧
      SerializedTrie.build [[98], [97]] = SerializedTrie.build [[97], [98], [97]] ∧
      (SerializedTrie.build [[98], [97]]).map List.length
        = (SerializedTrie.build [[97], [98], [97]]).map List.length ∧
      (∀ k, (FastTrie.build [[98], [97]]).map (fun root => FastTrie.search root k)
        = (FastTrie.build [[97], [98], [97]]).map (fun root => FastTrie.search root k)) ∧
      (∀ k, (SerializedTrie.build [[98], [97]]).map (fun nodes => SerializedTrie.search nodes k)
        = (SerializedTrie.build [[97], [98], [97]]).map
            (fun nodes => SerializedTrie.search nodes k)) :=
  build_depends_only_on_key_set [[98], [97]] [[97], [98], [97]] (by
    intro k
    simp only [List.mem_cons, List.mem_singleton, List.not_mem_nil, or_false]
    tauto)

/-- C8, as stated, fails: the key that is the line feed alone is accepted and
flattened into an entry that carries the sentinel code unit. -/
theorem build_accepts_sentinel_key :
    terminating_character ∈ [10] ∧
      SerializedTrie.build [[10]] = some [⟨-1, 10, true⟩, ⟨-1, 10, false⟩] := by
  decide

/-- C8, amended: build rejects nothing.  For every key list over code units
0..127, with or without the sentinel in a key, it returns a flat sequence, and
on that sequence the lookup never returns true for a string that contains the
sentinel. -/
theorem build_with_sentinel_key (keys : List (List Nat)) (hkeys : KeysInRange keys) :
    ∃ nodes, SerializedTrie.build keys = some nodes ∧
      ∀ k, terminating_character ∈ k → SerializedTrie.search nodes k ≠ some true := by
  obtain ⟨nodes, hnodes⟩ := SerializedTrie.build_of_inRange keys hkeys
  exact ⟨nodes, hnodes, fun k hk => SerializedTrie.searchLoop_sentinel nodes k true 0 hk⟩

theorem build_with_sentinel_key_witness :
    KeysInRange [[97, 10, 98]] ∧
      ∃ nodes, SerializedTrie.build [[97, 10, 98]] = some nodes ∧
        ∀ k, terminating_character ∈ k → SerializedTrie.search nodes k ≠ some true :=
  ⟨by decide, build_with_sentinel_key [[97, 10, 98]] (by decide)⟩

/-- C9, as stated, fails: 65 keys of 256 code units each, the key number `i`
being the code unit `33 + i` repeated, are flattened into 33216 entries, more
than `2^15 - 1`; build returns that sequence, and on it the lookup of the key
number 36, the code unit 69 repeated 256 times, returns false.  The entry of
that key at depth 253 is at index `2^15`; its offset was never recorded, and
the lookup steps back onto the sentinel at index `2^15 - 1`. -/
theorem build_accepts_oversized_key_set :
    List.replicate 256 69 ∈ (List.range 65).map (fun i => List.replicate 256 (33 + i)) ∧
      ∃ nodes,
        SerializedTrie.build ((List.range 65).map (fun i => List.replicate 256 (33 + i)))
          = some nodes ∧
        nodes.length = 33216 ∧ 32767 < nodes.length ∧
        SerializedTrie.search nodes (List.replicate 256 69) = some false := by
  obtain ⟨nodes, hnodes, hlen, hsearch⟩ := SerializedTrie.search_build_runs 256 (by decide)
  exact ⟨List.mem_map.2 ⟨36, List.mem_range.2 (by decide), rfl⟩,
    nodes, hnodes, hlen, by rw [hlen]; decide, hsearch⟩

/-- C9, amended: build has no capacity check.  For every key list over code
units 0..127 it returns the whole flat sequence, one entry per non-empty prefix
and one sentinel per proper prefix of a key, whatever that number is; in the
returned sequence no entry at an index of `2^15` or more has an offset
recorded, whether or not its node has children. -/
theorem build_without_capacity_check (keys : List (List Nat)) (hkeys : KeysInRange keys) :
    ∃ nodes, SerializedTrie.build keys = some nodes ∧
      nodes.length
        = (nonEmptyPrefixes keys).dedup.length + (properPrefixes keys).dedup.length ∧
      ∀ (p : Nat) (e : SerialTrieNode), 32768 ≤ p → nodes[p]? = some e →
        e.children_offset = -1 := by
  obtain ⟨root, hroot, hwf, _, hpath⟩ := FastTrie.build_spec keys hkeys
  have hbuild : SerializedTrie.build keys = some (SerializedTrie.flatten root) := by
    rw [SerializedTrie.build, hroot]
    rfl
  obtain ⟨h1, h2⟩ := SerializedTrie.length_flatten_build keys root hwf hpath
  refine ⟨SerializedTrie.flatten root, hbuild, ?_, ?_⟩
  · rw [SerializedTrie.length_flatten root hwf, TrieNode.flatCount, h1, h2]
  · exact fun p e hp he => SerializedTrie.build_high keys _ hbuild p e hp he

theorem build_without_capacity_check_witness :
    KeysInRange ((List.range 65).map (fun i => List.replicate 256 (33 + i))) ∧
      ∃ nodes,
        SerializedTrie.build ((List.range 65).map (fun i => List.replicate 256 (33 + i)))
          = some nodes ∧
        32767 < nodes.length ∧
        nodes.length
          = (nonEmptyPrefixes
              ((List.range 65).map (fun i => List.replicate 256 (33 + i)))).dedup.length
            + (properPrefixes
              ((List.range 65).map (fun i => List.replicate 256 (33 + i)))).dedup.length ∧
        ∀ (p : Nat) (e : SerialTrieNode), 32768 ≤ p → nodes[p]? = some e →
          e.children_offset = -1 := by
  have hr := keysInRange_runs 65 256 (by decide)
  obtain ⟨nodes, hnodes, hlen, hhigh⟩ := build_without_capacity_check _ hr
  obtain ⟨nodes', hnodes', hlen'⟩ :=
    SerializedTrie.length_build_runs 65 256 (by decide) (by decide) (by decide)
  rw [hnodes] at hnodes'
  cases hnodes'
  exact ⟨hr, nodes, hnodes, by rw [hlen']; decide, hlen, hhigh⟩

/-- C10, as stated, fails: with the empty string as the only key, the flag of
the root is set and the tree lookup of the empty string returns true. -/
theorem fastTrie_empty_key_sets_root_flag :
    [] ∈ [([] : List Nat)] ∧
      (FastTrie.build [[]]).map (fun root => (root.is_end_of_word, FastTrie.search root []))
        = some (true, some true) := by
  decide

/-- C10, amended: when the empty string is among the keys (all over code units
0..127), the tree builder sets the flag of the root, and the tree lookup of
the empty string returns true. -/
theorem fastTrie_empty_key (keys : List (List Nat)) (hkeys : KeysInRange keys)
    (hempty : [] ∈ keys) :
    ∃ root, FastTrie.build keys = some root ∧ root.is_end_of_word = true ∧
      FastTrie.search root [] = some true := by
  obtain ⟨root, hroot, _, hmem, _⟩ := FastTrie.build_spec keys hkeys
  have h : root.is_end_of_word = true := (hmem []).2 hempty
  exact ⟨root, hroot, h, by simp [FastTrie.search, h]⟩

theorem fastTrie_empty_key_witness :
    KeysInRange [[97], []] ∧ [] ∈ [[97], ([] : List Nat)] ∧
      ∃ root, FastTrie.build [[97], []] = some root ∧ root.is_end_of_word = true ∧
        FastTrie.search root [] = some true :=
  ⟨by decide, by decide, fastTrie_empty_key [[97], []] (by decide) (by decide)⟩

/-- C11, at the input where it fails: the code unit 200 is the `char` of value
`-56`, outside the table of `alphabet_size = 128` children; the constructor
run on the key made of that code unit, and the lookup of that key in any tree,
index the table out of range. -/
theorem fastTrie_index_out_of_table :
    charValue 200 = -56 ∧
      ¬ (0 ≤ charValue 200 ∧ charValue 200 < (alphabet_size : Int)) ∧
      FastTrie.build [[200]] = none ∧
      (∀ root, FastTrie.search root [200] = none) ∧
      (∀ root, FastTrie.insertKey root [200] = none) := by
  refine ⟨by decide, by decide, ?_, fun root => ?_, fun root => ?_⟩
  · rw [FastTrie.build_eq, if_neg (by decide)]
  · simp [FastTrie.search, alphabet_size]
  · simp [FastTrie.insertKey, alphabet_size]

/-- C17: the layout of a flat sequence below `2^15` entries built from keys
without the sentinel.  The run of the children of the root starts at index
`0`.  An entry that encodes a node without children keeps the offset `-1`; the
offset `d` of an entry at index `p` that encodes a node with children is
positive, and the entries from `p + d` on are the children of that node, one
entry each, in strictly ascending order of code unit, none of them the
sentinel, each with the flag of its child, followed by one sentinel entry
inside the sequence. -/
theorem flat_layout (keys : List (List Nat)) (nodes : List SerialTrieNode)
    (hbuild : SerializedTrie.build keys = some nodes)
    (hns : ∀ key ∈ keys, terminating_character ∉ key) (hcap : nodes.length < 32768) :
    ∃ root, FastTrie.build keys = some root ∧
      (root.present = [] → nodes = []) ∧
      (root.present ≠ [] → SerializedTrie.RunAt nodes 0 root) ∧
      (∀ x ∈ root.present, x.1 ≠ terminating_character) ∧
      (∀ p n, SerializedTrie.Encodes nodes root p n →
        ∃ e, nodes[p]? = some e ∧ e.is_leaf = n.is_end_of_word ∧
          (n.present = [] → e.children_offset = -1) ∧
          (n.present ≠ [] → 0 < e.children_offset ∧
            SerializedTrie.RunAt nodes (p + e.children_offset.toNat) n) ∧
          (∀ x ∈ n.present, x.1 ≠ terminating_character)) ∧
      (∀ n : TrieNode, n.present.Pairwise (fun a b => a.1 < b.1) ∧
        ∀ c ch, (c, ch) ∈ n.present ↔ n.child c = some ch) := by
  obtain ⟨root, hroot, _, _, _, hpath, hleaf, hlaid⟩ :=
    SerializedTrie.build_laid keys nodes hbuild hcap
  have hnosent : ∀ (w : List Nat) (n : TrieNode), root.descend w = some n →
      ∀ x ∈ n.present, x.1 ≠ terminating_character := by
    intro w n hw x hx hxt
    have hc : n.child x.1 = some x.2 := (n.mem_present x.1 x.2).1 hx
    have hd : root.descend (w ++ [x.1]) = some x.2 := by
      rw [TrieNode.descend_append, hw, Option.some_bind, hc]
    rcases (hpath _).1 (root.hasPath_of_descend _ _ hd) with h | ⟨key, hkey, hpre⟩
    · simp at h
    · exact hns key hkey (hpre.subset (by simp [hxt]))
  refine ⟨root, hroot, hleaf, fun h => (hlaid h).runAt, hnosent [] root rfl, ?_,
    fun n => ⟨n.pairwise_present, n.mem_present⟩⟩
  intro p n henc
  have hne : root.present ≠ [] := by
    intro h0
    cases henc with
    | ofRoot j c ch hj => rw [h0] at hj; simp at hj
    | ofChild p n e j c ch hp he hj =>
      have hnodes := hleaf h0
      rw [hnodes] at he
      simp at he
  obtain ⟨e, he, hl, h1, h2⟩ := henc.spec (hlaid hne)
  obtain ⟨w, _, hw⟩ := henc.path
  exact ⟨e, he, hl, h1, fun h => ⟨(h2 h).1, (h2 h).2.runAt⟩, hnosent w n hw⟩

theorem flat_layout_witness :
    ∃ root, FastTrie.build [[99, 97, 116], [99, 97, 114]] = some root ∧
      (root.present = [] →
        [(⟨2, 99, false⟩ : SerialTrieNode), ⟨-1, 10, false⟩, ⟨2, 97, false⟩, ⟨-1, 10, false⟩,
          ⟨-1, 114, true⟩, ⟨-1, 116, true⟩, ⟨-1, 10, false⟩] = []) ∧
      (root.present ≠ [] → SerializedTrie.RunAt
        [⟨2, 99, false⟩, ⟨-1, 10, false⟩, ⟨2, 97, false⟩, ⟨-1, 10, false⟩,
          ⟨-1, 114, true⟩, ⟨-1, 116, true⟩, ⟨-1, 10, false⟩] 0 root) ∧
      (∀ x ∈ root.present, x.1 ≠ terminating_character) ∧
      (∀ p n, SerializedTrie.Encodes
          [⟨2, 99, false⟩, ⟨-1, 10, false⟩, ⟨2, 97, false⟩, ⟨-1, 10, false⟩,
            ⟨-1, 114, true⟩, ⟨-1, 116, true⟩, ⟨-1, 10, false⟩] root p n →
        ∃ e, [(⟨2, 99, false⟩ : SerialTrieNode), ⟨-1, 10, false⟩, ⟨2, 97, false⟩,
            ⟨-1, 10, false⟩, ⟨-1, 114, true⟩, ⟨-1, 116, true⟩, ⟨-1, 10, false⟩][p]? = some e ∧
          e.is_leaf = n.is_end_of_word ∧
          (n.present = [] → e.children_offset = -1) ∧
          (n.present ≠ [] → 0 < e.children_offset ∧ SerializedTrie.RunAt
            [⟨2, 99, false⟩, ⟨-1, 10, false⟩, ⟨2, 97, false⟩, ⟨-1, 10, false⟩,
              ⟨-1, 114, true⟩, ⟨-1, 116, true⟩, ⟨-1, 10, false⟩]
            (p + e.children_offset.toNat) n) ∧
          (∀ x ∈ n.present, x.1 ≠ terminating_character)) ∧
      (∀ n : TrieNode, n.present.Pairwise (fun a b => a.1 < b.1) ∧
        ∀ c ch, (c, ch) ∈ n.present ↔ n.child c = some ch) :=
  flat_layout [[99, 97, 116], [99, 97, 114]]
    [⟨2, 99, false⟩, ⟨-1, 10, false⟩, ⟨2, 97, false⟩, ⟨-1, 10, false⟩,
      ⟨-1, 114, true⟩, ⟨-1, 116, true⟩, ⟨-1, 10, false⟩]
    (by decide) (by decide) (by decide)

/-- C19: on a flat sequence below `2^15` entries built from keys over code
units 0..127 without the sentinel, the lookup of every non-empty key returns
true; every offset it adds on the way is positive, and every index at which
it reads the sequence is inside its bounds. -/
theorem stored_key_found (keys : List (List Nat)) (nodes : List SerialTrieNode) (k : List Nat)
    (hbuild : SerializedTrie.build keys = some nodes)
    (hns : ∀ key ∈ keys, terminating_character ∉ key) (hcap : nodes.length < 32768)
    (hk : k ∈ keys) (hne : k ≠ []) :
    SerializedTrie.search nodes k = some true ∧
      (∀ d ∈ SerializedTrie.searchJumps nodes k true 0, 0 < d) ∧
      (∀ i ∈ SerializedTrie.searchReads nodes k true 0, 0 ≤ i ∧ i < (nodes.length : Int)) := by
  refine ⟨?_, ?_⟩
  · rw [SerializedTrie.search_of_prefix keys nodes k hbuild hns hcap hne
      ⟨k, hk, List.prefix_refl _⟩]
    simp [hk]
  · obtain ⟨root, _, _, _, _, hpath, _, hlaid⟩ :=
      SerializedTrie.build_laid keys nodes hbuild hcap
    have hkpath : root.hasPath k = true := (hpath k).2 (Or.inr ⟨k, hk, List.prefix_refl _⟩)
    have hnosent : ∀ w, root.hasPath w = true → terminating_character ∉ w := by
      intro w hw hm
      rcases (hpath w).1 hw with rfl | ⟨key, hkey, hpre⟩
      · cases hm
      · exact hns key hkey (hpre.subset hm)
    have hpres : root.present ≠ [] := by
      cases k with
      | nil => exact absurd rfl hne
      | cons c rest =>
        simp only [TrieNode.hasPath] at hkpath
        cases hch : root.child c with
        | none => rw [hch] at hkpath; cases hkpath
        | some g => exact root.present_ne_nil_of_child c g hch
    exact ⟨SerializedTrie.searchJumps_laid nodes k root 0 true 0 hne hkpath hnosent
        (hlaid hpres) (Or.inl ⟨rfl, rfl⟩),
      SerializedTrie.searchReads_laid nodes k root 0 true 0 hne hkpath hnosent
        (hlaid hpres) (Or.inl ⟨rfl, rfl⟩)⟩

theorem stored_key_found_witness :
    SerializedTrie.search
        [⟨2, 99, false⟩, ⟨-1, 10, false⟩, ⟨2, 97, false⟩, ⟨-1, 10, false⟩,
          ⟨-1, 114, true⟩, ⟨-1, 116, true⟩, ⟨-1, 10, false⟩] [99, 97, 116] = some true ∧
      (∀ d ∈ SerializedTrie.searchJumps
        [⟨2, 99, false⟩, ⟨-1, 10, false⟩, ⟨2, 97, false⟩, ⟨-1, 10, false⟩,
          ⟨-1, 114, true⟩, ⟨-1, 116, true⟩, ⟨-1, 10, false⟩] [99, 97, 116] true 0, 0 < d) ∧
      (∀ i ∈ SerializedTrie.searchReads
        [⟨2, 99, false⟩, ⟨-1, 10, false⟩, ⟨2, 97, false⟩, ⟨-1, 10, false⟩,
          ⟨-1, 114, true⟩, ⟨-1, 116, true⟩, ⟨-1, 10, false⟩] [99, 97, 116] true 0,
        0 ≤ i ∧ i < (([⟨2, 99, false⟩, ⟨-1, 10, false⟩, ⟨2, 97, false⟩, ⟨-1, 10, false⟩,
          ⟨-1, 114, true⟩, ⟨-1, 116, true⟩, ⟨-1, 10, false⟩] : List SerialTrieNode).length
            : Int)) :=
  stored_key_found [[99, 97, 116], [99, 97, 114]]
    [⟨2, 99, false⟩, ⟨-1, 10, false⟩, ⟨2, 97, false⟩, ⟨-1, 10, false⟩,
      ⟨-1, 114, true⟩, ⟨-1, 116, true⟩, ⟨-1, 10, false⟩] [99, 97, 116]
    (by decide) (by decide) (by decide) (by decide) (by decide)

/-- C18: for keys over code units 0..127 the flat sequence has one entry per
node of the tree other than the root and one sentinel per node with at least
one child: its length is the number of distinct non-empty prefixes of keys
plus the number of distinct proper prefixes of keys, the empty string
included; it is empty when no key is non-empty. -/
theorem flat_length (keys : List (List Nat)) (hkeys : KeysInRange keys) :
    ∃ root nodes, FastTrie.build keys = some root ∧ SerializedTrie.build keys = some nodes ∧
      nodes.length = (nonEmptyPrefixes keys).dedup.length + (properPrefixes keys).dedup.length ∧
      nodes.length = (root.size - 1) + root.innerPaths.length ∧
      root.innerPaths.Nodup ∧
      (∀ w, w ∈ root.innerPaths ↔ ∃ c, root.hasPath (w ++ [c]) = true) ∧
      ((∀ key ∈ keys, key = []) → nodes = []) := by
  obtain ⟨root, hroot, hwf, _, hpath⟩ := FastTrie.build_spec keys hkeys
  obtain ⟨h1, h2⟩ := SerializedTrie.length_flatten_build keys root hwf hpath
  have hlen := SerializedTrie.length_flatten root hwf
  unfold TrieNode.flatCount at hlen
  refine ⟨root, SerializedTrie.flatten root, hroot, by rw [SerializedTrie.build, hroot]; rfl,
    by rw [hlen, h1, h2], ?_, root.nodup_innerPaths,
    fun w => TrieNode.mem_innerPaths w root hwf, ?_⟩
  · rw [hlen, root.size_eq_paths]
    omega
  · intro hall
    have hA : nonEmptyPrefixes keys = [] := by
      apply List.eq_nil_iff_forall_not_mem.2
      intro w hw
      obtain ⟨hne, key, hkey, hpre⟩ := (mem_nonEmptyPrefixes keys w).1 hw
      rw [hall key hkey] at hpre
      exact hne (List.prefix_nil.1 hpre)
    have hB : properPrefixes keys = [] := by
      apply List.eq_nil_iff_forall_not_mem.2
      intro w hw
      obtain ⟨key, hkey, hpre, hne⟩ := (mem_properPrefixes keys w).1 hw
      rw [hall key hkey] at hpre hne
      exact hne (List.prefix_nil.1 hpre)
    rw [h1, h2, hA, hB] at hlen
    exact List.length_eq_zero.1 (by simpa using hlen)

theorem flat_length_witness :
    KeysInRange [[99, 97, 116], [99, 97, 114]] ∧
      (nonEmptyPrefixes [[99, 97, 116], [99, 97, 114]]).dedup.length = 4 ∧
      (properPrefixes [[99, 97, 116], [99, 97, 114]]).dedup.length = 3 ∧
      ∃ nodes, SerializedTrie.build [[99, 97, 116], [99, 97, 114]] = some nodes ∧
        nodes.length = 4 + 3 :=
  ⟨by decide, by decide, by decide,
    (flat_length [[99, 97, 116], [99, 97, 114]] (by decide)).elim
      (fun _ h => h.elim (fun nodes h => ⟨nodes, h.2.1, by
        rw [h.2.2.1]
        decide⟩))⟩

end trie

namespace EventBus

variable {σ : Type}

/-! ## The loop of `invokeCallbacks` -/

/-- The callbacks executed by the loop are the first entries of the queue, in
order, each once. -/
theorem runQueue_executed (arg : List Nat) (q : cbQueue σ) :
    ∀ (ids : Nat → Option (List Nat)) (w : σ),
      (runQueue arg q ids w).executed.length ≤ q.length ∧
      (runQueue arg q ids w).executed.map Prod.fst
        = (q.take (runQueue arg q ids w).executed.length).map Prod.snd ∧
      (runQueue arg q ids w).world
        = runAll arg (q.take (runQueue arg q ids w).executed.length) w := by
  induction q with
  | nil => intro ids w; simp [runQueue, runAll]
  | cons x rest ih =>
    intro ids w
    obtain ⟨cb, id⟩ := x
    unfold runQueue
    split
    · simp [runAll]
    · split
      · simp [runAll]
      · obtain ⟨h1, h2, h3⟩ := ih (fun i => if i = id then none else ids i) (cb arg w).2
        refine ⟨?_, ?_, ?_⟩
        · simpa using h1
        · simpa using h2
        · simpa [runAll] using h3

/-- Without a special action the loop runs the whole queue and empties it. -/
theorem runQueue_of_all_kNone (arg : List Nat) (q : cbQueue σ) :
    ∀ (ids : Nat → Option (List Nat)) (w : σ),
      (∀ x ∈ (runQueue arg q ids w).executed, x.2 = eActionOnReturn.kNone) →
      (runQueue arg q ids w).action = eActionOnReturn.kNone ∧
      (runQueue arg q ids w).queue = [] ∧
      (runQueue arg q ids w).executed.length = q.length := by
  induction q with
  | nil => intro ids w _; simp [runQueue]
  | cons x rest ih =>
    intro ids w h
    obtain ⟨cb, id⟩ := x
    unfold runQueue at h ⊢
    split
    · rename_i hc
      rw [if_pos hc] at h
      have := h (id, eActionOnReturn.kCancel) (by simp)
      cases this
    · rename_i hc
      rw [if_neg hc] at h
      split
      · rename_i hd
        rw [if_pos hd] at h
        have := h (id, eActionOnReturn.kDefer) (by simp)
        cases this
      · rename_i hd
        rw [if_neg hd] at h
        obtain ⟨h1, h2, h3⟩ := ih (fun i => if i = id then none else ids i) (cb arg w).2
          (fun x hx => h x (by simp [hx]))
        exact ⟨h1, h2, by simpa using h3⟩

/-- The loop stops on the first special action; `kCancel` clears the queue,
`kDefer` keeps the entries behind the callback that asked for it. -/
theorem runQueue_of_special (arg : List Nat) (q : cbQueue σ) :
    ∀ (ids : Nat → Option (List Nat)) (w : σ) (i id : Nat) (a : eActionOnReturn),
      (runQueue arg q ids w).executed[i]? = some (id, a) → a ≠ eActionOnReturn.kNone →
      (runQueue arg q ids w).executed.length = i + 1 ∧
      (runQueue arg q ids w).action = a ∧
      (runQueue arg q ids w).queue
        = (if a = eActionOnReturn.kCancel then [] else q.drop (i + 1)) ∧
      (∀ j x, j < i → (runQueue arg q ids w).executed[j]? = some x →
        x.2 = eActionOnReturn.kNone) := by
  induction q with
  | nil => intro ids w i id a h; simp [runQueue] at h
  | cons x rest ih =>
    intro ids w i id a h ha
    obtain ⟨cb, id'⟩ := x
    unfold runQueue at h ⊢
    split
    · rename_i hc
      rw [if_pos hc] at h
      cases i with
      | zero =>
        simp only [List.getElem?_cons_zero, Option.some.injEq, Prod.mk.injEq] at h
        obtain ⟨_, rfl⟩ := h
        simp
      | succ i => simp at h
    · rename_i hc
      rw [if_neg hc] at h
      split
      · rename_i hd
        rw [if_pos hd] at h
        cases i with
        | zero =>
          simp only [List.getElem?_cons_zero, Option.some.injEq, Prod.mk.injEq] at h
          obtain ⟨_, rfl⟩ := h
          simp
        | succ i => simp at h
      · rename_i hd
        rw [if_neg hd] at h
        have hnone : (cb arg w).1 = eActionOnReturn.kNone := by
          cases hv : (cb arg w).1 with
          | kNone => rfl
          | kCancel => exact absurd hv hc
          | kDefer => exact absurd hv hd
        cases i with
        | zero =>
          simp only [List.getElem?_cons_zero, Option.some.injEq, Prod.mk.injEq] at h
          exact absurd (h.2 ▸ hnone) ha
        | succ i =>
          simp only [List.getElem?_cons_succ] at h
          obtain ⟨h1, h2, h3, h4⟩ :=
            ih (fun i => if i = id' then none else ids i) (cb arg w).2 i id a h ha
          refine ⟨by simpa using h1, h2, by simpa using h3, ?_⟩
          intro j x hj hx
          cases j with
          | zero =>
            simp only [List.getElem?_cons_zero, Option.some.injEq] at hx
            rw [← hx]
            exact hnone
          | succ j =>
            simp only [List.getElem?_cons_succ] at hx
            exact h4 j x (by omega) hx

/-- On a queue that is not empty the loop executes at least the first
callback. -/
theorem runQueue_executed_ne_nil (arg : List Nat) (q : cbQueue σ)
    (ids : Nat → Option (List Nat)) (w : σ) (h : q ≠ []) :
    (runQueue arg q ids w).executed ≠ [] := by
  cases q with
  | nil => exact absurd rfl h
  | cons x rest =>
    obtain ⟨cb, id⟩ := x
    unfold runQueue
    split
    · simp
    · split
      · simp
      · simp

/-- The loop removes from the ID map the IDs of the callbacks it executes and
no other. -/
theorem runQueue_ids (arg : List Nat) (q : cbQueue σ) :
    ∀ (ids : Nat → Option (List Nat)) (w : σ) (i : Nat),
      (runQueue arg q ids w).ids i
        = if i ∈ (runQueue arg q ids w).executed.map Prod.fst then none else ids i := by
  induction q with
  | nil => intro ids w i; simp [runQueue]
  | cons x rest ih =>
    intro ids w i
    obtain ⟨cb, id⟩ := x
    unfold runQueue
    split
    · simp
    · split
      · simp
      · simp only [List.map_cons, List.mem_cons]
        rw [ih]
        by_cases hi : i = id
        · simp [hi]
        · simp only [hi, if_false, false_or]

/-! ## `invokeCallbacks`, `cancelCallback` and the event names -/

theorem preprocessEventName_bus (b : EventBus σ) (n m a : List Nat) (w : σ) :
    (b.invokeCallbacks n a w).bus.preprocessEventName m = b.preprocessEventName m := rfl

theorem queueOf_invokeCallbacks (b : EventBus σ) (n a : List Nat) (w : σ) :
    (b.invokeCallbacks n a w).bus.queueOf n
      = (runQueue a (b.queueOf n) b.id_callback_map w).queue := by
  simp [queueOf, invokeCallbacks, preprocessEventName]

theorem invokeCallbacks_of_empty (b : EventBus σ) (n a : List Nat) (w : σ)
    (h : b.queueOf n = []) :
    (b.invokeCallbacks n a w).action = eActionOnReturn.kNone ∧
      (b.invokeCallbacks n a w).executed = [] ∧ (b.invokeCallbacks n a w).world = w := by
  unfold queueOf at h
  simp [invokeCallbacks, h, runQueue]

theorem tolower_eq_iff (c d : Nat) : tolower c = tolower d ↔ sameCodeUnitUpToCase c d := by
  unfold tolower sameCodeUnitUpToCase
  split <;> split <;> omega

theorem sameUpToCase_iff (n₁ n₂ : List Nat) :
    SameUpToCase n₁ n₂ ↔ n₁.map tolower = n₂.map tolower := by
  unfold SameUpToCase
  induction n₁ generalizing n₂ with
  | nil =>
    cases n₂ with
    | nil => simp
    | cons d r => simp
  | cons c l ih =>
    cases n₂ with
    | nil => simp
    | cons d r =>
      rw [List.forall₂_cons, ih, ← tolower_eq_iff]
      simp

theorem cancelCallback_of_unmapped (b : EventBus σ) (id : Nat) (h : b.id_callback_map id = none) :
    b.cancelCallback id = some (false, b) := by
  simp [cancelCallback, h]

theorem cancelCallback_of_queued (b : EventBus σ) (id : Nat) (n : List Nat)
    (h : b.id_callback_map id = some n) (hq : ∃ x ∈ b.registered_callbacks_ n, x.2 = id) :
    ∃ b', b.cancelCallback id = some (true, b') ∧ b'.id_callback_map id = none ∧
      b'.registered_callbacks_ n
        = (b.registered_callbacks_ n).map
            (fun x => if x.2 = id then (noopCallback, x.2) else x) ∧
      (∀ m, m ≠ n → b'.registered_callbacks_ m = b.registered_callbacks_ m) ∧
      b'.cancelCallback id = some (false, b') := by
  have hany : (b.registered_callbacks_ n).any (fun x => decide (x.2 = id)) = true := by
    rw [List.any_eq_true]
    obtain ⟨x, hx, hxi⟩ := hq
    exact ⟨x, hx, by simpa using hxi⟩
  have hc : b.cancelCallback id = some (true,
      { b with
        registered_callbacks_ := fun m =>
          if m = n then
            (b.registered_callbacks_ m).map
              (fun x => if x.2 = id then (noopCallback, x.2) else x)
          else b.registered_callbacks_ m
        id_callback_map := fun i => if i = id then none else b.id_callback_map i }) := by
    simp only [cancelCallback, h, hany, if_true]
  refine ⟨_, hc, by simp, by simp, ?_, ?_⟩
  · intro m hm
    simp [hm]
  · apply cancelCallback_of_unmapped
    simp

theorem invokeCallbacks_executed (b : EventBus σ) (n a : List Nat) (w : σ) :
    (b.invokeCallbacks n a w).executed.map Prod.fst
        = ((b.queueOf n).take (b.invokeCallbacks n a w).executed.length).map Prod.snd ∧
      (b.invokeCallbacks n a w).world
        = runAll a ((b.queueOf n).take (b.invokeCallbacks n a w).executed.length) w :=
  (runQueue_executed a (b.queueOf n) b.id_callback_map w).2

/-- C12: `invokeCallbacks` executes entries of the queue of its event name
only, from the front, in order, each once and with the event argument; the
queues of the other names are left as they are.  When no executed callback
asks for a special action, the whole queue has been executed, the result is
`kNone`, the queue is empty, and an immediately repeated call executes nothing
and returns `kNone`. -/
theorem invokeCallbacks_runs_queue (b : EventBus σ) (event_name event_argument : List Nat)
    (w : σ) (r : InvokeResult σ) (hr : r = b.invokeCallbacks event_name event_argument w) :
    r.executed.map Prod.fst
        = ((b.queueOf event_name).take r.executed.length).map Prod.snd ∧
      r.world = runAll event_argument ((b.queueOf event_name).take r.executed.length) w ∧
      (∀ other, other ≠ b.preprocessEventName event_name →
        r.bus.registered_callbacks_ other = b.registered_callbacks_ other) ∧
      ((∀ x ∈ r.executed, x.2 = eActionOnReturn.kNone) →
        r.action = eActionOnReturn.kNone ∧
        r.executed.map Prod.fst = (b.queueOf event_name).map Prod.snd ∧
        r.world = runAll event_argument (b.queueOf event_name) w ∧
        r.bus.queueOf event_name = [] ∧
        (r.bus.invokeCallbacks event_name event_argument r.world).action
          = eActionOnReturn.kNone ∧
        (r.bus.invokeCallbacks event_name event_argument r.world).executed = [] ∧
        (r.bus.invokeCallbacks event_name event_argument r.world).world = r.world) := by
  subst hr
  obtain ⟨h1, h2, h3⟩ :=
    runQueue_executed event_argument (b.queueOf event_name) b.id_callback_map w
  refine ⟨h2, h3, ?_, ?_⟩
  · intro other hne
    simp [invokeCallbacks, hne]
  · intro hall
    obtain ⟨ha, hq, hl⟩ :=
      runQueue_of_all_kNone event_argument (b.queueOf event_name) b.id_callback_map w hall
    have hempty : (b.invokeCallbacks event_name event_argument w).bus.queueOf event_name = [] := by
      rw [queueOf_invokeCallbacks, hq]
    have htake : (b.queueOf event_name).take
        (b.invokeCallbacks event_name event_argument w).executed.length = b.queueOf event_name := by
      show (b.queueOf event_name).take
        (runQueue event_argument (b.queueOf event_name) b.id_callback_map w).executed.length = _
      rw [hl, List.take_length]
    refine ⟨ha, ?_, ?_, hempty, invokeCallbacks_of_empty _ _ _ _ hempty⟩
    · have := h2
      rw [show (runQueue event_argument (b.queueOf event_name) b.id_callback_map w).executed
        = (b.invokeCallbacks event_name event_argument w).executed from rfl, htake] at this
      exact this
    · have := h3
      rw [show (runQueue event_argument (b.queueOf event_name) b.id_callback_map w).executed
        = (b.invokeCallbacks event_name event_argument w).executed from rfl, htake] at this
      exact this

/-- C13: when the callback at position `i` of the run (counted from `0`) is
the first to return `kCancel`, `invokeCallbacks` has executed exactly the
entries `0..i` of the queue, returns `kCancel` and leaves the queue of the
event empty; the next call on that event executes nothing and returns
`kNone`. -/
theorem invokeCallbacks_kCancel (b : EventBus σ) (event_name event_argument : List Nat)
    (w : σ) (r : InvokeResult σ) (hr : r = b.invokeCallbacks event_name event_argument w)
    (i id : Nat) (hi : r.executed[i]? = some (id, eActionOnReturn.kCancel))
    (_hfirst : ∀ j x, j < i → r.executed[j]? = some x → x.2 ≠ eActionOnReturn.kCancel) :
    r.executed.length = i + 1 ∧
      r.executed.map Prod.fst = ((b.queueOf event_name).take (i + 1)).map Prod.snd ∧
      r.world = runAll event_argument ((b.queueOf event_name).take (i + 1)) w ∧
      r.action = eActionOnReturn.kCancel ∧
      r.bus.queueOf event_name = [] ∧
      (r.bus.invokeCallbacks event_name event_argument r.world).action
        = eActionOnReturn.kNone ∧
      (r.bus.invokeCallbacks event_name event_argument r.world).executed = [] ∧
      (r.bus.invokeCallbacks event_name event_argument r.world).world = r.world := by
  subst hr
  obtain ⟨_, h2, h3⟩ :=
    runQueue_executed event_argument (b.queueOf event_name) b.id_callback_map w
  obtain ⟨hl, ha, hq, _⟩ := runQueue_of_special event_argument (b.queueOf event_name)
    b.id_callback_map w i id eActionOnReturn.kCancel hi (by decide)
  rw [if_pos rfl] at hq
  rw [hl] at h2 h3
  have hempty : (b.invokeCallbacks event_name event_argument w).bus.queueOf event_name = [] := by
    rw [queueOf_invokeCallbacks, hq]
  exact ⟨hl, h2, h3, ha, hempty, invokeCallbacks_of_empty _ _ _ _ hempty⟩

/-- C14: when the callback at position `i` of the run (counted from `0`) is
the first to return `kDefer`, `invokeCallbacks` has executed exactly the
entries `0..i` of the queue, returns `kDefer` and leaves the entries behind
position `i` queued in their order; the next call on that event executes a
front part of them, which is not empty when they are not. -/
theorem invokeCallbacks_kDefer (b : EventBus σ) (event_name event_argument : List Nat)
    (w : σ) (r : InvokeResult σ) (hr : r = b.invokeCallbacks event_name event_argument w)
    (i id : Nat) (hi : r.executed[i]? = some (id, eActionOnReturn.kDefer))
    (_hfirst : ∀ j x, j < i → r.executed[j]? = some x → x.2 ≠ eActionOnReturn.kDefer) :
    r.executed.length = i + 1 ∧
      r.executed.map Prod.fst = ((b.queueOf event_name).take (i + 1)).map Prod.snd ∧
      r.world = runAll event_argument ((b.queueOf event_name).take (i + 1)) w ∧
      r.action = eActionOnReturn.kDefer ∧
      r.bus.queueOf event_name = (b.queueOf event_name).drop (i + 1) ∧
      (r.bus.invokeCallbacks event_name event_argument r.world).executed.map Prod.fst
        = (((b.queueOf event_name).drop (i + 1)).take
            (r.bus.invokeCallbacks event_name event_argument r.world).executed.length).map
              Prod.snd ∧
      (r.bus.invokeCallbacks event_name event_argument r.world).world
        = runAll event_argument
            (((b.queueOf event_name).drop (i + 1)).take
              (r.bus.invokeCallbacks event_name event_argument r.world).executed.length)
            r.world ∧
      ((b.queueOf event_name).drop (i + 1) ≠ [] →
        (r.bus.invokeCallbacks event_name event_argument r.world).executed ≠ []) := by
  subst hr
  obtain ⟨_, h2, h3⟩ :=
    runQueue_executed event_argument (b.queueOf event_name) b.id_callback_map w
  obtain ⟨hl, ha, hq, _⟩ := runQueue_of_special event_argument (b.queueOf event_name)
    b.id_callback_map w i id eActionOnReturn.kDefer hi (by decide)
  rw [if_neg (by decide)] at hq
  rw [hl] at h2 h3
  have hrest : (b.invokeCallbacks event_name event_argument w).bus.queueOf event_name
      = (b.queueOf event_name).drop (i + 1) := by
    rw [queueOf_invokeCallbacks, hq]
  obtain ⟨k2, k3⟩ := invokeCallbacks_executed
    (b.invokeCallbacks event_name event_argument w).bus event_name event_argument
    (b.invokeCallbacks event_name event_argument w).world
  rw [hrest] at k2 k3
  refine ⟨hl, h2, h3, ha, hrest, k2, k3, ?_⟩
  intro hne
  rw [← hrest] at hne
  exact runQueue_executed_ne_nil event_argument _ _ _ hne

theorem invokeCallbacks_runs_queue_witness :
    (doubleInvokeBus.invokeCallbacks strEventName strWord 0).action = eActionOnReturn.kNone ∧
      (doubleInvokeBus.invokeCallbacks strEventName strWord 0).executed.map Prod.fst
        = (doubleInvokeBus.queueOf strEventName).map Prod.snd ∧
      (doubleInvokeBus.invokeCallbacks strEventName strWord 0).world
        = runAll strWord (doubleInvokeBus.queueOf strEventName) 0 ∧
      (doubleInvokeBus.invokeCallbacks strEventName strWord 0).bus.queueOf strEventName = [] ∧
      ((doubleInvokeBus.invokeCallbacks strEventName strWord 0).bus.invokeCallbacks
          strEventName strWord
          (doubleInvokeBus.invokeCallbacks strEventName strWord 0).world).action
        = eActionOnReturn.kNone ∧
      ((doubleInvokeBus.invokeCallbacks strEventName strWord 0).bus.invokeCallbacks
          strEventName strWord
          (doubleInvokeBus.invokeCallbacks strEventName strWord 0).world).executed = [] ∧
      ((doubleInvokeBus.invokeCallbacks strEventName strWord 0).bus.invokeCallbacks
          strEventName strWord
          (doubleInvokeBus.invokeCallbacks strEventName strWord 0).world).world
        = (doubleInvokeBus.invokeCallbacks strEventName strWord 0).world :=
  (invokeCallbacks_runs_queue doubleInvokeBus strEventName strWord 0 _ rfl).2.2.2 (by decide)

theorem invokeCallbacks_kCancel_witness :
    (cancelOddBus eActionOnReturn.kCancel |>.invokeCallbacks strEventName strUnused 0).executed.length
        = 1 + 1 ∧
      (cancelOddBus eActionOnReturn.kCancel |>.invokeCallbacks strEventName strUnused 0).world = 2 ∧
      (cancelOddBus eActionOnReturn.kCancel |>.invokeCallbacks strEventName strUnused 0).action
        = eActionOnReturn.kCancel :=
  have h := invokeCallbacks_kCancel (cancelOddBus eActionOnReturn.kCancel) strEventName strUnused 0
    _ rfl 1 1 (by decide) (by
      intro j x hj hx
      have hj0 : j = 0 := by omega
      subst hj0
      have : x = (0, eActionOnReturn.kNone) := by
        have h0 : (cancelOddBus eActionOnReturn.kCancel |>.invokeCallbacks strEventName
            strUnused 0).executed[0]? = some (0, eActionOnReturn.kNone) := by decide
        rw [h0] at hx
        exact (Option.some.inj hx).symm
      rw [this]
      decide)
  ⟨h.1, by rw [h.2.2.1]; decide, h.2.2.2.1⟩

theorem invokeCallbacks_kDefer_witness :
    (cancelOddBus eActionOnReturn.kDefer |>.invokeCallbacks strEventName strUnused 0).executed.length
        = 1 + 1 ∧
      (cancelOddBus eActionOnReturn.kDefer |>.invokeCallbacks strEventName strUnused 0).world = 2 ∧
      (cancelOddBus eActionOnReturn.kDefer |>.invokeCallbacks strEventName strUnused 0).action
        = eActionOnReturn.kDefer ∧
      ((cancelOddBus eActionOnReturn.kDefer |>.invokeCallbacks strEventName
          strUnused 0).bus.queueOf strEventName).map Prod.snd = [2] :=
  have h := invokeCallbacks_kDefer (cancelOddBus eActionOnReturn.kDefer) strEventName strUnused 0
    _ rfl 1 1 (by decide) (by
      intro j x hj hx
      have hj0 : j = 0 := by omega
      subst hj0
      have : x = (0, eActionOnReturn.kNone) := by
        have h0 : (cancelOddBus eActionOnReturn.kDefer |>.invokeCallbacks strEventName
            strUnused 0).executed[0]? = some (0, eActionOnReturn.kNone) := by decide
        rw [h0] at hx
        exact (Option.some.inj hx).symm
      rw [this]
      decide)
  ⟨h.1, by rw [h.2.2.1]; decide, h.2.2.2.1, by rw [h.2.2.2.2.1]; decide⟩

/-- C15, at the input where it fails: in the test case on cancelation the
second callback returns `kCancel` and the queue is cleared, but the ID of the
third callback, which was never executed, stays in the ID map; a later
`cancelCallback` of that ID finds it and writes through the iterator of the
erased node. -/
theorem cancelCallback_after_kCancel :
    (cancelOddBus eActionOnReturn.kCancel |>.invokeCallbacks strEventName strUnused 0).action
        = eActionOnReturn.kCancel ∧
      (cancelOddBus eActionOnReturn.kCancel |>.invokeCallbacks strEventName strUnused 0).executed
        = [(0, eActionOnReturn.kNone), (1, eActionOnReturn.kCancel)] ∧
      ((cancelOddBus eActionOnReturn.kCancel |>.invokeCallbacks strEventName
          strUnused 0).bus.queueOf strEventName).length = 0 ∧
      (cancelOddBus eActionOnReturn.kCancel |>.invokeCallbacks strEventName
          strUnused 0).bus.id_callback_map 2 = some strEventName ∧
      ((cancelOddBus eActionOnReturn.kCancel |>.invokeCallbacks strEventName
          strUnused 0).bus.cancelCallback 2).isNone = true := by
  decide

/-- C16: on a bus constructed with `case_sensitive = false`, two names share a
queue exactly when they differ only in ASCII letter case: a callback added
under one name joins the queue that `invokeCallbacks` runs for the other in
that case, and leaves it alone otherwise.  In the test case, the callbacks
added under "SendEmail", "SENDEMAIL" and "sendemail" are executed by a call
under any of these names, and the one added under "Send email" is not. -/
theorem invokeCallbacks_ignores_case (b : EventBus σ)
    (hb : b.case_sensitive_event_names_ = false) (n₁ n₂ : List Nat)
    (new_callback : List Nat → σ → σ) :
    (SameUpToCase n₁ n₂ ↔ b.preprocessEventName n₁ = b.preprocessEventName n₂) ∧
      (SameUpToCase n₁ n₂ →
        ((b.addCallback n₁ new_callback).2.queueOf n₂).map Prod.snd
          = (b.queueOf n₂).map Prod.snd ++ [(b.addCallback n₁ new_callback).1]) ∧
      (¬ SameUpToCase n₁ n₂ →
        (b.addCallback n₁ new_callback).2.queueOf n₂ = b.queueOf n₂) ∧
      (∀ name ∈ [strSendEmail, strSENDEMAIL, strSendemail],
        (caseInsensitiveBus.invokeCallbacks name strTest 0).action = eActionOnReturn.kNone ∧
        (caseInsensitiveBus.invokeCallbacks name strTest 0).executed.map Prod.fst = [0, 1, 2] ∧
        (caseInsensitiveBus.invokeCallbacks name strTest 0).world = 12 ∧
        ((caseInsensitiveBus.invokeCallbacks name strTest 0).bus.queueOf
          strSendSpaceEmail).map Prod.snd = [3]) := by
  have hpre : ∀ n, b.preprocessEventName n = n.map tolower := by
    intro n
    simp [preprocessEventName, hb]
  have hiff : SameUpToCase n₁ n₂ ↔ b.preprocessEventName n₁ = b.preprocessEventName n₂ := by
    rw [hpre, hpre, sameUpToCase_iff]
  refine ⟨hiff, ?_, ?_, by decide⟩
  · intro h
    have := hiff.1 h
    simp [addCallback, addImpl, queueOf, preprocessEventName, hb] at this ⊢
    simp [this]
  · intro h
    have : ¬ b.preprocessEventName n₁ = b.preprocessEventName n₂ := fun h' => h (hiff.2 h')
    simp [addCallback, addImpl, queueOf, preprocessEventName, hb] at this ⊢
    intro h'
    exact absurd h'.symm this

theorem invokeCallbacks_ignores_case_witness :
    SameUpToCase strSendEmail strSENDEMAIL ∧ ¬ SameUpToCase strSendSpaceEmail strSendEmail ∧
      (((EventBus.new false : EventBus Nat).addCallback strSendEmail
          (fun s val => val + s.length)).2.queueOf strSENDEMAIL).map Prod.snd = [0] :=
  have h := invokeCallbacks_ignores_case (EventBus.new false : EventBus Nat) rfl strSendEmail
    strSENDEMAIL (fun s val => val + s.length)
  have h' := invokeCallbacks_ignores_case (EventBus.new false : EventBus Nat) rfl
    strSendSpaceEmail strSendEmail (fun s val => val + s.length)
  ⟨h.1.2 (by decide), fun hs => absurd (h'.1.1 hs) (by decide), by
    rw [h.2.1 (h.1.2 (by decide))]
    decide⟩

end EventBus
